import Mathlib

/-!
# Rich-text editor command layer (`src/components/TextEditor.js`)

A shallow embedding of the formatting command layer of the editor
(`CustomEditor`), of the `Leaf` renderer and of the load step of the
`TextEditor` component, together with a model of the primitives of the
editing engine (`Editor.nodes`, `Editor.marks`, `Editor.addMark`,
`Editor.removeMark`, `Transforms.setNodes`, `Transforms.unwrapNodes`,
`Transforms.wrapNodes`) that the command layer calls.
-/

set_option autoImplicit false

namespace TextEditor

/-! ## JavaScript values -/

/-- A property value of a text node: the JSON scalars. An absent property
(`undefined`) is `none` at the type `Option JsVal`. -/
inductive JsVal where
  | null
  | bool (b : Bool)
  | num (n : Int)
  | str (s : String)
  deriving DecidableEq, Repr

/-- JavaScript truthiness of a property that may be absent (`if (leaf.bold)`). -/
def truthy : Option JsVal → Bool
  | none => false
  | some .null => false
  | some (.bool b) => b
  | some (.num n) => n != 0
  | some (.str s) => s != ""

/-- Strict comparison with `true` (`marks[format] === true`). -/
def strictlyTrue : Option JsVal → Bool
  | some (.bool true) => true
  | _ => false

/-! ## Document model -/

/-- The four mark names of the editor: the values of `HOTKEYS` and the
`format` of the four `MarkButton`s. -/
inductive Mark where
  | bold
  | italic
  | underline
  | code
  deriving DecidableEq, Repr

/-- The formatting properties of a text node (`const { text, ...rest } = node`). -/
structure Marks where
  bold : Option JsVal := none
  italic : Option JsVal := none
  underline : Option JsVal := none
  code : Option JsVal := none
  deriving DecidableEq, Repr

/-- Property read `marks[format]`. -/
def Marks.get (ms : Marks) : Mark → Option JsVal
  | .bold => ms.bold
  | .italic => ms.italic
  | .underline => ms.underline
  | .code => ms.code

/-- Property write `{ ...marks, [key]: value }`; `none` deletes the key. -/
def Marks.set (ms : Marks) (key : Mark) (value : Option JsVal) : Marks :=
  match key with
  | .bold => { ms with bold := value }
  | .italic => { ms with italic := value }
  | .underline => { ms with underline := value }
  | .code => { ms with code := value }

/-- A text node (leaf): `{ text, bold?, italic?, underline?, code? }`. -/
structure Text where
  text : String
  marks : Marks := {}
  deriving DecidableEq, Repr

/-! ## Rendering layer: `Leaf` -/

/-- Rendered markup: a text run or an HTML element around one child. -/
inductive Markup where
  | text (s : String)
  | tag (name : String) (child : Markup)
  deriving DecidableEq, Repr

/-- The `Leaf` component: four successive `if (leaf.flag)` reassignments of
`children`, then the enclosing `span`. -/
def Leaf (children : Markup) (leaf : Text) : Markup :=
  let children := if truthy leaf.marks.bold then Markup.tag "strong" children else children
  let children := if truthy leaf.marks.code then Markup.tag "code" children else children
  let children := if truthy leaf.marks.italic then Markup.tag "em" children else children
  let children := if truthy leaf.marks.underline then Markup.tag "u" children else children
  Markup.tag "span" children

/-- Nesting of flag wrappers listed outermost first: each flag that is truthy
contributes exactly one wrapper, the others none. -/
def nestOuterFirst (leaf : Text) : List (Mark × String) → Markup → Markup
  | [], inner => inner
  | (m, name) :: rest, inner =>
    if truthy (leaf.marks.get m) then Markup.tag name (nestOuterFirst leaf rest inner)
    else nestOuterFirst leaf rest inner

/-- The nesting order the specification gives, outermost first. -/
def specOrder : List (Mark × String) :=
  [(.bold, "strong"), (.code, "code"), (.italic, "em"), (.underline, "u")]

/-- The nesting order of the source, outermost first. -/
def sourceOrder : List (Mark × String) :=
  [(.underline, "u"), (.italic, "em"), (.code, "code"), (.bold, "strong")]

/-- Number of elements around the innermost text run. -/
def Markup.depth : Markup → Nat
  | .text _ => 0
  | .tag _ c => c.depth + 1

/-- Number of truthy flags of a leaf. -/
def truthyCount (leaf : Text) : Nat :=
  ([Mark.bold, Mark.code, Mark.italic, Mark.underline].filter
    (fun m => truthy (leaf.marks.get m))).length

/-! ## Engine model: nodes, paths, points, ranges -/

/-- A node of the document tree: a text node or an element with a `type`
and child nodes. Every element is a block (`editor.isInline` and
`editor.isVoid` keep their defaults, which answer `false`). -/
inductive Node where
  | text (leaf : Text)
  | element (type : String) (children : List Node)
  deriving Repr

mutual
/-- Decidable equality of nodes. -/
def Node.decEq : (a b : Node) → Decidable (a = b)
  | .text x, .text y =>
    if h : x = y then Decidable.isTrue (by rw [h]) else Decidable.isFalse (by intro e; cases e; exact h rfl)
  | .text _, .element _ _ => Decidable.isFalse (by intro e; cases e)
  | .element _ _, .text _ => Decidable.isFalse (by intro e; cases e)
  | .element t cs, .element u ds =>
    if h : t = u then
      match Node.decEqList cs ds with
      | Decidable.isTrue h2 => Decidable.isTrue (by rw [h, h2])
      | Decidable.isFalse h2 => Decidable.isFalse (by intro e; cases e; exact h2 rfl)
    else Decidable.isFalse (by intro e; cases e; exact h rfl)
/-- Decidable equality of lists of nodes. -/
def Node.decEqList : (a b : List Node) → Decidable (a = b)
  | [], [] => Decidable.isTrue rfl
  | [], _ :: _ => Decidable.isFalse (by intro e; cases e)
  | _ :: _, [] => Decidable.isFalse (by intro e; cases e)
  | a :: as, b :: bs =>
    match Node.decEq a b, Node.decEqList as bs with
    | Decidable.isTrue h1, Decidable.isTrue h2 => Decidable.isTrue (by rw [h1, h2])
    | Decidable.isFalse h1, _ => Decidable.isFalse (by intro e; cases e; exact h1 rfl)
    | _, Decidable.isFalse h2 => Decidable.isFalse (by intro e; cases e; exact h2 rfl)
end

instance : DecidableEq Node := Node.decEq

/-- A path: the child indexes from the root down to a node. -/
abbrev Path := List Nat

/-- A point: the path of a text node and an offset into its text. -/
structure Point where
  path : Path
  offset : Nat
  deriving DecidableEq, Repr

/-- A range: anchor and focus, in either order. -/
structure Range where
  anchor : Point
  focus : Point
  deriving DecidableEq, Repr

/-- The editor object: the document (`editor.children`), the selection
(`editor.selection`, `null` is `none`) and the pending marks (the field
`editor.marks`, `null` is `none`; the name `Editor.marks` is the query). -/
structure Editor where
  children : List Node
  selection : Option Range := none
  pendingMarks : Option Marks := none
  deriving DecidableEq, Repr

/-- `Text.isText`. -/
def Node.isText : Node → Bool
  | .text _ => true
  | .element _ _ => false

/-- `Editor.isBlock`: an element that is not inline; no element is inline. -/
def Node.isBlock : Node → Bool
  | .text _ => false
  | .element _ _ => true

/-- Outcome of `n.type === format`: a text node has no `type`. -/
def Node.hasType (format : String) : Node → Bool
  | .text _ => false
  | .element t _ => t == format

/-- `Path.compare`: compares the common length only, so that a path and
its ancestors compare equal. -/
def Path.compare : Path → Path → Ordering
  | a :: p, b :: q => if a < b then .lt else if b < a then .gt else Path.compare p q
  | _, _ => .eq

/-- `Path.isAncestor`. -/
def Path.isAncestor (p q : Path) : Bool :=
  decide (p.length < q.length) && Path.compare p q == .eq

/-- `Path.parent`. -/
def Path.parent (p : Path) : Path := p.dropLast

/-- `Path.common`: the longest common ancestor path. -/
def Path.common : Path → Path → Path
  | a :: p, b :: q => if a = b then a :: Path.common p q else []
  | _, _ => []

/-- `Point.compare`. -/
def Point.compare (a b : Point) : Ordering :=
  match Path.compare a.path b.path with
  | .eq => if a.offset < b.offset then .lt else if b.offset < a.offset then .gt else .eq
  | r => r

/-- `Range.isBackward`. -/
def Range.isBackward (r : Range) : Bool := Point.compare r.anchor r.focus == .gt

/-- `Range.edges`: start and end point of the range. -/
def Range.edges (r : Range) : Point × Point :=
  if r.isBackward then (r.focus, r.anchor) else (r.anchor, r.focus)

/-- `Range.isCollapsed`. -/
def Range.isCollapsed (r : Range) : Bool := decide (r.anchor = r.focus)

/-- `Range.isExpanded`. -/
def Range.isExpanded (r : Range) : Bool := !r.isCollapsed

/-- `Node.get` below the root; `none` where the engine throws. -/
def Node.get? : List Node → Path → Option Node
  | _, [] => none
  | cs, [i] => cs[i]?
  | cs, i :: j :: rest =>
    match cs[i]? with
    | some (.element _ kids) => Node.get? kids (j :: rest)
    | _ => none

/-- The children of the node at a path, the root included (`[]`). -/
def Node.childrenAt (cs : List Node) : Path → Option (List Node)
  | [] => some cs
  | p@(_ :: _) =>
    match Node.get? cs p with
    | some (.element _ kids) => some kids
    | _ => none

mutual
/-- All nodes of a subtree with their paths, in document order. -/
def Node.entries (p : Path) : Node → List (Node × Path)
  | .text leaf => [(.text leaf, p)]
  | .element t cs => (.element t cs, p) :: Node.entriesList p 0 cs
/-- All nodes below a list of siblings, the first of which has index `i`. -/
def Node.entriesList (p : Path) (i : Nat) : List Node → List (Node × Path)
  | [] => []
  | c :: cs => Node.entries (p ++ [i]) c ++ Node.entriesList p (i + 1) cs
end

/-- Whether a path is visited by `Node.nodes` from `first` to `last`: not
before `first` and not after `last` in the sense of `Path.compare`. -/
def inSpan (first last p : Path) : Bool :=
  Path.compare p first != .lt && Path.compare p last != .gt

/-- The traversal modes of `Editor.nodes` the editor uses. -/
inductive Mode where
  | all
  | lowest
  deriving DecidableEq, Repr

/-- One iteration of the loop of `Editor.nodes` in mode `lowest`: the state
is the last hit and the entries emitted so far. -/
def lowestStep (matchFn : Node → Bool)
    (st : Option (Node × Path) × List (Node × Path)) (e : Node × Path) :
    Option (Node × Path) × List (Node × Path) :=
  let isLower : Bool := match st.1 with
    | some hit => Path.compare e.2 hit.2 == .eq
    | none => false
  if !matchFn e.1 then st
  else if isLower then (some e, st.2)
  else (some e, st.2 ++ st.1.toList)

/-- `Editor.nodes(editor, { at: [first, last], match, mode })` without the
root, which none of the predicates used here matches. -/
def Editor.nodes (children : List Node) (first last : Path) (matchFn : Node → Bool)
    (mode : Mode) : List (Node × Path) :=
  let visited := (Node.entriesList [] 0 children).filter (fun e => inSpan first last e.2)
  match mode with
  | .all => visited.filter (fun e => matchFn e.1)
  | .lowest =>
    let st := visited.foldl (lowestStep matchFn) (none, [])
    st.2 ++ st.1.toList

/-- `Editor.nodes` at a range: from the path of its start to that of its end. -/
def Editor.nodesAt (children : List Node) (r : Range) (matchFn : Node → Bool)
    (mode : Mode) : List (Node × Path) :=
  Editor.nodes children r.edges.1.path r.edges.2.path matchFn mode

/-! ## Engine model: tree updates -/

/-- Replace the `i`-th member of a list by its image under `f`. -/
def modifyNth {α : Type} (f : α → α) : Nat → List α → List α
  | _, [] => []
  | 0, x :: xs => f x :: xs
  | i + 1, x :: xs => x :: modifyNth f i xs

/-- Apply `f` to the node at a path (`set_node` and the like). -/
def Node.mapAt (f : Node → Node) : Path → List Node → List Node
  | [], cs => cs
  | [i], cs => modifyNth f i cs
  | i :: j :: rest, cs =>
    modifyNth (fun n => match n with
      | .element t kids => .element t (Node.mapAt f (j :: rest) kids)
      | .text leaf => .text leaf) i cs

/-- Apply `f` to the list of children of the node at a path (the root for `[]`). -/
def Node.updateChildren (f : List Node → List Node) : Path → List Node → List Node
  | [], cs => f cs
  | i :: rest, cs =>
    modifyNth (fun n => match n with
      | .element t kids => .element t (Node.updateChildren f rest kids)
      | .text leaf => .text leaf) i cs

/-- The first `n` characters of a string (`text.slice(0, n)`). -/
def strTake (s : String) (n : Nat) : String := String.mk (s.data.take n)

/-- A string without its first `n` characters (`text.slice(n)`). -/
def strDrop (s : String) (n : Nat) : String := String.mk (s.data.drop n)

/-- The operation `split_node` on the text node `i` of a list of siblings:
two text nodes with the properties of the original. -/
def splitText (i offset : Nat) : List Node → List Node
  | [] => []
  | c :: cs =>
    match i, c with
    | 0, .text leaf =>
      .text { leaf with text := strTake leaf.text offset } ::
        .text { leaf with text := strDrop leaf.text offset } :: cs
    | 0, .element t kids => .element t kids :: cs
    | i + 1, c => c :: splitText i offset cs

/-- The text node a point lies in. -/
def Editor.leaf (children : List Node) (p : Path) : Option Text :=
  match Node.get? children p with
  | some (.text leaf) => some leaf
  | _ => none

/-- `Editor.isEdge` of a point in its text node: at offset 0 or at the end.
A point that is not in a text node counts as an edge (nothing to split). -/
def Editor.isEdge (children : List Node) (pt : Point) : Bool :=
  match Editor.leaf children pt.path with
  | some leaf => pt.offset == 0 || pt.offset == leaf.text.length
  | none => true

/-- `Path.next`. -/
def Path.next (p : Path) : Path :=
  match p.getLast? with
  | some i => p.dropLast ++ [i + 1]
  | none => []

/-- `Path.endsBefore`: same parent (or an ancestor of `q` has the same
parent as `p`) and a smaller index at the depth of `p`. -/
def Path.endsBefore (p q : Path) : Bool :=
  match p.getLast?, q[p.length - 1]? with
  | some a, some b => decide (p.dropLast = q.take (p.length - 1)) && decide (a < b)
  | _, _ => false

/-- Add `d` to the index at depth `k` of a path. -/
def Path.bump (k d : Nat) (q : Path) : Path := modifyNth (fun i => i + d) k q

/-- `Point.transform` for the `split_node` of a text node at `op.path` and
position `op.offset`, with affinity `forward` or `backward`. -/
def Point.afterSplit (op : Point) (forward : Bool) (p : Point) : Point :=
  if p.path = op.path then
    if op.offset < p.offset || (op.offset == p.offset && forward) then
      { path := Path.next op.path, offset := p.offset - op.offset }
    else p
  else if Path.endsBefore op.path p.path then
    { p with path := Path.bump (op.path.length - 1) 1 p.path }
  else p

/-- `Transforms.splitNodes(editor, { at: pt, match: Text.isText })` with
`always: false`: the text node is split unless the point is at its edge. -/
def Transforms.splitNodes (children : List Node) (pt : Point) : List Node :=
  if Editor.isEdge children pt then children
  else Node.updateChildren (splitText (pt.path.getLastD 0) pt.offset) (Path.parent pt.path) children

/-! ## Engine model: normalisation of text runs -/

/-- Merging of adjacent text nodes with equal properties (`Text.equals` with
`loose: true`, then `merge_node`); `acc` is the text node being built. -/
def mergeAdj : Option Text → List Node → List Node
  | none, [] => []
  | some a, [] => [.text a]
  | none, .text b :: rest => mergeAdj (some b) rest
  | some a, .text b :: rest =>
    if a.marks = b.marks then mergeAdj (some { a with text := a.text ++ b.text }) rest
    else .text a :: mergeAdj (some b) rest
  | none, .element t kids :: rest => .element t kids :: mergeAdj none rest
  | some a, .element t kids :: rest => .text a :: .element t kids :: mergeAdj none rest

/-- Length of the text of the last node of a list, 0 if it is not a text node. -/
def lastTextLength (cs : List Node) : Nat :=
  match cs.getLast? with
  | some (.text leaf) => leaf.text.length
  | _ => 0

/-- Where the point at offset `o` of child `i` lies after `mergeAdj`: in the
merged run of child `i`, behind the text of the earlier members of the run. -/
def mergePos (cs : List Node) (i o : Nat) : Nat × Nat :=
  let upTo := mergeAdj none (cs.take (i + 1))
  let own := match cs[i]? with
    | some (.text leaf) => leaf.text.length
    | _ => 0
  (upTo.length - 1, lastTextLength upTo - own + o)

/-- A point after the normalisation of its parent. -/
def Point.afterMerge (children : List Node) (pt : Point) : Point :=
  match Node.childrenAt children (Path.parent pt.path), pt.path.getLast? with
  | some kids, some i =>
    let r := mergePos kids i pt.offset
    { path := Path.parent pt.path ++ [r.1], offset := r.2 }
  | _, _ => pt

/-- Normalisation after a transform on the text nodes from `first` to `last`:
the engine normalises the ancestors of the nodes it touched, which are the
elements the traversal from `first` to `last` visits. Of the engine's rules
the merging of adjacent text nodes with equal properties is reproduced; the
others (removal of an empty text node beside another text node, repair of
an element with children of mixed kind or none) do not fire on a document
in the engine's normal form. -/
def Editor.normalizeSpan (children : List Node) (first last : Path) : List Node :=
  (Editor.nodes children first last Node.isBlock .all).foldr
    (fun e cs => Node.updateChildren (mergeAdj none) e.2 cs) children

/-! ## Engine model: marks -/

/-- `Editor.unhangRange`: a range that starts at offset 0 and ends at
offset 0 of a later text node ends at the end of the nearest earlier text
node that is not empty or lies before the block of the end point. -/
def Editor.unhangRange (children : List Node) (r : Range) : Range :=
  let startPt := r.edges.1
  let endPt := r.edges.2
  if startPt.offset != 0 || endPt.offset != 0 || r.isCollapsed then r
  else
    let blockPath := if endPt.path.length < 2 then [] else Path.parent endPt.path
    let before := (Editor.nodes children [] endPt.path Node.isText .all).reverse.drop 1
    let hit := before.find? (fun e => match e.1 with
      | .text leaf => leaf.text != "" || Path.compare e.2 blockPath == .lt
      | .element _ _ => false)
    match hit with
    | some (.text leaf, p) => { anchor := startPt, focus := { path := p, offset := leaf.text.length } }
    | _ => { anchor := startPt, focus := endPt }

/-- The operation `set_node` with `newProperties = { [key]: value }` on a
text node; `value = none` deletes the property. -/
def Node.setMark (key : Mark) (value : Option JsVal) : Node → Node
  | .text leaf => .text { leaf with marks := leaf.marks.set key value }
  | .element t kids => .element t kids

/-- `Transforms.setNodes(editor, { [key]: value }, { match: Text.isText,
split: true })` at the selection; `value = none` is the `null` of
`Transforms.unsetNodes`, which deletes the property. -/
def Transforms.setTextNodes (editor : Editor) (key : Mark) (value : Option JsVal) : Editor :=
  match editor.selection with
  | none => editor
  | some sel =>
    let range := Editor.unhangRange editor.children sel
    let start0 := range.edges.1
    let end0 := range.edges.2
    -- split at the end, then at the start; the range reference has affinity inward
    let splitEnd := !Editor.isEdge editor.children end0
    let cs1 := Transforms.splitNodes editor.children end0
    let start1 := if splitEnd then Point.afterSplit end0 true start0 else start0
    let end1 := if splitEnd then Point.afterSplit end0 false end0 else end0
    let splitStart := !Editor.isEdge cs1 start1
    let cs2 := Transforms.splitNodes cs1 start1
    let start2 := if splitStart then Point.afterSplit start1 true start1 else start1
    let end2 := if splitStart then Point.afterSplit start1 false end1 else end1
    let range2 : Range :=
      if range.isBackward then { anchor := end2, focus := start2 }
      else { anchor := start2, focus := end2 }
    -- set_node on every text node of the range
    let cs3 := (Editor.nodes cs2 start2.path end2.path Node.isText .lowest).foldl
      (fun cs e => Node.mapAt (Node.setMark key value) e.2 cs) cs2
    -- normalisation, and the selection carried along
    let cs4 := Editor.normalizeSpan cs3 start2.path end2.path
    let range4 : Range :=
      { anchor := Point.afterMerge cs3 range2.anchor, focus := Point.afterMerge cs3 range2.focus }
    { children := cs4
      selection := some range4
      pendingMarks := if range2 = sel then editor.pendingMarks else none }

/-- The nearest text node before a path in document order (`Editor.previous`
with `match: Text.isText`). -/
def Editor.previousText (children : List Node) (p : Path) : Option (Text × Path) :=
  match ((Node.entriesList [] 0 children).filter
      (fun e => e.1.isText && Path.compare e.2 p == .lt)).getLast? with
  | some (.text leaf, q) => some (leaf, q)
  | _ => none

/-- `Editor.marks`: the pending marks if there are any; for an expanded
selection the properties of the first text node of the selection; for a
collapsed one the properties of the text node of the cursor, or of the text
node before it in the same block when the cursor is at offset 0. `none` is
`null` (no selection; also where the engine throws on a selection that is
not in a text node). -/
def Editor.marks (editor : Editor) : Option Marks :=
  match editor.selection with
  | none => none
  | some sel =>
    match editor.pendingMarks with
    | some marks => some marks
    | none =>
      if sel.isExpanded then
        match (Editor.nodesAt editor.children sel Node.isText .all).head? with
        | some (.text leaf, _) => some leaf.marks
        | _ => some {}
      else
        match Editor.leaf editor.children sel.anchor.path with
        | none => none
        | some leaf =>
          if sel.anchor.offset = 0 then
            match Editor.previousText editor.children sel.anchor.path with
            | some (prevLeaf, prevPath) =>
              if 2 ≤ sel.anchor.path.length
                  && Path.isAncestor (Path.parent sel.anchor.path) prevPath then
                some prevLeaf.marks
              else some leaf.marks
            | none => some leaf.marks
          else some leaf.marks

/-- `editor.addMark(key, value)`: on an expanded selection the text nodes of
the selection are split at its edges and receive the property; on a collapsed
one only the pending marks change. -/
def Editor.addMark (editor : Editor) (key : Mark) (value : JsVal) : Editor :=
  match editor.selection with
  | none => editor
  | some sel =>
    if sel.isExpanded then Transforms.setTextNodes editor key (some value)
    else { editor with pendingMarks := some (((Editor.marks editor).getD {}).set key (some value)) }

/-- `editor.removeMark(key)`: `Transforms.unsetNodes` on an expanded
selection, `delete marks[key]` on the pending marks on a collapsed one. -/
def Editor.removeMark (editor : Editor) (key : Mark) : Editor :=
  match editor.selection with
  | none => editor
  | some sel =>
    if sel.isExpanded then Transforms.setTextNodes editor key none
    else { editor with pendingMarks := some (((Editor.marks editor).getD {}).set key none) }

/-! ## The command layer: marks -/

/-- `CustomEditor.isMarkActive`. -/
def CustomEditor.isMarkActive (editor : Editor) (format : Mark) : Bool :=
  match Editor.marks editor with
  | some marks => strictlyTrue (marks.get format)
  | none => false

/-- `CustomEditor.toggleMark`. -/
def CustomEditor.toggleMark (editor : Editor) (format : Mark) : Editor :=
  let isActive := CustomEditor.isMarkActive editor format
  if isActive then Editor.removeMark editor format
  else Editor.addMark editor format (.bool true)

/-! ## Engine model: block transforms -/

/-- `Editor.nodes(editor, { match, mode })` at the selection; nothing
without a selection. -/
def Editor.nodesSel (editor : Editor) (matchFn : Node → Bool) (mode : Mode) :
    List (Node × Path) :=
  match editor.selection with
  | none => []
  | some sel => Editor.nodesAt editor.children sel matchFn mode

/-- The operation `set_node` with `newProperties = { type }`. -/
def Node.setType (type : String) : Node → Node
  | .text leaf => .text leaf
  | .element _ kids => .element type kids

/-- The nodes `Transforms.setNodes(editor, props)` acts on: the default
`match` is `Editor.isBlock`, the default mode `lowest`, the range is the
selection after `Editor.unhangRange`. -/
def Transforms.setNodesTargets (editor : Editor) : List (Node × Path) :=
  match editor.selection with
  | none => []
  | some sel =>
    Editor.nodesAt editor.children (Editor.unhangRange editor.children sel) Node.isBlock .lowest

/-- `Transforms.setNodes(editor, { type })`: a `set_node` on each target. -/
def Transforms.setNodes (editor : Editor) (type : String) : Editor :=
  { editor with
    children := (Transforms.setNodesTargets editor).foldl
      (fun cs e => Node.mapAt (Node.setType type) e.2 cs) editor.children }

/-- The net effect of `Transforms.liftNodes` on the children `a` to `b` of
the element at index `idx` of a list of siblings: the element is split
around them (a part that would be empty is not created, and the element
disappears when all its children are lifted) and they take its place. -/
def spliceLift (idx a b : Nat) (cs : List Node) : List Node :=
  match cs[idx]? with
  | some (.element t kids) =>
    cs.take idx ++
      ((if 0 < a then [Node.element t (kids.take a)] else []) ++
        (kids.drop a).take (b + 1 - a) ++
        (if b + 1 < kids.length then [Node.element t (kids.drop (b + 1))] else [])) ++
      cs.drop (idx + 1)
  | _ => cs

/-- Where a path leads after the children `a` to `b` of the element at
path `p`, which has `n` children, are lifted. -/
def Path.afterLift (p : Path) (a b n : Nat) (q : Path) : Path :=
  let d := p.length - 1
  let off := if 0 < a then 1 else 0
  match p.getLast?, q[d]? with
  | some idx, some k =>
    if q.take d ≠ p.dropLast ∨ k < idx then q
    else if k = idx then
      match q[d + 1]? with
      | some j =>
        if j < a then q
        else if j ≤ b then q.take d ++ [idx + off + (j - a)] ++ q.drop (d + 2)
        else q.take d ++ [idx + off + (b + 1 - a), j - (b + 1)] ++ q.drop (d + 2)
      | none => q
    else
      q.take d ++ [k + off + (b + 1 - a) + (if b + 1 < n then 1 else 0) - 1] ++ q.drop (d + 1)
  | _, _ => q

/-- Unwrapping of one element with `split: true`: its children that the
traversal from `first` to `last` visits are lifted. -/
def unwrapOne (first last : Path) (editor : Editor) (p : Path) : Editor :=
  match Node.get? editor.children p, p.getLast? with
  | some (.element _ kids), some idx =>
    let inRange := (List.range kids.length).filter (fun k => inSpan first last (p ++ [k]))
    match inRange.head?, inRange.getLast? with
    | some a, some b =>
      let move (pt : Point) : Point := { pt with path := Path.afterLift p a b kids.length pt.path }
      { editor with
        children := Node.updateChildren (spliceLift idx a b) (Path.parent p) editor.children
        selection := editor.selection.map (fun r => { anchor := move r.anchor, focus := move r.focus }) }
    | _, _ => editor
  | _, _ => editor

/-- `Transforms.unwrapNodes(editor, { match, split: true })` at the
selection, mode `lowest`. The matches are unrelated subtrees; they are
taken last to first, so that the paths of those still to come stay valid
(the engine takes them first to last through path references). -/
def Transforms.unwrapNodes (editor : Editor) (matchFn : Node → Bool) : Editor :=
  match editor.selection with
  | none => editor
  | some sel =>
    let first := sel.edges.1.path
    let last := sel.edges.2.path
    (Editor.nodes editor.children first last matchFn .lowest).foldr
      (fun e ed => unwrapOne first last ed e.2) editor

/-- The net effect of `insert_node` of the wrapper and the `move_node`s of
`Transforms.wrapNodes` on a list of siblings: the members `a` to `b` become
the children of a new element of the given type in their place. -/
def spliceWrap (type : String) (a b : Nat) (cs : List Node) : List Node :=
  cs.take a ++ [Node.element type ((cs.drop a).take (b + 1 - a))] ++ cs.drop (b + 1)

/-- Where a path leads after the children `a` to `b` of the node at path
`c` are wrapped. -/
def Path.afterWrap (c : Path) (a b : Nat) (q : Path) : Path :=
  let d := c.length
  match q[d]? with
  | some k =>
    if q.take d ≠ c ∨ k < a then q
    else if k ≤ b then q.take d ++ [a, k - a] ++ q.drop (d + 1)
    else q.take d ++ [k - (b - a)] ++ q.drop (d + 1)
  | none => q

/-- `Transforms.wrapNodes(editor, { type, children: [] })` at the selection:
the default `match` is `Editor.isBlock`, the default mode `lowest`; the
children of the common ancestor of the first and last match, from the one
that holds the first match to the one that holds the last, are wrapped. -/
def Transforms.wrapNodes (editor : Editor) (type : String) : Editor :=
  match editor.selection with
  | none => editor
  | some sel =>
    let found := Editor.nodesAt editor.children sel Node.isBlock .lowest
    match found.head?, found.getLast? with
    | some (_, firstPath), some (_, lastPath) =>
      let commonPath :=
        if firstPath = lastPath then Path.parent firstPath else Path.common firstPath lastPath
      let a := firstPath.getD commonPath.length 0
      let b := lastPath.getD commonPath.length 0
      let move (pt : Point) : Point := { pt with path := Path.afterWrap commonPath a b pt.path }
      { editor with
        children := Node.updateChildren (spliceWrap type a b) commonPath editor.children
        selection := some { anchor := move sel.anchor, focus := move sel.focus } }
    | _, _ => editor

/-! ## The command layer: blocks -/

/-- The constant `LIST_TYPES`. -/
def LIST_TYPES : List String := ["numbered-list", "bulleted-list"]

/-- The predicate `n => LIST_TYPES.includes(n.type)`. -/
def Node.isListType : Node → Bool
  | .text _ => false
  | .element t _ => LIST_TYPES.contains t

/-- `CustomEditor.isBlockActive`. -/
def CustomEditor.isBlockActive (editor : Editor) (format : String) : Bool :=
  (Editor.nodesSel editor (Node.hasType format) .all).head?.isSome

/-- `CustomEditor.toggleBlock`. -/
def CustomEditor.toggleBlock (editor : Editor) (format : String) : Editor :=
  let isActive := CustomEditor.isBlockActive editor format
  let isList := LIST_TYPES.contains format
  let editor := Transforms.unwrapNodes editor Node.isListType
  let editor := Transforms.setNodes editor
    (if isActive then "paragraph" else if isList then "list-item" else format)
  if !isActive && isList then Transforms.wrapNodes editor format else editor

/-! ## Persistence: `JSON.parse` and the initial value -/

/-- A JSON value. A number is kept as its lexeme. -/
inductive Json where
  | null
  | bool (b : Bool)
  | num (lexeme : String)
  | str (s : String)
  | arr (items : List Json)
  | obj (members : List (String × Json))
  deriving Repr

/-- JSON white space. -/
def isWs (c : Char) : Bool := c == ' ' || c == '\n' || c == '\r' || c == '\t'

/-- Skip leading white space. -/
def skipWs : List Char → List Char
  | [] => []
  | c :: cs => if isWs c then skipWs cs else c :: cs

/-- The value of a hexadecimal digit. -/
def hexVal (c : Char) : Option Nat :=
  if '0' ≤ c ∧ c ≤ '9' then some (c.toNat - '0'.toNat)
  else if 'a' ≤ c ∧ c ≤ 'f' then some (c.toNat - 'a'.toNat + 10)
  else if 'A' ≤ c ∧ c ≤ 'F' then some (c.toNat - 'A'.toNat + 10)
  else none

/-- The rest of a string literal, after the opening quote: the characters
read so far are in `acc`, in reverse. -/
def parseString : List Char → List Char → Option (String × List Char)
  | [], _ => none
  | '"' :: rest, acc => some (String.mk acc.reverse, rest)
  | '\\' :: 'u' :: a :: b :: c :: d :: rest, acc =>
    match hexVal a, hexVal b, hexVal c, hexVal d with
    | some x, some y, some z, some w =>
      parseString rest (Char.ofNat (((x * 16 + y) * 16 + z) * 16 + w) :: acc)
    | _, _, _, _ => none
  | '\\' :: e :: rest, acc =>
    match e with
    | '"' => parseString rest ('"' :: acc)
    | '\\' => parseString rest ('\\' :: acc)
    | '/' => parseString rest ('/' :: acc)
    | 'b' => parseString rest (Char.ofNat 8 :: acc)
    | 'f' => parseString rest (Char.ofNat 12 :: acc)
    | 'n' => parseString rest ('\n' :: acc)
    | 'r' => parseString rest ('\r' :: acc)
    | 't' => parseString rest ('\t' :: acc)
    | _ => none
  | c :: rest, acc => if c.toNat < 32 ∨ c = '\\' then none else parseString rest (c :: acc)

/-- The longest run of decimal digits at the head of the input. -/
def takeDigits : List Char → List Char × List Char
  | [] => ([], [])
  | c :: cs =>
    if c.isDigit then ((takeDigits cs).1 |>.cons c, (takeDigits cs).2) else ([], c :: cs)

/-- A number: `-? (0 | [1-9][0-9]*) (. [0-9]+)? ([eE] [+-]? [0-9]+)?`. -/
def parseNumber (cs : List Char) : Option (String × List Char) :=
  let (sign, cs) := match cs with
    | '-' :: rest => (['-'], rest)
    | _ => ([], cs)
  let (int, cs) := takeDigits cs
  if int = [] ∨ (int.head? = some '0' ∧ int.length ≠ 1) then none
  else
    let frac : Option (List Char × List Char) := match cs with
      | '.' :: rest =>
        let (ds, rest) := takeDigits rest
        if ds = [] then none else some ('.' :: ds, rest)
      | _ => some ([], cs)
    match frac with
    | none => none
    | some (fr, cs) =>
      let exp : Option (List Char × List Char) := match cs with
        | e :: rest =>
          if e = 'e' ∨ e = 'E' then
            let (sg, rest) := match rest with
              | '+' :: r => (['+'], r)
              | '-' :: r => (['-'], r)
              | _ => ([], rest)
            let (ds, rest) := takeDigits rest
            if ds = [] then none else some (e :: sg ++ ds, rest)
          else some ([], cs)
        | [] => some ([], cs)
      match exp with
      | none => none
      | some (ex, cs) => some (String.mk (sign ++ int ++ fr ++ ex), cs)

mutual
/-- One JSON value at the head of the input. The `fuel` bounds the depth of
the calls: one per level of nesting and one per earlier sibling. -/
def parseValue : Nat → List Char → Option (Json × List Char)
  | 0, _ => none
  | fuel + 1, cs =>
    match skipWs cs with
    | 'n' :: 'u' :: 'l' :: 'l' :: rest => some (.null, rest)
    | 't' :: 'r' :: 'u' :: 'e' :: rest => some (.bool true, rest)
    | 'f' :: 'a' :: 'l' :: 's' :: 'e' :: rest => some (.bool false, rest)
    | '"' :: rest =>
      match parseString rest [] with
      | some (s, rest) => some (.str s, rest)
      | none => none
    | '[' :: rest =>
      match skipWs rest with
      | ']' :: rest => some (.arr [], rest)
      | _ => parseElements fuel rest []
    | '{' :: rest =>
      match skipWs rest with
      | '}' :: rest => some (.obj [], rest)
      | _ => parseMembers fuel rest []
    | c :: rest =>
      if c = '-' ∨ c.isDigit then
        match parseNumber (c :: rest) with
        | some (lexeme, rest) => some (.num lexeme, rest)
        | none => none
      else none
    | [] => none
/-- The elements of an array after `[` or `,`. -/
def parseElements : Nat → List Char → List Json → Option (Json × List Char)
  | 0, _, _ => none
  | fuel + 1, cs, acc =>
    match parseValue fuel cs with
    | none => none
    | some (v, rest) =>
      match skipWs rest with
      | ',' :: rest => parseElements fuel rest (v :: acc)
      | ']' :: rest => some (.arr (v :: acc).reverse, rest)
      | _ => none
/-- The members of an object after `{` or `,`. -/
def parseMembers : Nat → List Char → List (String × Json) → Option (Json × List Char)
  | 0, _, _ => none
  | fuel + 1, cs, acc =>
    match skipWs cs with
    | '"' :: rest =>
      match parseString rest [] with
      | none => none
      | some (k, rest) =>
        match skipWs rest with
        | ':' :: rest =>
          match parseValue fuel rest with
          | none => none
          | some (v, rest) =>
            match skipWs rest with
            | ',' :: rest => parseMembers fuel rest ((k, v) :: acc)
            | '}' :: rest => some (.obj ((k, v) :: acc).reverse, rest)
            | _ => none
        | _ => none
    | _ => none
end

/-- `JSON.parse(text)`: one value with white space around it, or a
`SyntaxError` (`none`). -/
def JSON.parse (text : String) : Option Json :=
  match parseValue (text.length + 1) text.data with
  | some (v, rest) => if skipWs rest = [] then some v else none
  | none => none

/-- Whether a number lexeme denotes zero: no digit of its mantissa differs
from 0 (the underflow of a tiny non-zero literal to 0 is not modelled). -/
def lexemeIsZero (lexeme : String) : Bool :=
  (lexeme.data.takeWhile (fun c => c != 'e' && c != 'E')).all (fun c => !c.isDigit || c == '0')

/-- JavaScript truthiness of a parsed value (the left operand of `||`). -/
def Json.truthy : Json → Bool
  | .null => false
  | .bool b => b
  | .num lexeme => !lexemeIsZero lexeme
  | .str s => s != ""
  | .arr _ => true
  | .obj _ => true

/-- The array literal on the right of `||` in the `useState` call. -/
def defaultValue : Json :=
  .arr [.obj [("type", .str "paragraph"),
    ("children", .arr [.obj [("text", .str "a line of a text in paragraph")]])]]

/-- The default document of the specification, `[{type:'paragraph',
children:[{text:''}]}]`. -/
def specDefaultValue : Json :=
  .arr [.obj [("type", .str "paragraph"), ("children", .arr [.obj [("text", .str "")]])]]

/-- The text of the only leaf of a single-paragraph document, if the value
has that shape. -/
def singleParagraphText : Json → Option String
  | .arr [.obj [("type", .str "paragraph"), ("children", .arr [.obj [("text", .str s)]])]] =>
    some s
  | _ => none

/-- `String(localStorage.getItem('content'))`, the argument `JSON.parse`
works on: a missing key gives `null`, which is converted to the text `null`. -/
def storedText : Option String → String
  | some s => s
  | none => "null"

/-- The initial value of the component state,
`JSON.parse(localStorage.getItem('content')) || [ ... ]`: an exception of
`JSON.parse` is not caught (`Except.error`). -/
def initialValue (content : Option String) : Except Unit Json :=
  match JSON.parse (storedText content) with
  | none => .error ()
  | some v => if v.truthy then .ok v else .ok defaultValue

/-! ## Notions of the specification -/

/-- The text nodes the selection touches: those the traversal of
`Editor.nodes` over the selection visits. -/
def selectionLeaves (editor : Editor) : List Text :=
  (Editor.nodesSel editor Node.isText .all).filterMap (fun e => match e.1 with
    | .text leaf => some leaf
    | .element _ _ => none)

/-- Universal match: every text node the selection touches carries
`format === true`. -/
def allLeavesCarry (editor : Editor) (format : Mark) : Bool :=
  (selectionLeaves editor).all (fun leaf => strictlyTrue (leaf.marks.get format))

/-- A point is valid: its path leads to a text node and its offset lies
within the text. -/
def Editor.validPoint (children : List Node) (pt : Point) : Bool :=
  match Editor.leaf children pt.path with
  | some leaf => decide (pt.offset ≤ leaf.text.length)
  | none => false

/-- A valid selection: there is one and both its points are valid. -/
def Editor.validSelection (editor : Editor) : Bool :=
  match editor.selection with
  | some r => Editor.validPoint editor.children r.anchor && Editor.validPoint editor.children r.focus
  | none => false

/-- Normal form of the text children of a block: at least one text node,
only text nodes, neighbours with different properties, and no empty text
node unless it is the only child. -/
def textsNormal : List Node → Bool
  | [] => false
  | [.text _] => true
  | .text a :: .text b :: rest =>
    a.text != "" && b.text != "" && a.marks != b.marks && textsNormal (.text b :: rest)
  | _ => false

mutual
/-- An element in the engine's normal form: its children are text nodes
in normal form, or elements in normal form and at least one. -/
def Node.normal : Node → Bool
  | .text _ => false
  | .element _ kids => textsNormal kids || (!kids.isEmpty && Node.normalList kids)
/-- A list of elements in normal form. -/
def Node.normalList : List Node → Bool
  | [] => true
  | c :: cs => c.normal && Node.normalList cs
end

/-- A node touches the selection: a text node at or below it lies between
the start and the end of the selection in document order. -/
def touchesSelection (children : List Node) (sel : Range) (p : Path) : Prop :=
  ∃ (r : Path) (leaf : Text), Node.get? children (p ++ r) = some (.text leaf) ∧
    Path.compare (p ++ r) sel.edges.1.path ≠ .lt ∧ Path.compare (p ++ r) sel.edges.2.path ≠ .gt

/-- The `type` of the node at a path; `none` for a text node or no node. -/
def typeAt (children : List Node) (p : Path) : Option String :=
  match Node.get? children p with
  | some (.element t _) => some t
  | _ => none

/-- The formatting of the text of a list of sibling text nodes, character
by character: independent of how the text is cut into text nodes. -/
def charMarks : List Node → List (Char × Marks)
  | [] => []
  | .text leaf :: rest => leaf.text.data.map (fun c => (c, leaf.marks)) ++ charMarks rest
  | .element _ _ :: rest => charMarks rest

/-- The elements on the way from the root to the node at a path, that node
included, each with its path behind the path `pp` of the root of `cs`. -/
def chain (pp : Path) : List Node → Path → List (Node × Path)
  | _, [] => []
  | cs, i :: rest =>
    match cs[i]? with
    | some (.element t kids) => (.element t kids, pp ++ [i]) :: chain (pp ++ [i]) kids rest
    | _ => []

/-- The paths of the nodes on the way to a path, that path included, each
behind the path `pp`. -/
def pathsTo (pp : Path) : Path → List Path
  | [] => []
  | i :: rest => (pp ++ [i]) :: pathsTo (pp ++ [i]) rest

/-- Replacement of the children of an element. -/
def Node.withChildren (f : List Node → List Node) : Node → Node
  | .element t kids => .element t (f kids)
  | .text leaf => .text leaf

/-- The split of the text node `j` of a list of siblings at offset `o`,
unless the offset is at an edge of the text node. -/
def maybeSplit (j o : Nat) (kids : List Node) : List Node :=
  match kids[j]? with
  | some (.text leaf) => if o = 0 ∨ o = leaf.text.length then kids else splitText j o kids
  | _ => kids

/-- The part of a string from offset `s` to offset `e`. -/
def strSlice (text : String) (s e : Nat) : String := strDrop (strTake text e) s

/-- The text nodes that take the place of a text node of which the part
from `s` to `e` receives `value` for the mark `key`: the part before, if
not empty, the part itself, and the part behind, if not empty. -/
def toggledParts (key : Mark) (value : Option JsVal) (leaf : Text) (s e : Nat) : List Node :=
  (if 0 < s then [Node.text { leaf with text := strTake leaf.text s }] else []) ++
    [Node.text { text := strSlice leaf.text s e, marks := leaf.marks.set key value }] ++
    (if e < leaf.text.length then [Node.text { leaf with text := strDrop leaf.text e }] else [])

/-- The characters of a string, each with the same formatting. -/
def charsOf (text : String) (marks : Marks) : List (Char × Marks) :=
  text.data.map (fun c => (c, marks))

/-- Text nodes only, none of them empty. -/
def textsFilled : List Node → Bool
  | [] => true
  | .text a :: rest => a.text != "" && textsFilled rest
  | .element _ _ :: _ => false

/-- Text nodes with nothing to merge: none empty, neighbours with
different properties. -/
def textsCanon : List Node → Bool
  | [] => true
  | [.text a] => a.text != ""
  | .text a :: .text b :: rest =>
    a.text != "" && a.marks != b.marks && textsCanon (.text b :: rest)
  | _ => false

/-- The characters of the accumulator of `mergeAdj`. -/
def accChars : Option Text → List (Char × Marks)
  | some a => charsOf a.text a.marks
  | none => []

/-! ## Example documents -/

/-- A leaf with `bold`, `italic` and `underline` all `true`. -/
def boldItalicUnderline : Text :=
  { text := "x",
    marks := { bold := some (.bool true), italic := some (.bool true),
               underline := some (.bool true) } }

/-- A paragraph with one text node. -/
def para (s : String) : Node := .element "paragraph" [.text { text := s }]

/-- A paragraph, a bulleted list with one item, a paragraph. -/
def three : List Node :=
  [para "a", .element "bulleted-list" [.element "list-item" [.text { text := "b" }]], para "c"]

/-- The document `three` with a selection from the first paragraph into the
list item. -/
def exEditor : Editor :=
  { children := three, selection := some ⟨⟨[0, 0], 0⟩, ⟨[1, 0, 0], 1⟩⟩ }

/-- The document `three` with the selection in the list item. -/
def listItemEditor : Editor :=
  { children := three, selection := some ⟨⟨[1, 0, 0], 0⟩, ⟨[1, 0, 0], 1⟩⟩ }

/-- The document `three` with the selection in the last paragraph. -/
def lastParagraphEditor : Editor :=
  { children := three, selection := some ⟨⟨[2, 0], 1⟩, ⟨[2, 0], 0⟩⟩ }

/-- The document `[{type:'paragraph',children:[{text:'hello'}]}]` with the
whole text node selected. -/
def helloEditor : Editor :=
  { children := [.element "paragraph" [.text { text := "hello" }]],
    selection := some ⟨⟨[0, 0], 0⟩, ⟨[0, 0], 5⟩⟩,
    pendingMarks := none }

/-- The document `[{type:'paragraph',children:[{text:'ab',bold:true},
{text:'cdef'}]}]` with the selection from the start of the first text node
to offset 1 of the second. -/
def mixedEditor : Editor :=
  { children := [.element "paragraph"
      [.text { text := "ab", marks := { bold := some (.bool true) } }, .text { text := "cdef" }]],
    selection := some ⟨⟨[0, 0], 0⟩, ⟨[0, 1], 1⟩⟩,
    pendingMarks := none }

theorem Path.compare_self (p : Path) : Path.compare p p = .eq := by
  induction p with
  | nil => rfl
  | cons a p ih => simp [Path.compare, ih]

theorem Path.compare_append_left (p a b : Path) :
    Path.compare (p ++ a) (p ++ b) = Path.compare a b := by
  induction p with
  | nil => rfl
  | cons x p ih => simp [Path.compare, ih]

theorem Path.compare_nil_left (p : Path) : Path.compare [] p = .eq := by
  cases p <;> rfl

theorem Path.compare_nil_right (p : Path) : Path.compare p [] = .eq := by
  cases p <;> rfl

/-- A path compares with `x` as its extension does, unless it compares equal. -/
theorem Path.compare_append_right (p r x : Path) :
    Path.compare p x = .eq ∨ Path.compare (p ++ r) x = Path.compare p x := by
  induction p generalizing x with
  | nil => left; exact Path.compare_nil_left x
  | cons a p ih =>
    cases x with
    | nil => left; rfl
    | cons b x =>
      simp only [List.cons_append, Path.compare]
      split
      · right; rfl
      · split
        · right; rfl
        · exact ih x

/-- Paths that compare equal: one extends the other. -/
theorem Path.compare_eq_iff (p q : Path) :
    Path.compare p q = .eq ↔ (∃ r, q = p ++ r) ∨ (∃ r, p = q ++ r) := by
  induction p generalizing q with
  | nil => simp [Path.compare_nil_left]
  | cons a p ih =>
    cases q with
    | nil => simp [Path.compare]
    | cons b q =>
      simp only [Path.compare, List.cons_append, List.cons.injEq]
      by_cases h1 : a < b
      · simp only [h1, if_true]
        constructor
        · intro h; cases h
        · rintro (⟨r, h, _⟩ | ⟨r, h, _⟩) <;> omega
      · by_cases h2 : b < a
        · simp only [h1, h2, if_true, if_false]
          constructor
          · intro h; cases h
          · rintro (⟨r, h, _⟩ | ⟨r, h, _⟩) <;> omega
        · have hab : a = b := by omega
          subst hab
          simp only [h1, if_false, ih q, true_and]

theorem Path.compare_swap (p q : Path) : Path.compare q p = (Path.compare p q).swap := by
  induction p generalizing q with
  | nil => cases q <;> rfl
  | cons a p ih =>
    cases q with
    | nil => rfl
    | cons b q =>
      simp only [Path.compare]
      by_cases h1 : a < b
      · have h2 : ¬ b < a := by omega
        simp [h1, h2, Ordering.swap]
      · by_cases h2 : b < a
        · simp [h1, h2, Ordering.swap]
        · simp [h1, h2, ih q]

/-! ## Lemmas: the entries of a document -/

mutual
theorem Node.entries_path (pp : Path) : (n : Node) → ∀ e ∈ Node.entries pp n, ∃ r, e.2 = pp ++ r
  | .text leaf => by
    intro e he
    simp only [Node.entries, List.mem_singleton] at he
    exact ⟨[], by simp [he]⟩
  | .element t cs => by
    intro e he
    simp only [Node.entries, List.mem_cons] at he
    rcases he with he | he
    · exact ⟨[], by simp [he]⟩
    · obtain ⟨k, r, h, _⟩ := Node.entriesList_path pp 0 cs e he
      exact ⟨(0 + k) :: r, h⟩
theorem Node.entriesList_path (pp : Path) (i : Nat) :
    (cs : List Node) → ∀ e ∈ Node.entriesList pp i cs,
      ∃ k r, e.2 = pp ++ (i + k) :: r ∧ k < cs.length
  | [] => by
    intro e he
    simp [Node.entriesList] at he
  | c :: cs => by
    intro e he
    simp only [Node.entriesList, List.mem_append] at he
    rcases he with he | he
    · obtain ⟨r, h⟩ := Node.entries_path (pp ++ [i]) c e he
      exact ⟨0, r, by simp [h], by simp⟩
    · obtain ⟨k, r, h, hk⟩ := Node.entriesList_path pp (i + 1) cs e he
      exact ⟨k + 1, r, by rw [h]; congr 2; omega, by simp; omega⟩
end

theorem Node.get?_cons_succ (c : Node) (cs : List Node) (k : Nat) (rest : Path) :
    Node.get? (c :: cs) ((k + 1) :: rest) = Node.get? cs (k :: rest) := by
  cases rest <;> simp [Node.get?]

theorem Node.get?_element (t : String) (kids cs : List Node) (j : Nat) (rest : Path) :
    Node.get? (.element t kids :: cs) (0 :: j :: rest) = Node.get? kids (j :: rest) := by
  simp [Node.get?]

theorem Node.get?_text (leaf : Text) (cs : List Node) (j : Nat) (rest : Path) :
    Node.get? (.text leaf :: cs) (0 :: j :: rest) = none := by
  simp [Node.get?]

mutual
/-- The entries of a subtree are its nodes, each with its path. -/
theorem Node.mem_entries (pp : Path) : (n : Node) → ∀ (m : Node) (q : Path),
    (m, q) ∈ Node.entries pp n ↔
      (q = pp ∧ m = n) ∨ (∃ k rest kids t, n = .element t kids ∧ q = pp ++ k :: rest ∧
        Node.get? kids (k :: rest) = some m)
  | .text leaf => by
    intro m q
    simp only [Node.entries, List.mem_singleton, Prod.mk.injEq]
    constructor
    · rintro ⟨h1, h2⟩; exact Or.inl ⟨h2, h1⟩
    · rintro (⟨h1, h2⟩ | ⟨k, rest, kids, t, h, _⟩)
      · exact ⟨h2, h1⟩
      · cases h
  | .element t cs => by
    intro m q
    simp only [Node.entries, List.mem_cons, Prod.mk.injEq]
    rw [Node.mem_entriesList pp 0 cs m q]
    constructor
    · rintro (⟨h1, h2⟩ | ⟨k, rest, h1, h2⟩)
      · exact Or.inl ⟨h2, h1⟩
      · refine Or.inr ⟨k, rest, cs, t, rfl, ?_, h2⟩
        simpa using h1
    · rintro (⟨h1, h2⟩ | ⟨k, rest, kids, t', h, h1, h2⟩)
      · exact Or.inl ⟨h2, h1⟩
      · cases h
        exact Or.inr ⟨k, rest, by simpa using h1, h2⟩
theorem Node.mem_entriesList (pp : Path) (i : Nat) : (cs : List Node) → ∀ (m : Node) (q : Path),
    (m, q) ∈ Node.entriesList pp i cs ↔
      ∃ k rest, q = pp ++ (i + k) :: rest ∧ Node.get? cs (k :: rest) = some m
  | [] => by
    intro m q
    simp only [Node.entriesList, List.not_mem_nil, false_iff]
    rintro ⟨k, rest, _, h⟩
    cases rest <;> simp [Node.get?] at h
  | c :: cs => by
    intro m q
    simp only [Node.entriesList, List.mem_append]
    rw [Node.mem_entries (pp ++ [i]) c m q, Node.mem_entriesList pp (i + 1) cs m q]
    constructor
    · rintro ((⟨h1, h2⟩ | ⟨k, rest, kids, t, h, h1, h2⟩) | ⟨k, rest, h1, h2⟩)
      · exact ⟨0, [], by simp [h1], by simp [Node.get?, h2]⟩
      · subst h
        exact ⟨0, k :: rest, by simp [h1], by rw [Node.get?_element]; exact h2⟩
      · exact ⟨k + 1, rest, by rw [h1]; congr 2; omega, by rw [Node.get?_cons_succ]; exact h2⟩
    · rintro ⟨k, rest, h1, h2⟩
      cases k with
      | zero =>
        left
        cases rest with
        | nil =>
          left
          simp only [Node.get?, List.getElem?_cons_zero, Option.some.injEq] at h2
          exact ⟨by simp [h1], h2.symm⟩
        | cons j rest =>
          right
          cases c with
          | text leaf => simp [Node.get?] at h2
          | element t kids =>
            rw [Node.get?_element] at h2
            exact ⟨j, rest, kids, t, rfl, by simp [h1], h2⟩
      | succ k =>
        right
        rw [Node.get?_cons_succ] at h2
        exact ⟨k, rest, by rw [h1]; congr 2; omega, h2⟩
end

/-- The entries of a document are its nodes, each with its path. -/
theorem mem_entries_iff (cs : List Node) (m : Node) (q : Path) :
    (m, q) ∈ Node.entriesList [] 0 cs ↔ Node.get? cs q = some m := by
  rw [Node.mem_entriesList]
  constructor
  · rintro ⟨k, rest, h1, h2⟩
    simp only [List.nil_append, Nat.zero_add] at h1
    rw [h1]; exact h2
  · intro h
    cases q with
    | nil => simp [Node.get?] at h
    | cons k rest => exact ⟨k, rest, by simp, h⟩

/-! ## Lemmas: ranges and normal form -/

theorem Range.edges_ordered (r : Range) :
    Path.compare r.edges.1.path r.edges.2.path ≠ .gt := by
  have hs := Path.compare_swap r.anchor.path r.focus.path
  unfold Range.edges
  cases hb : r.isBackward with
  | true =>
    simp only [if_true]
    unfold Range.isBackward Point.compare at hb
    cases h : Path.compare r.anchor.path r.focus.path with
    | lt => rw [h] at hb; simp at hb; exact absurd hb (by decide)
    | eq => rw [h] at hs; rw [hs]; simp [Ordering.swap]
    | gt => rw [h] at hs; rw [hs]; simp [Ordering.swap]
  | false =>
    simp only [Bool.false_eq_true, if_false]
    intro h
    unfold Range.isBackward Point.compare at hb
    rw [h] at hb
    simp at hb
    exact absurd hb (by decide)

theorem Range.edges_cases (r : Range) :
    (r.edges = (r.anchor, r.focus)) ∨ (r.edges = (r.focus, r.anchor)) := by
  unfold Range.edges
  split
  · right; rfl
  · left; rfl

theorem textsNormal_hasLeaf : (cs : List Node) → textsNormal cs = true →
    ∃ leaf rest, cs = .text leaf :: rest
  | [], h => by simp [textsNormal] at h
  | .text leaf :: rest, _ => ⟨leaf, rest, rfl⟩
  | .element t kids :: rest, h => by simp [textsNormal] at h

mutual
/-- An element in normal form has a text node below it. -/
theorem Node.normal_hasLeaf : (n : Node) → n.normal = true →
    ∃ t kids k r leaf, n = .element t kids ∧ Node.get? kids (k :: r) = some (.text leaf)
  | .text leaf, h => by simp [Node.normal] at h
  | .element t kids, h => by
    simp only [Node.normal, Bool.or_eq_true, Bool.and_eq_true, Bool.not_eq_true'] at h
    rcases h with h | ⟨h1, h2⟩
    · obtain ⟨leaf, rest, hk⟩ := textsNormal_hasLeaf kids h
      exact ⟨t, kids, 0, [], leaf, rfl, by simp [hk, Node.get?]⟩
    · cases kids with
      | nil => simp at h1
      | cons c cs =>
        simp only [Node.normalList, Bool.and_eq_true] at h2
        obtain ⟨t', kids', k, r, leaf, hc, hg⟩ := Node.normal_hasLeaf c h2.1
        subst hc
        exact ⟨t, _, 0, k :: r, leaf, rfl, by rw [Node.get?_element]; exact hg⟩
end

theorem Node.normalList_getElem : (cs : List Node) → Node.normalList cs = true →
    ∀ (i : Nat) (n : Node), cs[i]? = some n → n.normal = true
  | [], _, i, n, h => by simp at h
  | c :: cs, hn, i, n, h => by
    simp only [Node.normalList, Bool.and_eq_true] at hn
    cases i with
    | zero => simp at h; subst h; exact hn.1
    | succ i =>
      simp at h
      exact Node.normalList_getElem cs hn.2 i n h

/-- In a list of elements in normal form every element is in normal form. -/
theorem Node.normalList_get? (p : Path) : ∀ (cs : List Node), Node.normalList cs = true →
    ∀ t kids, Node.get? cs p = some (.element t kids) → (Node.element t kids).normal = true := by
  induction p with
  | nil => intro cs _ t kids h; simp [Node.get?] at h
  | cons i rest ih =>
    intro cs hn t kids h
    cases rest with
    | nil =>
      simp only [Node.get?] at h
      exact Node.normalList_getElem cs hn i _ h
    | cons j rest =>
      simp only [Node.get?] at h
      cases hc : cs[i]? with
      | none => simp [hc] at h
      | some c =>
        cases c with
        | text leaf => simp [hc] at h
        | element t' kids' =>
          simp only [hc] at h
          have hc' := Node.normalList_getElem cs hn i _ hc
          simp only [Node.normal, Bool.or_eq_true, Bool.and_eq_true] at hc'
          rcases hc' with hc' | ⟨_, hc'⟩
          · -- text children: no element below
            exfalso
            obtain ⟨leaf, rs, hk⟩ := textsNormal_hasLeaf kids' hc'
            have : ∀ (l : List Node), textsNormal l = true → ∀ q x y, Node.get? l q ≠ some (.element x y) := by
              intro l
              induction l with
              | nil =>
                intro _ q x y hq
                cases q with
                | nil => simp [Node.get?] at hq
                | cons a q => cases q <;> simp [Node.get?] at hq
              | cons c l ihl =>
                intro hl q x y hq
                cases c with
                | element _ _ => simp [textsNormal] at hl
                | text lf =>
                  have hl' : l = [] ∨ textsNormal l = true := by
                    cases l with
                    | nil => left; rfl
                    | cons d l =>
                      right
                      cases d with
                      | element _ _ => simp [textsNormal] at hl
                      | text _ =>
                        simp only [textsNormal, Bool.and_eq_true] at hl
                        exact hl.2
                  cases q with
                  | nil => simp [Node.get?] at hq
                  | cons a q =>
                    cases a with
                    | zero => cases q <;> simp [Node.get?] at hq
                    | succ a =>
                      rw [Node.get?_cons_succ] at hq
                      rcases hl' with hl' | hl'
                      · subst hl'
                        cases q <;> simp [Node.get?] at hq
                      · exact ihl hl' _ x y hq
            exact this kids' hc' _ t kids h
          · exact ih kids' hc' t kids h

/-- Extension of a path below a node: `Node.get?` composes. -/
theorem Node.get?_append (p : Path) : ∀ (cs : List Node) (t : String) (kids : List Node)
    (k : Nat) (r : Path), Node.get? cs p = some (.element t kids) →
    Node.get? cs (p ++ k :: r) = Node.get? kids (k :: r) := by
  induction p with
  | nil => intro cs t kids k r h; simp [Node.get?] at h
  | cons i rest ih =>
    intro cs t kids k r h
    cases rest with
    | nil =>
      simp only [Node.get?] at h
      simp [Node.get?, h]
    | cons j rest =>
      simp only [Node.get?] at h
      cases hc : cs[i]? with
      | none => simp [hc] at h
      | some c =>
        cases c with
        | text leaf => simp [hc] at h
        | element t' kids' =>
          simp only [hc] at h
          simp only [List.cons_append, Node.get?, hc]
          exact ih kids' t kids k r h

/-- Nothing lies below a text node. -/
theorem Node.get?_below_text (p : Path) : ∀ (cs : List Node) (leaf : Text) (k : Nat) (r : Path),
    Node.get? cs p = some (.text leaf) → Node.get? cs (p ++ k :: r) = none := by
  induction p with
  | nil => intro cs leaf k r h; simp [Node.get?] at h
  | cons i rest ih =>
    intro cs leaf k r h
    cases rest with
    | nil =>
      simp only [Node.get?] at h
      simp [Node.get?, h]
    | cons j rest =>
      simp only [Node.get?] at h
      cases hc : cs[i]? with
      | none => simp [hc] at h
      | some c =>
        cases c with
        | text leaf => simp [hc] at h
        | element t' kids' =>
          simp only [hc] at h
          simp only [List.cons_append, Node.get?, hc]
          exact ih kids' leaf k r h

/-! ## Lemmas: the selection -/

theorem ord_bne_iff (a b : Ordering) : (a != b) = true ↔ a ≠ b := by
  cases a <;> cases b <;> decide

theorem ord_beq_iff (a b : Ordering) : (a == b) = true ↔ a = b := by
  cases a <;> cases b <;> decide

theorem inSpan_iff (first last p : Path) :
    inSpan first last p = true ↔
      Path.compare p first ≠ .lt ∧ Path.compare p last ≠ .gt := by
  unfold inSpan
  rw [Bool.and_eq_true, ord_bne_iff, ord_bne_iff]

theorem validPoint_leaf (cs : List Node) (pt : Point) (h : Editor.validPoint cs pt = true) :
    ∃ leaf, Node.get? cs pt.path = some (.text leaf) ∧ pt.offset ≤ leaf.text.length := by
  unfold Editor.validPoint Editor.leaf at h
  cases hg : Node.get? cs pt.path with
  | none => simp [hg] at h
  | some n =>
    cases n with
    | element t kids => simp [hg] at h
    | text leaf =>
      simp only [hg, decide_eq_true_eq] at h
      exact ⟨leaf, rfl, h⟩

/-- Both edges of a valid selection lie in text nodes. -/
theorem validSelection_edges (editor : Editor) (sel : Range) (hsel : editor.selection = some sel)
    (hvalid : Editor.validSelection editor = true) :
    Editor.validPoint editor.children sel.edges.1 = true ∧
      Editor.validPoint editor.children sel.edges.2 = true := by
  unfold Editor.validSelection at hvalid
  simp only [hsel, Bool.and_eq_true] at hvalid
  rcases Range.edges_cases sel with h | h <;> rw [h] <;> simp [hvalid.1, hvalid.2]

theorem head?_isSome_filter {α : Type} (l : List α) (f : α → Bool) :
    (l.filter f).head?.isSome = true ↔ ∃ e ∈ l, f e = true := by
  induction l with
  | nil => simp
  | cons a l ih =>
    by_cases h : f a = true
    · simp [List.filter_cons, h]
    · simp only [List.filter_cons, h, if_false, Bool.false_eq_true, List.mem_cons,
        exists_eq_or_imp, false_or]
      exact ih

/-- `CustomEditor.isBlockActive` in terms of the nodes of the document. -/
theorem isBlockActive_iff_exists (editor : Editor) (sel : Range) (format : String)
    (hsel : editor.selection = some sel) :
    CustomEditor.isBlockActive editor format = true ↔
      ∃ p kids, Node.get? editor.children p = some (.element format kids) ∧
        inSpan sel.edges.1.path sel.edges.2.path p = true := by
  unfold CustomEditor.isBlockActive Editor.nodesSel Editor.nodesAt Editor.nodes
  simp only [hsel, List.filter_filter]
  rw [head?_isSome_filter]
  constructor
  · rintro ⟨⟨n, p⟩, hmem, hf⟩
    rw [mem_entries_iff] at hmem
    simp only [Bool.and_eq_true] at hf
    cases n with
    | text leaf => simp [Node.hasType] at hf
    | element t kids =>
      simp only [Node.hasType, beq_iff_eq] at hf
      obtain ⟨ht, hs⟩ := hf
      subst ht
      exact ⟨p, kids, hmem, hs⟩
  · rintro ⟨p, kids, hg, hs⟩
    refine ⟨(.element format kids, p), ?_, ?_⟩
    · rw [mem_entries_iff]; exact hg
    · simp [Node.hasType, hs]

/-! ## Lemmas: updates of the tree -/

theorem modifyNth_getElem? {α : Type} (f : α → α) : ∀ (i : Nat) (l : List α) (j : Nat),
    (modifyNth f i l)[j]? = if j = i then l[j]?.map f else l[j]?
  | _, [], j => by simp [modifyNth]
  | 0, x :: xs, j => by
    cases j <;> simp [modifyNth]
  | i + 1, x :: xs, j => by
    cases j with
    | zero => simp [modifyNth]
    | succ j => simp [modifyNth, modifyNth_getElem? f i xs j]

theorem modifyNth_length {α : Type} (f : α → α) : ∀ (i : Nat) (l : List α),
    (modifyNth f i l).length = l.length
  | _, [] => by simp [modifyNth]
  | 0, x :: xs => by simp [modifyNth]
  | i + 1, x :: xs => by simp [modifyNth, modifyNth_length f i xs]

/-- Retyping the node at `q` changes the `type` read at `q` and no other. -/
theorem typeAt_mapAt_setType (type : String) (p : Path) : ∀ (q : Path) (cs : List Node),
    typeAt (Node.mapAt (Node.setType type) q cs) p =
      if p = q then (typeAt cs p).map (fun _ => type) else typeAt cs p := by
  induction p with
  | nil =>
    intro q cs
    simp [typeAt, Node.get?]
  | cons i p ih =>
    intro q cs
    cases q with
    | nil => simp [Node.mapAt]
    | cons j q =>
      cases p with
      | nil =>
        cases q with
        | nil =>
          simp only [typeAt, Node.get?, Node.mapAt, modifyNth_getElem?, List.cons.injEq, and_true]
          by_cases hij : i = j
          · simp only [hij, if_true]
            cases cs[j]? with
            | none => rfl
            | some n => cases n <;> rfl
          · simp [hij]
        | cons k q =>
          simp only [typeAt, Node.get?, Node.mapAt, modifyNth_getElem?, List.cons.injEq]
          by_cases hij : i = j
          · simp only [hij, if_true, true_and]
            cases cs[j]? with
            | none => simp
            | some n => cases n <;> simp
          · simp [hij]
      | cons i2 p =>
        cases q with
        | nil =>
          simp only [typeAt, Node.get?, Node.mapAt, modifyNth_getElem?, List.cons.injEq]
          by_cases hij : i = j
          · simp only [hij, if_true, true_and]
            cases cs[j]? with
            | none => simp
            | some n => cases n <;> simp [Node.setType]
          · simp [hij]
        | cons k q =>
          have ih' := ih (k :: q)
          simp only [typeAt] at ih'
          simp only [typeAt, Node.get?, Node.mapAt, modifyNth_getElem?, List.cons.injEq]
          by_cases hij : i = j
          · simp only [hij, if_true, true_and]
            cases cs[j]? with
            | none => simp
            | some n =>
              cases n with
              | text leaf => simp
              | element t kids =>
                simp only [Option.map_some']
                have := ih' kids
                simp only [List.cons.injEq] at this
                exact this
          · simp [hij]

/-- Retyping at a list of paths changes the `type` read at these paths. -/
theorem typeAt_foldl_setType (type : String) (p : Path) :
    ∀ (targets : List (Node × Path)) (cs : List Node),
    typeAt (targets.foldl (fun cs e => Node.mapAt (Node.setType type) e.2 cs) cs) p =
      if p ∈ targets.map Prod.snd then (typeAt cs p).map (fun _ => type) else typeAt cs p := by
  intro targets
  induction targets with
  | nil => intro cs; simp
  | cons e targets ih =>
    intro cs
    simp only [List.foldl_cons, List.map_cons, List.mem_cons]
    rw [ih, typeAt_mapAt_setType]
    by_cases h1 : p = e.2
    · subst h1
      by_cases h2 : e.2 ∈ targets.map Prod.snd
      · simp only [h2, if_true, true_or]
        cases typeAt cs e.2 <;> rfl
      · simp only [h2, if_true, if_false, true_or]
    · simp only [h1, if_false, false_or]

/-! ## Lemmas: the traversal in mode `lowest` -/

theorem lowestStep_invariant (matchFn : Node → Bool) (Q : Node × Path → Prop) :
    ∀ (l : List (Node × Path)) (st : Option (Node × Path) × List (Node × Path)),
    (∀ e ∈ l, matchFn e.1 = true → Q e) → (∀ e ∈ st.2 ++ st.1.toList, Q e) →
    ∀ e ∈ (l.foldl (lowestStep matchFn) st).2 ++ (l.foldl (lowestStep matchFn) st).1.toList, Q e := by
  intro l
  induction l with
  | nil => intro st _ h; simpa using h
  | cons x l ih =>
    intro st hl hst
    simp only [List.foldl_cons]
    apply ih
    · intro e he; exact hl e (List.mem_cons_of_mem _ he)
    · intro e he
      unfold lowestStep at he
      by_cases hm : matchFn x.1 = true
      · simp only [hm, Bool.not_true, Bool.false_eq_true, if_false] at he
        split at he
        · rcases List.mem_append.1 he with he | he
          · exact hst e (List.mem_append_left _ he)
          · simp only [Option.toList, List.mem_singleton] at he
            rw [he]; exact hl x (List.mem_cons_self _ _) hm
        · rcases List.mem_append.1 he with he | he
          · exact hst e he
          · simp only [Option.toList, List.mem_singleton] at he
            rw [he]; exact hl x (List.mem_cons_self _ _) hm
      · simp only [hm, Bool.not_false, if_true] at he
        exact hst e he

/-- What `Editor.nodes` yields, in either mode, is a node of the document
that the traversal visits and that matches. -/
theorem Editor.nodes_mem (cs : List Node) (first last : Path) (matchFn : Node → Bool)
    (mode : Mode) (e : Node × Path) (he : e ∈ Editor.nodes cs first last matchFn mode) :
    Node.get? cs e.2 = some e.1 ∧ inSpan first last e.2 = true ∧ matchFn e.1 = true := by
  unfold Editor.nodes at he
  cases mode with
  | all =>
    simp only [List.mem_filter] at he
    obtain ⟨⟨h1, h2⟩, h3⟩ := he
    exact ⟨(mem_entries_iff cs e.1 e.2).1 h1, h2, h3⟩
  | lowest =>
    simp only at he
    have := lowestStep_invariant matchFn
      (fun e => Node.get? cs e.2 = some e.1 ∧ inSpan first last e.2 = true ∧ matchFn e.1 = true)
      ((Node.entriesList [] 0 cs).filter (fun e => inSpan first last e.2)) (none, [])
      (by
        intro x hx hm
        simp only [List.mem_filter] at hx
        exact ⟨(mem_entries_iff cs x.1 x.2).1 hx.1, hx.2, hm⟩)
      (by simp)
    exact this e he

/-! ## Lemmas: the traversal of a selection inside one block -/

theorem inSpan_append (pp a b c : Path) :
    inSpan (pp ++ a) (pp ++ b) (pp ++ c) = inSpan a b c := by
  unfold inSpan
  rw [Path.compare_append_left, Path.compare_append_left]

theorem ord_bne (a b : Ordering) : (a != b) = decide (a ≠ b) := by
  cases a <;> cases b <;> rfl

theorem inSpan_head_ne (i m : Nat) (x y r : Path) (h : m ≠ i) :
    inSpan (i :: x) (i :: y) (m :: r) = false := by
  unfold inSpan
  simp only [Path.compare, ord_bne]
  rcases Nat.lt_or_gt_of_ne h with h1 | h1
  · simp [h1]
  · have h2 : ¬ m < i := by omega
    simp [h1, h2]

theorem inSpan_head_eq (i : Nat) (x y r : Path) :
    inSpan (i :: x) (i :: y) (i :: r) = inSpan x y r := by
  unfold inSpan
  simp [Path.compare]

theorem inSpan_nil (x y : Path) : inSpan x y [] = true := by
  unfold inSpan
  simp [Path.compare_nil_left, ord_bne]

theorem inSpan_terminal (j k m : Nat) (r : Path) :
    inSpan [j] [k] (m :: r) = decide (j ≤ m ∧ m ≤ k) := by
  unfold inSpan
  simp only [Path.compare, ord_bne, Path.compare_nil_right]
  by_cases h1 : m < j
  · have : ¬ j ≤ m := by omega
    simp [h1, this]
  · by_cases h2 : k < m
    · have h3 : ¬ m < k := by omega
      have h6 : ¬ m ≤ k := by omega
      by_cases h4 : j < m <;> simp [h1, h2, h3, h4, h6]
    · have h6 : m ≤ k := by omega
      have h7 : j ≤ m := by omega
      by_cases h4 : j < m <;> by_cases h5 : m < k <;> simp [h1, h2, h4, h5, h6, h7]

theorem filter_eq_nil_of {α : Type} (l : List α) (f : α → Bool) (h : ∀ e ∈ l, f e = false) :
    l.filter f = [] := by
  induction l with
  | nil => rfl
  | cons a l ih =>
    simp only [List.filter_cons, h a (List.mem_cons_self _ _), Bool.false_eq_true, if_false]
    exact ih (fun e he => h e (List.mem_cons_of_mem _ he))

theorem filter_eq_self_of {α : Type} (l : List α) (f : α → Bool) (h : ∀ e ∈ l, f e = true) :
    l.filter f = l := by
  induction l with
  | nil => rfl
  | cons a l ih =>
    simp only [List.filter_cons, h a (List.mem_cons_self _ _), if_true]
    rw [ih (fun e he => h e (List.mem_cons_of_mem _ he))]

/-- Only the child `i` of a list of siblings has entries that pass a filter
which rejects every path through another child. -/
theorem filter_entriesList_child (pp : Path) (f : Path → Bool) (i : Nat)
    (hf : ∀ m r, m ≠ i → f (pp ++ m :: r) = false) :
    ∀ (cs : List Node) (i0 : Nat), i0 ≤ i →
      (Node.entriesList pp i0 cs).filter (fun e => f e.2) =
        match cs[i - i0]? with
        | some c => (Node.entries (pp ++ [i]) c).filter (fun e => f e.2)
        | none => [] := by
  intro cs
  induction cs with
  | nil => intro i0 _; simp [Node.entriesList]
  | cons c cs ih =>
    intro i0 hi
    simp only [Node.entriesList, List.filter_append]
    by_cases h : i0 = i
    · subst h
      have h2 : (Node.entriesList pp (i0 + 1) cs).filter (fun e => f e.2) = [] := by
        apply filter_eq_nil_of
        intro e he
        obtain ⟨k, r, hk, _⟩ := Node.entriesList_path pp (i0 + 1) cs e he
        rw [hk]
        exact hf _ _ (by omega)
      simp [h2]
    · have h1 : (Node.entries (pp ++ [i0]) c).filter (fun e => f e.2) = [] := by
        apply filter_eq_nil_of
        intro e he
        obtain ⟨r, hr⟩ := Node.entries_path (pp ++ [i0]) c e he
        rw [hr, List.append_assoc]
        exact hf _ _ h
      rw [h1, List.nil_append, ih (i0 + 1) (by omega)]
      have : i - i0 = (i - (i0 + 1)) + 1 := by omega
      rw [this, List.getElem?_cons_succ]

/-- The children `j` to `k` of a list of siblings have the entries that pass
a filter which accepts exactly the paths through one of them. -/
theorem filter_entriesList_range (pp : Path) (f : Path → Bool) (j k : Nat)
    (hf : ∀ m r, f (pp ++ m :: r) = decide (j ≤ m ∧ m ≤ k)) :
    ∀ (cs : List Node) (i0 : Nat),
      (Node.entriesList pp i0 cs).filter (fun e => f e.2) =
        Node.entriesList pp (max i0 j) ((cs.drop (j - i0)).take (k + 1 - max i0 j)) := by
  intro cs
  induction cs with
  | nil => intro i0; simp [Node.entriesList]
  | cons c cs ih =>
    intro i0
    simp only [Node.entriesList, List.filter_append]
    rw [ih (i0 + 1)]
    by_cases h1 : i0 < j
    · have hc : (Node.entries (pp ++ [i0]) c).filter (fun e => f e.2) = [] := by
        apply filter_eq_nil_of
        intro e he
        obtain ⟨r, hr⟩ := Node.entries_path (pp ++ [i0]) c e he
        rw [hr, List.append_assoc, List.singleton_append, hf]
        simp; omega
      rw [hc, List.nil_append]
      have e1 : max (i0 + 1) j = max i0 j := by omega
      have e2 : j - i0 = (j - (i0 + 1)) + 1 := by omega
      rw [e1, e2, List.drop_succ_cons]
    · by_cases h2 : i0 ≤ k
      · have hc : (Node.entries (pp ++ [i0]) c).filter (fun e => f e.2) =
            Node.entries (pp ++ [i0]) c := by
          apply filter_eq_self_of
          intro e he
          obtain ⟨r, hr⟩ := Node.entries_path (pp ++ [i0]) c e he
          rw [hr, List.append_assoc, List.singleton_append, hf]
          simp; omega
        have e1 : max (i0 + 1) j = i0 + 1 := by omega
        have e2 : max i0 j = i0 := by omega
        have e3 : j - (i0 + 1) = 0 := by omega
        have e4 : j - i0 = 0 := by omega
        have e5 : k + 1 - i0 = (k + 1 - (i0 + 1)) + 1 := by omega
        rw [hc, e1, e2, e3, e4, e5]
        simp [Node.entriesList]
      · have hc : (Node.entries (pp ++ [i0]) c).filter (fun e => f e.2) = [] := by
          apply filter_eq_nil_of
          intro e he
          obtain ⟨r, hr⟩ := Node.entries_path (pp ++ [i0]) c e he
          rw [hr, List.append_assoc, List.singleton_append, hf]
          simp; omega
        have e1 : k + 1 - max (i0 + 1) j = 0 := by omega
        have e2 : k + 1 - max i0 j = 0 := by omega
        rw [hc, e1, e2]
        simp [Node.entriesList]

/-- The nodes the traversal from child `j` to child `k` of the element at
path `P` visits: the elements on the way to that element, and the subtrees
of the children `j` to `k`. -/
theorem visited_inside (P : Path) : ∀ (pp : Path) (cs : List Node) (t : String)
    (kids : List Node) (j k : Nat), Node.get? cs P = some (.element t kids) →
    (Node.entriesList pp 0 cs).filter (fun e => inSpan (pp ++ P ++ [j]) (pp ++ P ++ [k]) e.2) =
      chain pp cs P ++ Node.entriesList (pp ++ P) j ((kids.drop j).take (k + 1 - j)) := by
  induction P with
  | nil => intro pp cs t kids j k h; simp [Node.get?] at h
  | cons i rest ih =>
    intro pp cs t kids j k h
    have hf : ∀ m r, m ≠ i →
        inSpan (pp ++ (i :: rest) ++ [j]) (pp ++ (i :: rest) ++ [k]) (pp ++ m :: r) = false := by
      intro m r hm
      rw [List.append_assoc, List.append_assoc, inSpan_append]
      exact inSpan_head_ne i m _ _ r hm
    rw [filter_entriesList_child pp _ i hf cs 0 (Nat.zero_le _)]
    simp only [Nat.sub_zero]
    cases rest with
    | nil =>
      simp only [Node.get?] at h
      simp only [h, Node.entries, chain, List.filter_cons]
      have h0 : inSpan (pp ++ [i] ++ [j]) (pp ++ [i] ++ [k]) (pp ++ [i]) = true := by
        have := inSpan_append (pp ++ [i]) [j] [k] []
        simp only [List.append_nil] at this
        rw [this]; exact inSpan_nil _ _
      simp only [h0, if_true, List.cons_append, List.nil_append, List.cons.injEq, true_and]
      have := filter_entriesList_range (pp ++ [i])
        (fun q => inSpan (pp ++ [i] ++ [j]) (pp ++ [i] ++ [k]) q) j k
        (by
          intro m r
          simp only
          rw [inSpan_append]; exact inSpan_terminal j k m r) kids 0
      simp only [Nat.sub_zero, Nat.zero_max] at this
      exact this
    | cons i2 rest =>
      simp only [Node.get?] at h
      cases hc : cs[i]? with
      | none => simp [hc] at h
      | some c =>
        cases c with
        | text leaf => simp [hc] at h
        | element t' kids' =>
          simp only [hc] at h
          have hchain : chain pp cs (i :: i2 :: rest) =
              (.element t' kids', pp ++ [i]) :: chain (pp ++ [i]) kids' (i2 :: rest) := by
            rw [chain]; simp only [hc]
          rw [hchain]
          simp only [Node.entries, List.filter_cons]
          have h0 : inSpan (pp ++ (i :: i2 :: rest) ++ [j]) (pp ++ (i :: i2 :: rest) ++ [k])
              (pp ++ [i]) = true := by
            have := inSpan_append (pp ++ [i]) (i2 :: rest ++ [j]) (i2 :: rest ++ [k]) []
            simp only [List.append_nil, List.append_assoc, List.singleton_append,
              List.cons_append, List.nil_append] at this ⊢
            rw [this]; exact inSpan_nil _ _
          simp only [h0, if_true, List.cons_append, List.cons.injEq, true_and]
          have := ih (pp ++ [i]) kids' t kids j k h
          simp only [List.append_assoc, List.singleton_append, List.cons_append,
            List.nil_append] at this ⊢
          exact this

/-! ## Lemmas: what `Editor.nodes` yields inside one block -/

theorem foldl_lowestStep_nomatch (matchFn : Node → Bool) :
    ∀ (l : List (Node × Path)) (st : Option (Node × Path) × List (Node × Path)),
    (∀ e ∈ l, matchFn e.1 = false) → l.foldl (lowestStep matchFn) st = st := by
  intro l
  induction l with
  | nil => intro st _; rfl
  | cons x l ih =>
    intro st h
    simp only [List.foldl_cons]
    have hx : lowestStep matchFn st x = st := by
      unfold lowestStep
      simp [h x (List.mem_cons_self _ _)]
    rw [hx]
    exact ih st (fun e he => h e (List.mem_cons_of_mem _ he))

theorem chain_isBlock (P : Path) : ∀ (pp : Path) (cs : List Node),
    ∀ e ∈ chain pp cs P, e.1.isBlock = true := by
  induction P with
  | nil => intro pp cs e he; simp [chain] at he
  | cons i rest ih =>
    intro pp cs e he
    rw [chain] at he
    split at he
    · simp only [List.mem_cons] at he
      rcases he with he | he
      · rw [he]; rfl
      · exact ih _ _ e he
    · simp at he

theorem chain_isText (P : Path) (pp : Path) (cs : List Node) :
    ∀ e ∈ chain pp cs P, e.1.isText = false := by
  intro e he
  have := chain_isBlock P pp cs e he
  cases h : e.1 with
  | text leaf => rw [h] at this; simp [Node.isBlock] at this
  | element t kids => rfl

/-- The chain to an element ends with that element. -/
theorem chain_getLast (P : Path) : ∀ (pp : Path) (cs : List Node) (t : String) (kids : List Node),
    Node.get? cs P = some (.element t kids) →
    (chain pp cs P).getLast? = some (.element t kids, pp ++ P) := by
  induction P with
  | nil => intro pp cs t kids h; simp [Node.get?] at h
  | cons i rest ih =>
    intro pp cs t kids h
    cases rest with
    | nil =>
      simp only [Node.get?] at h
      rw [chain]; simp only [h]
      simp [chain]
    | cons i2 rest =>
      simp only [Node.get?] at h
      cases hc : cs[i]? with
      | none => simp [hc] at h
      | some c =>
        cases c with
        | text leaf => simp [hc] at h
        | element t' kids' =>
          simp only [hc] at h
          have := ih (pp ++ [i]) kids' t kids h
          rw [chain]; simp only [hc]
          rw [List.getLast?_cons]
          rw [this]
          simp

/-- In mode `lowest` the chain to an element yields that element only: each
element of the chain lies below the one before. -/
theorem foldl_lowestStep_chain (P : Path) : ∀ (pp : Path) (cs : List Node)
    (hit : Option (Node × Path)), (∀ h, hit = some h → h.2 = pp) →
    (chain pp cs P).foldl (lowestStep Node.isBlock) (hit, []) =
      (((chain pp cs P).getLast?).or hit, []) := by
  induction P with
  | nil => intro pp cs hit _; simp [chain]
  | cons i rest ih =>
    intro pp cs hit hh
    rw [chain]
    split
    · rename_i t kids hc
      simp only [List.foldl_cons]
      have hstep : lowestStep Node.isBlock (hit, []) (.element t kids, pp ++ [i]) =
          (some (.element t kids, pp ++ [i]), []) := by
        unfold lowestStep
        simp only [Node.isBlock, Bool.not_true, Bool.false_eq_true, if_false]
        cases hit with
        | none => simp
        | some h =>
          have := hh h rfl
          simp only [this]
          have : Path.compare (pp ++ [i]) pp = .eq := by
            have := Path.compare_append_left pp [i] []
            simp only [List.append_nil] at this
            rw [this]; rfl
          simp only [this]
          rfl
      rw [hstep, ih (pp ++ [i]) kids (some (.element t kids, pp ++ [i])) (by intro h hh; cases hh; rfl)]
      rw [List.getLast?_cons]
      cases (chain (pp ++ [i]) kids rest).getLast? <;> simp
    · simp

theorem entriesList_texts (pp : Path) : ∀ (seg : List Node) (j : Nat),
    (∀ n ∈ seg, n.isText = true) → ∀ e ∈ Node.entriesList pp j seg, e.1.isText = true := by
  intro seg
  induction seg with
  | nil => intro j _ e he; simp [Node.entriesList] at he
  | cons c seg ih =>
    intro j h e he
    simp only [Node.entriesList, List.mem_append] at he
    rcases he with he | he
    · have hc := h c (List.mem_cons_self _ _)
      cases c with
      | element t kids => simp [Node.isText] at hc
      | text leaf =>
        simp only [Node.entries, List.mem_singleton] at he
        rw [he]; rfl
    · exact ih (j + 1) (fun n hn => h n (List.mem_cons_of_mem _ hn)) e he

theorem isBlock_of_isText (n : Node) (h : n.isText = true) : n.isBlock = false := by
  cases n <;> simp_all [Node.isText, Node.isBlock]

/-- The lowest blocks of a selection between two text children of a block
whose children in between are text nodes: that block. -/
theorem nodes_lowest_block_inside (cs : List Node) (P : Path) (t : String) (kids : List Node)
    (j k : Nat) (hP : Node.get? cs P = some (.element t kids))
    (htexts : ∀ n ∈ (kids.drop j).take (k + 1 - j), n.isText = true) :
    Editor.nodes cs (P ++ [j]) (P ++ [k]) Node.isBlock .lowest = [(.element t kids, P)] := by
  unfold Editor.nodes
  have hv := visited_inside P [] cs t kids j k hP
  simp only [List.nil_append] at hv
  simp only [hv, List.foldl_append]
  rw [foldl_lowestStep_chain P [] cs none (by intro h hh; cases hh)]
  rw [foldl_lowestStep_nomatch]
  · have := chain_getLast P [] cs t kids hP
    simp only [List.nil_append] at this
    simp [this]
  · intro e he
    exact isBlock_of_isText _ (entriesList_texts P _ j htexts e he)

/-- The blocks the traversal of a selection between two text children of
a block visits: the chain to that block. -/
theorem nodes_all_block_inside (cs : List Node) (P : Path) (t : String) (kids : List Node)
    (j k : Nat) (hP : Node.get? cs P = some (.element t kids))
    (htexts : ∀ n ∈ (kids.drop j).take (k + 1 - j), n.isText = true) :
    Editor.nodes cs (P ++ [j]) (P ++ [k]) Node.isBlock .all = chain [] cs P := by
  unfold Editor.nodes
  have hv := visited_inside P [] cs t kids j k hP
  simp only [List.nil_append] at hv
  simp only [hv, List.filter_append]
  rw [filter_eq_self_of _ _ (chain_isBlock P [] cs), filter_eq_nil_of]
  · simp
  · intro e he
    exact isBlock_of_isText _ (entriesList_texts P _ j htexts e he)

/-- The text nodes of a selection inside one text node, in either mode. -/
theorem nodes_text_inside (cs : List Node) (P : Path) (t : String) (kids : List Node)
    (j : Nat) (leaf : Text) (mode : Mode) (hP : Node.get? cs P = some (.element t kids))
    (hj : kids[j]? = some (.text leaf)) :
    Editor.nodes cs (P ++ [j]) (P ++ [j]) Node.isText mode = [(.text leaf, P ++ [j])] := by
  unfold Editor.nodes
  have hv := visited_inside P [] cs t kids j j hP
  simp only [List.nil_append] at hv
  have hseg : (kids.drop j).take (j + 1 - j) = [.text leaf] := by
    have : j + 1 - j = 1 := by omega
    rw [this]
    have hlt : j < kids.length := by
      by_contra hc
      rw [List.getElem?_eq_none (by omega)] at hj
      cases hj
    rw [List.drop_eq_getElem_cons hlt]
    simp only [List.take_succ_cons, List.take_zero]
    rw [List.getElem?_eq_getElem hlt] at hj
    simp only [Option.some.injEq] at hj
    rw [hj]
  rw [hseg] at hv
  simp only [hv, Node.entriesList, Node.entries, List.append_nil]
  cases mode with
  | all =>
    simp only [List.filter_append]
    rw [filter_eq_nil_of _ _ (chain_isText P [] cs)]
    simp [Node.isText]
  | lowest =>
    simp only [List.foldl_append]
    rw [foldl_lowestStep_nomatch _ _ _ (chain_isText P [] cs)]
    simp [lowestStep, Node.isText]

/-! ## Lemmas: updates of the children of one element -/

theorem modifyNth_congr {α : Type} (f g : α → α) : ∀ (i : Nat) (l : List α),
    (∀ x, l[i]? = some x → f x = g x) → modifyNth f i l = modifyNth g i l
  | _, [], _ => by simp [modifyNth]
  | 0, x :: xs, h => by simp [modifyNth, h x (by simp)]
  | i + 1, x :: xs, h => by
    simp only [modifyNth, List.cons.injEq, true_and]
    exact modifyNth_congr f g i xs (fun y hy => h y (by simpa using hy))

theorem modifyNth_comp {α : Type} (f g : α → α) : ∀ (i : Nat) (l : List α),
    modifyNth g i (modifyNth f i l) = modifyNth (g ∘ f) i l
  | _, [] => by simp [modifyNth]
  | 0, x :: xs => by simp [modifyNth]
  | i + 1, x :: xs => by simp [modifyNth, modifyNth_comp f g i xs]

theorem modifyNth_id {α : Type} (f : α → α) (i : Nat) (l : List α)
    (h : ∀ x, l[i]? = some x → f x = x) : modifyNth f i l = l := by
  induction l generalizing i with
  | nil => simp [modifyNth]
  | cons x xs ih =>
    cases i with
    | zero => simp [modifyNth, h x (by simp)]
    | succ i =>
      simp only [modifyNth, List.cons.injEq, true_and]
      exact ih i (fun y hy => h y (by simpa using hy))

theorem updateChildren_cons (f : List Node → List Node) (i : Nat) (rest : Path)
    (cs : List Node) :
    Node.updateChildren f (i :: rest) cs =
      modifyNth (Node.withChildren (Node.updateChildren f rest)) i cs := by
  rw [Node.updateChildren]
  apply modifyNth_congr
  intro x _
  cases x <;> rfl

theorem withChildren_comp (f g : List Node → List Node) :
    Node.withChildren g ∘ Node.withChildren f = Node.withChildren (g ∘ f) := by
  funext n
  cases n <;> rfl

/-- Two updates of the children of the same element compose. -/
theorem updateChildren_comp (f g : List Node → List Node) (P : Path) : ∀ (cs : List Node),
    Node.updateChildren g P (Node.updateChildren f P cs) = Node.updateChildren (g ∘ f) P cs := by
  induction P with
  | nil => intro cs; rfl
  | cons i rest ih =>
    intro cs
    rw [updateChildren_cons, updateChildren_cons, updateChildren_cons, modifyNth_comp,
      withChildren_comp]
    congr 1
    funext n
    cases n with
    | text leaf => rfl
    | element t kids => simp only [Node.withChildren, Function.comp]; rw [ih]

/-- An update that does not change the children changes nothing. -/
theorem updateChildren_congr (f g : List Node → List Node) (P : Path) :
    ∀ (cs : List Node) (t : String) (kids : List Node),
    Node.get? cs P = some (.element t kids) → f kids = g kids →
    Node.updateChildren f P cs = Node.updateChildren g P cs := by
  induction P with
  | nil => intro cs t kids h; simp [Node.get?] at h
  | cons i rest ih =>
    intro cs t kids h hfg
    rw [updateChildren_cons, updateChildren_cons]
    apply modifyNth_congr
    intro x hx
    cases rest with
    | nil =>
      simp only [Node.get?] at h
      rw [h] at hx
      cases hx
      simp [Node.withChildren, Node.updateChildren, hfg]
    | cons i2 rest =>
      simp only [Node.get?, hx] at h
      cases x with
      | text leaf => rfl
      | element t' kids' =>
        simp only at h
        simp only [Node.withChildren]
        rw [ih kids' t kids h hfg]

theorem updateChildren_id (P : Path) : ∀ (cs : List Node),
    Node.updateChildren (fun kids => kids) P cs = cs := by
  induction P with
  | nil => intro cs; rfl
  | cons i rest ih =>
    intro cs
    rw [updateChildren_cons]
    apply modifyNth_id
    intro x _
    cases x with
    | text leaf => rfl
    | element t kids => simp [Node.withChildren, ih]

/-- The element at `P` after an update of its children. -/
theorem get?_updateChildren (f : List Node → List Node) (P : Path) :
    ∀ (cs : List Node) (t : String) (kids : List Node),
    Node.get? cs P = some (.element t kids) →
    Node.get? (Node.updateChildren f P cs) P = some (.element t (f kids)) := by
  induction P with
  | nil => intro cs t kids h; simp [Node.get?] at h
  | cons i rest ih =>
    intro cs t kids h
    rw [updateChildren_cons]
    cases rest with
    | nil =>
      simp only [Node.get?] at h ⊢
      rw [modifyNth_getElem?]
      simp [h, Node.withChildren, Node.updateChildren]
    | cons i2 rest =>
      simp only [Node.get?] at h ⊢
      rw [modifyNth_getElem?]
      simp only [if_true]
      cases hc : cs[i]? with
      | none => simp [hc] at h
      | some c =>
        cases c with
        | text leaf => simp [hc] at h
        | element t' kids' =>
          simp only [hc] at h
          simp only [Option.map_some', Node.withChildren]
          exact ih kids' t kids h

/-- `set_node` on a child is an update of the children of its parent. -/
theorem mapAt_eq_updateChildren (f : Node → Node) (i : Nat) (P : Path) : ∀ (cs : List Node),
    Node.mapAt f (P ++ [i]) cs = Node.updateChildren (modifyNth f i) P cs := by
  induction P with
  | nil => intro cs; rfl
  | cons i0 rest ih =>
    intro cs
    rw [updateChildren_cons]
    cases rest with
    | nil =>
      simp only [List.cons_append, List.nil_append, Node.mapAt]
      apply modifyNth_congr
      intro x _
      cases x with
      | text leaf => rfl
      | element t kids =>
        simp only [Node.withChildren, Node.updateChildren]
    | cons i2 rest =>
      simp only [List.cons_append, Node.mapAt]
      apply modifyNth_congr
      intro x _
      cases x with
      | text leaf => rfl
      | element t kids =>
        simp only [Node.withChildren]
        have := ih kids
        simp only [List.cons_append] at this
        exact congrArg _ this

/-! ## Lemmas: normalisation along the chain to one block -/

theorem textsNormal_tail (c : Node) (l : List Node) (h : textsNormal (c :: l) = true) :
    l = [] ∨ textsNormal l = true := by
  cases c with
  | element _ _ => simp [textsNormal] at h
  | text lf =>
    cases l with
    | nil => left; rfl
    | cons d l =>
      right
      cases d with
      | element _ _ => simp [textsNormal] at h
      | text _ =>
        simp only [textsNormal, Bool.and_eq_true] at h
        exact h.2

theorem textsNormal_allText : ∀ (l : List Node), textsNormal l = true → ∀ n ∈ l, n.isText = true
  | [], h => by simp [textsNormal] at h
  | c :: l, h => by
    intro n hn
    simp only [List.mem_cons] at hn
    rcases hn with hn | hn
    · subst hn
      cases n with
      | element _ _ => simp [textsNormal] at h
      | text _ => rfl
    · rcases textsNormal_tail c l h with hl | hl
      · subst hl; simp at hn
      · exact textsNormal_allText l hl n hn

theorem get?_of_allText (l : List Node) (hl : ∀ n ∈ l, n.isText = true) (q : Path) (x : String)
    (y : List Node) : Node.get? l q ≠ some (.element x y) := by
  intro h
  cases q with
  | nil => simp [Node.get?] at h
  | cons a q =>
    cases q with
    | nil =>
      simp only [Node.get?] at h
      have := hl _ (List.getElem?_mem h)
      simp [Node.isText] at this
    | cons b q =>
      simp only [Node.get?] at h
      cases hc : l[a]? with
      | none => simp [hc] at h
      | some c =>
        have := hl _ (List.getElem?_mem hc)
        cases c with
        | text leaf => simp [hc] at h
        | element _ _ => simp [Node.isText] at this

theorem normalList_allBlock : ∀ (l : List Node), Node.normalList l = true →
    ∀ n ∈ l, n.isBlock = true
  | [], _ => by simp
  | c :: l, h => by
    intro n hn
    simp only [Node.normalList, Bool.and_eq_true] at h
    simp only [List.mem_cons] at hn
    rcases hn with hn | hn
    · subst hn
      cases n with
      | text _ => simp [Node.normal] at h
      | element _ _ => rfl
    · exact normalList_allBlock l h.2 n hn

/-- Below a list of elements in normal form, the children of an element
that has an element below it are elements in normal form. -/
theorem normalList_child (cs : List Node) (hn : Node.normalList cs = true) (i : Nat)
    (t : String) (kids : List Node) (hc : cs[i]? = some (.element t kids)) (q : Path)
    (x : String) (y : List Node) (hq : Node.get? kids q = some (.element x y)) :
    Node.normalList kids = true := by
  have h := Node.normalList_getElem cs hn i _ hc
  simp only [Node.normal, Bool.or_eq_true, Bool.and_eq_true] at h
  rcases h with h | ⟨_, h⟩
  · exact absurd hq (get?_of_allText kids (textsNormal_allText kids h) q x y)
  · exact h

theorem mergeAdj_allBlock : ∀ (l : List Node), (∀ n ∈ l, n.isBlock = true) →
    mergeAdj none l = l
  | [], _ => rfl
  | .text leaf :: l, h => by
    have := h (.text leaf) (List.mem_cons_self _ _)
    simp [Node.isBlock] at this
  | .element t kids :: l, h => by
    rw [mergeAdj, mergeAdj_allBlock l (fun n hn => h n (List.mem_cons_of_mem _ hn))]

theorem mem_modifyNth {α : Type} (f : α → α) : ∀ (i : Nat) (l : List α) (x : α),
    x ∈ modifyNth f i l → x ∈ l ∨ ∃ y ∈ l, x = f y
  | _, [], x, h => by simp [modifyNth] at h
  | 0, a :: l, x, h => by
    simp only [modifyNth, List.mem_cons] at h
    rcases h with h | h
    · right; exact ⟨a, List.mem_cons_self _ _, h⟩
    · left; exact List.mem_cons_of_mem _ h
  | i + 1, a :: l, x, h => by
    simp only [modifyNth, List.mem_cons] at h
    rcases h with h | h
    · left; rw [h]; exact List.mem_cons_self _ _
    · rcases mem_modifyNth f i l x h with h | ⟨y, hy, hxy⟩
      · left; exact List.mem_cons_of_mem _ h
      · right; exact ⟨y, List.mem_cons_of_mem _ hy, hxy⟩

theorem updateChildren_allBlock (f : List Node → List Node) (i : Nat) (rest : Path)
    (cs : List Node) (h : ∀ n ∈ cs, n.isBlock = true) :
    ∀ n ∈ Node.updateChildren f (i :: rest) cs, n.isBlock = true := by
  intro n hn
  rw [updateChildren_cons] at hn
  rcases mem_modifyNth _ _ _ _ hn with hn | ⟨y, hy, hxy⟩
  · exact h n hn
  · have := h y hy
    rw [hxy]
    cases y with
    | text _ => simp [Node.isBlock] at this
    | element _ _ => rfl

theorem pathsTo_map (R : Path) : ∀ (pp : Path),
    pathsTo pp R = (pathsTo [] R).map (fun q => pp ++ q) := by
  induction R with
  | nil => intro pp; rfl
  | cons i rest ih =>
    intro pp
    simp only [pathsTo, List.nil_append, List.map_cons, List.cons.injEq, true_and]
    rw [ih (pp ++ [i]), ih [i]]
    simp [List.map_map, Function.comp]

/-- Updates below the child `i` are an update of the child `i`. -/
theorem foldr_update_lift (g : List Node → List Node) (i : Nat) :
    ∀ (l : List Path) (cs : List Node),
    (l.map (fun q => [i] ++ q)).foldr (fun q c => Node.updateChildren g q c) cs =
      modifyNth (Node.withChildren
        (fun kids => l.foldr (fun q c => Node.updateChildren g q c) kids)) i cs := by
  intro l
  induction l with
  | nil =>
    intro cs
    simp only [List.map_nil, List.foldr_nil]
    symm
    apply modifyNth_id
    intro x _
    cases x <;> rfl
  | cons q l ih =>
    intro cs
    simp only [List.map_cons, List.foldr_cons]
    rw [ih cs]
    simp only [List.singleton_append]
    rw [updateChildren_cons, modifyNth_comp, withChildren_comp]
    rfl

/-- The normalisation of the elements on the way to a block, after an
update of the children of that block in a document in normal form, is the
normalisation of that block: the blocks above it have elements as children,
among which there is nothing to merge. -/
theorem foldr_update_pathsTo (g f : List Node → List Node)
    (hg : ∀ l : List Node, (∀ n ∈ l, n.isBlock = true) → g l = l) (P : Path) :
    ∀ (cs : List Node) (t : String) (kids : List Node), Node.normalList cs = true →
    Node.get? cs P = some (.element t kids) →
    (pathsTo [] P).foldr (fun q c => Node.updateChildren g q c) (Node.updateChildren f P cs) =
      Node.updateChildren (g ∘ f) P cs := by
  induction P with
  | nil => intro cs t kids _ h; simp [Node.get?] at h
  | cons i rest ih =>
    intro cs t kids hn h
    cases rest with
    | nil =>
      simp only [pathsTo, List.foldr_cons, List.foldr_nil, List.nil_append]
      exact updateChildren_comp f g [i] cs
    | cons i2 rest =>
      simp only [Node.get?] at h
      cases hc : cs[i]? with
      | none => simp [hc] at h
      | some c =>
        cases c with
        | text leaf => simp [hc] at h
        | element t' kids' =>
          simp only [hc] at h
          have hn' := normalList_child cs hn i t' kids' hc _ t kids h
          have hih := ih kids' t kids hn' h
          rw [pathsTo, List.foldr_cons, pathsTo_map, List.nil_append]
          rw [foldr_update_lift g i (pathsTo [] (i2 :: rest))]
          rw [updateChildren_cons f, modifyNth_comp, withChildren_comp]
          rw [updateChildren_cons g, modifyNth_comp, withChildren_comp]
          rw [updateChildren_cons (g ∘ f)]
          apply modifyNth_congr
          intro x hx
          rw [hc] at hx
          cases hx
          have e0 : ∀ l : List Node, Node.updateChildren g [] l = g l := fun _ => rfl
          simp only [Node.withChildren, Function.comp, e0]
          rw [hih]
          congr 1
          apply hg
          exact updateChildren_allBlock _ i2 rest kids' (normalList_allBlock kids' hn')

/-- The paths of the chain to an element. -/
theorem chain_paths (P : Path) : ∀ (pp : Path) (cs : List Node) (t : String) (kids : List Node),
    Node.get? cs P = some (.element t kids) →
    (chain pp cs P).map Prod.snd = pathsTo pp P := by
  induction P with
  | nil => intro pp cs t kids h; simp [Node.get?] at h
  | cons i rest ih =>
    intro pp cs t kids h
    cases rest with
    | nil =>
      simp only [Node.get?] at h
      rw [chain]; simp only [h]
      simp [chain, pathsTo]
    | cons i2 rest =>
      simp only [Node.get?] at h
      cases hc : cs[i]? with
      | none => simp [hc] at h
      | some c =>
        cases c with
        | text leaf => simp [hc] at h
        | element t' kids' =>
          simp only [hc] at h
          rw [chain]; simp only [hc]
          rw [List.map_cons, ih (pp ++ [i]) kids' t kids h]
          rfl

/-! ## Lemmas: strings and splits of a text node -/

theorem strTake_length (text : String) (n : Nat) (h : n ≤ text.length) :
    (strTake text n).length = n := by
  simp only [strTake, String.length, List.length_take]
  exact Nat.min_eq_left h

theorem strTake_all (text : String) : strTake text text.length = text := by
  cases text with
  | mk d =>
    show String.mk (d.take d.length) = String.mk d
    rw [List.take_length]

theorem strDrop_zero (text : String) : strDrop text 0 = text := by
  cases text with
  | mk d => rfl

theorem strDrop_length (text : String) (n : Nat) :
    (strDrop text n).length = text.length - n := by
  cases text with
  | mk d =>
    show (d.drop n).length = d.length - n
    exact List.length_drop n d

theorem splitText_getElem?_left : ∀ (kids : List Node) (j o : Nat) (leaf : Text),
    kids[j]? = some (.text leaf) →
    (splitText j o kids)[j]? = some (.text { leaf with text := strTake leaf.text o })
  | [], j, o, leaf, h => by simp at h
  | c :: cs, 0, o, leaf, h => by
    simp only [List.getElem?_cons_zero, Option.some.injEq] at h
    subst h
    simp [splitText]
  | c :: cs, j + 1, o, leaf, h => by
    simp only [List.getElem?_cons_succ] at h
    simp only [splitText, List.getElem?_cons_succ]
    exact splitText_getElem?_left cs j o leaf h

theorem splitText_getElem?_right : ∀ (kids : List Node) (j o : Nat) (leaf : Text),
    kids[j]? = some (.text leaf) →
    (splitText j o kids)[j + 1]? = some (.text { leaf with text := strDrop leaf.text o })
  | [], j, o, leaf, h => by simp at h
  | c :: cs, 0, o, leaf, h => by
    simp only [List.getElem?_cons_zero, Option.some.injEq] at h
    subst h
    simp [splitText]
  | c :: cs, j + 1, o, leaf, h => by
    simp only [List.getElem?_cons_succ] at h
    simp only [splitText, List.getElem?_cons_succ]
    exact splitText_getElem?_right cs j o leaf h

/-- The text node `j` after a split at an offset behind its start. -/
theorem maybeSplit_getElem?_left (kids : List Node) (j o : Nat) (leaf : Text)
    (hj : kids[j]? = some (.text leaf)) (ho0 : 0 < o) :
    (maybeSplit j o kids)[j]? = some (.text { leaf with text := strTake leaf.text o }) := by
  unfold maybeSplit
  simp only [hj]
  by_cases h : o = 0 ∨ o = leaf.text.length
  · simp only [h, if_true, hj]
    rcases h with h | h
    · omega
    · rw [h, strTake_all]
  · simp only [h, if_false]
    exact splitText_getElem?_left kids j o leaf hj

/-- The text node behind the text node `j` after a split inside it. -/
theorem maybeSplit_getElem?_right (kids : List Node) (j o : Nat) (leaf : Text)
    (hj : kids[j]? = some (.text leaf)) (ho : o < leaf.text.length) (ho0 : 0 < o) :
    (maybeSplit j o kids)[j + 1]? = some (.text { leaf with text := strDrop leaf.text o }) := by
  unfold maybeSplit
  simp only [hj]
  have h : ¬ (o = 0 ∨ o = leaf.text.length) := by omega
  simp only [h, if_false]
  exact splitText_getElem?_right kids j o leaf hj

theorem maybeSplit_zero (kids : List Node) (j : Nat) : maybeSplit j 0 kids = kids := by
  unfold maybeSplit
  cases kids[j]? with
  | none => rfl
  | some c => cases c <;> simp

/-! ## Lemmas: the transforms on a selection inside one text node -/

theorem Path.parent_append (P : Path) (j : Nat) : Path.parent (P ++ [j]) = P := by
  simp [Path.parent]

theorem Path.next_append (P : Path) (j : Nat) : Path.next (P ++ [j]) = P ++ [j + 1] := by
  simp [Path.next]

theorem leaf_inside (cs : List Node) (P : Path) (t : String) (kids : List Node) (j : Nat)
    (hP : Node.get? cs P = some (.element t kids)) :
    Editor.leaf cs (P ++ [j]) = match kids[j]? with
      | some (.text leaf) => some leaf
      | _ => none := by
  unfold Editor.leaf
  rw [Node.get?_append P cs t kids j [] hP]
  cases hk : kids[j]? with
  | none => simp only [Node.get?, hk]
  | some c => cases c <;> simp only [Node.get?, hk]

theorem isEdge_inside (cs : List Node) (P : Path) (t : String) (kids : List Node) (j o : Nat)
    (leaf : Text) (hP : Node.get? cs P = some (.element t kids))
    (hj : kids[j]? = some (.text leaf)) :
    Editor.isEdge cs ⟨P ++ [j], o⟩ = (o == 0 || o == leaf.text.length) := by
  unfold Editor.isEdge
  rw [leaf_inside cs P t kids j hP, hj]

/-- `Transforms.splitNodes` at a point of a text child of the element at `P`
updates the children of that element. -/
theorem splitNodes_inside (cs : List Node) (P : Path) (t : String) (kids : List Node)
    (j o : Nat) (leaf : Text) (hP : Node.get? cs P = some (.element t kids))
    (hj : kids[j]? = some (.text leaf)) :
    Transforms.splitNodes cs ⟨P ++ [j], o⟩ = Node.updateChildren (maybeSplit j o) P cs := by
  unfold Transforms.splitNodes
  rw [isEdge_inside cs P t kids j o leaf hP hj]
  by_cases h : o = 0 ∨ o = leaf.text.length
  · have h1 : (o == 0 || o == leaf.text.length) = true := by
      rcases h with h | h <;> simp [h]
    simp only [h1, if_true]
    have h2 : maybeSplit j o kids = (fun k => k) kids := by
      unfold maybeSplit; simp [hj, h]
    rw [updateChildren_congr (maybeSplit j o) (fun k => k) P cs t kids hP h2, updateChildren_id]
  · have h1 : (o == 0 || o == leaf.text.length) = false := by
      simp only [Bool.or_eq_false_iff, beq_eq_false_iff_ne]
      omega
    simp only [h1, Bool.false_eq_true, if_false, Path.parent_append]
    have h3 : (P ++ [j]).getLastD 0 = j := by simp
    rw [h3]
    apply updateChildren_congr _ _ P cs t kids hP
    unfold maybeSplit; simp [hj, h]

theorem afterSplit_before (q : Path) (s e : Nat) (fwd : Bool) (h : s < e) :
    Point.afterSplit ⟨q, e⟩ fwd ⟨q, s⟩ = ⟨q, s⟩ := by
  unfold Point.afterSplit
  have h1 : ¬ e < s := by omega
  have h2 : (e == s) = false := by simp; omega
  simp [h1, h2]

theorem afterSplit_self_backward (q : Path) (e : Nat) :
    Point.afterSplit ⟨q, e⟩ false ⟨q, e⟩ = ⟨q, e⟩ := by
  unfold Point.afterSplit
  simp

theorem afterSplit_self_forward (P : Path) (j s : Nat) :
    Point.afterSplit ⟨P ++ [j], s⟩ true ⟨P ++ [j], s⟩ = ⟨P ++ [j + 1], 0⟩ := by
  unfold Point.afterSplit
  simp [Path.next_append]

theorem afterSplit_behind (P : Path) (j s e : Nat) (fwd : Bool) (h : s < e) :
    Point.afterSplit ⟨P ++ [j], s⟩ fwd ⟨P ++ [j], e⟩ = ⟨P ++ [j + 1], e - s⟩ := by
  unfold Point.afterSplit
  simp [Path.next_append, h]

theorem unhangRange_of_end_pos (cs : List Node) (r : Range) (h : r.edges.2.offset ≠ 0) :
    Editor.unhangRange cs r = r := by
  unfold Editor.unhangRange
  simp [h]

theorem mergePos_offset (cs : List Node) (i o : Nat) :
    mergePos cs i o = ((mergePos cs i 0).1, (mergePos cs i 0).2 + o) := by
  simp [mergePos]

theorem edges_of_same_path (q : Path) (s e : Nat) (h : s < e) (r : Range)
    (hr : (r.anchor = ⟨q, s⟩ ∧ r.focus = ⟨q, e⟩) ∨ (r.anchor = ⟨q, e⟩ ∧ r.focus = ⟨q, s⟩)) :
    r.edges = (⟨q, s⟩, ⟨q, e⟩) := by
  unfold Range.edges Range.isBackward Point.compare
  rcases hr with ⟨h1, h2⟩ | ⟨h1, h2⟩
  · rw [h1, h2]
    simp only [Path.compare_self, h, if_true]
    rfl
  · rw [h1, h2]
    have h3 : ¬ e < s := by omega
    simp only [Path.compare_self, h, h3, if_true, if_false]
    rfl

theorem isBackward_iff (r : Range) (q : Path) (s e : Nat)
    (hedges : r.edges = (⟨q, s⟩, ⟨q, e⟩)) :
    (r.isBackward = true → r.anchor = ⟨q, e⟩ ∧ r.focus = ⟨q, s⟩) ∧
    (r.isBackward = false → r.anchor = ⟨q, s⟩ ∧ r.focus = ⟨q, e⟩) := by
  unfold Range.edges at hedges
  constructor
  · intro hb
    simp only [hb, if_true, Prod.mk.injEq] at hedges
    exact ⟨hedges.2, hedges.1⟩
  · intro hb
    simp only [hb, Bool.false_eq_true, if_false, Prod.mk.injEq] at hedges
    exact hedges

/-- `Transforms.setNodes` with `split: true` on an expanded selection inside
one text node, in a document in normal form: the children of the block of
the text node are updated, nothing else is, and the selection stays inside
one text node. -/
theorem setTextNodes_inside (editor : Editor) (sel : Range) (P : Path) (t : String)
    (kids : List Node) (j s e : Nat) (leaf : Text) (key : Mark) (value : Option JsVal)
    (hsel : editor.selection = some sel)
    (hedges : sel.edges = (⟨P ++ [j], s⟩, ⟨P ++ [j], e⟩))
    (hse : s < e) (he : e ≤ leaf.text.length)
    (hP : Node.get? editor.children P = some (.element t kids))
    (hj : kids[j]? = some (.text leaf))
    (hn : Node.normalList editor.children = true) :
    (Transforms.setTextNodes editor key value).children =
      Node.updateChildren (fun _ => mergeAdj none
        (modifyNth (Node.setMark key value) (if s = 0 then j else j + 1)
          (maybeSplit j s (maybeSplit j e kids)))) P editor.children ∧
    (∃ sel', (Transforms.setTextNodes editor key value).selection = some sel' ∧
      sel'.edges =
        (⟨P ++ [(mergePos (modifyNth (Node.setMark key value) (if s = 0 then j else j + 1)
            (maybeSplit j s (maybeSplit j e kids))) (if s = 0 then j else j + 1) 0).1],
          (mergePos (modifyNth (Node.setMark key value) (if s = 0 then j else j + 1)
            (maybeSplit j s (maybeSplit j e kids))) (if s = 0 then j else j + 1) 0).2⟩,
         ⟨P ++ [(mergePos (modifyNth (Node.setMark key value) (if s = 0 then j else j + 1)
            (maybeSplit j s (maybeSplit j e kids))) (if s = 0 then j else j + 1) 0).1],
          (mergePos (modifyNth (Node.setMark key value) (if s = 0 then j else j + 1)
            (maybeSplit j s (maybeSplit j e kids))) (if s = 0 then j else j + 1) 0).2 + (e - s)⟩)) ∧
    ((Transforms.setTextNodes editor key value).pendingMarks = none ∨
      (Transforms.setTextNodes editor key value).pendingMarks = editor.pendingMarks) := by
  have hun : Editor.unhangRange editor.children sel = sel :=
    unhangRange_of_end_pos _ _ (by rw [hedges]; simp; omega)
  have h1 : sel.edges.1 = ⟨P ++ [j], s⟩ := by rw [hedges]
  have h2 : sel.edges.2 = ⟨P ++ [j], e⟩ := by rw [hedges]
  -- the split at the end
  have hsplitE := splitNodes_inside editor.children P t kids j e leaf hP hj
  have hP1 := get?_updateChildren (maybeSplit j e) P editor.children t kids hP
  have hj1 := maybeSplit_getElem?_left kids j e leaf hj (by omega)
  -- the split at the start
  have hsplitS := splitNodes_inside _ P t _ j s _ hP1 hj1
  have hedgeS := isEdge_inside _ P t _ j s _ hP1 hj1
  have hlen1 : ({ leaf with text := strTake leaf.text e } : Text).text.length = e :=
    strTake_length leaf.text e he
  rw [hlen1] at hedgeS
  have hP2 := get?_updateChildren (maybeSplit j s) P _ t _ hP1
  have hstart2 : (if (!(s == 0 || s == e)) = true then
        Point.afterSplit ⟨P ++ [j], s⟩ true ⟨P ++ [j], s⟩
      else (⟨P ++ [j], s⟩ : Point)) = ⟨P ++ [if s = 0 then j else j + 1], 0⟩ := by
    by_cases h0 : s = 0
    · simp [h0]
    · have : (s == e) = false := by simp; omega
      simp [h0, this, afterSplit_self_forward]
  have hend2 : (if (!(s == 0 || s == e)) = true then
        Point.afterSplit ⟨P ++ [j], s⟩ false ⟨P ++ [j], e⟩
      else (⟨P ++ [j], e⟩ : Point)) = ⟨P ++ [if s = 0 then j else j + 1], e - s⟩ := by
    by_cases h0 : s = 0
    · simp [h0]
    · have : (s == e) = false := by simp; omega
      simp [h0, this, afterSplit_behind _ _ _ _ _ hse]
  -- the text node of the selection after the splits
  have hj2 : (maybeSplit j s (maybeSplit j e kids))[if s = 0 then j else j + 1]? =
      some (.text { leaf with text := strSlice leaf.text s e }) := by
    by_cases h0 : s = 0
    · simp only [h0, if_true, maybeSplit_zero, strSlice, strDrop_zero]
      exact hj1
    · simp only [h0, if_false]
      exact maybeSplit_getElem?_right _ j s _ hj1 (by rw [hlen1]; exact hse) (by omega)
  rw [updateChildren_comp] at hP2
  have hnodes := nodes_text_inside _ P t _ _ _ .lowest hP2 hj2
  have hcs3 : Node.updateChildren
      (modifyNth (Node.setMark key value) (if s = 0 then j else j + 1) ∘
        maybeSplit j s ∘ maybeSplit j e) P editor.children =
      Node.updateChildren (fun _ =>
        modifyNth (Node.setMark key value) (if s = 0 then j else j + 1)
          (maybeSplit j s (maybeSplit j e kids))) P editor.children :=
    updateChildren_congr _ _ P editor.children t kids hP rfl
  refine ⟨?_, ?_, ?_⟩
  all_goals unfold Transforms.setTextNodes
  all_goals simp only [hsel, hun, h1, h2, hsplitE, afterSplit_before _ s e _ hse,
    afterSplit_self_backward, ite_self, hsplitS, hedgeS, hstart2, hend2, hnodes,
    List.foldl_cons, List.foldl_nil, mapAt_eq_updateChildren, updateChildren_comp]
  rotate_left
  · -- the selection
    rw [hcs3]
    refine ⟨_, rfl, ?_⟩
    have hP3' := get?_updateChildren (fun _ =>
      modifyNth (Node.setMark key value) (if s = 0 then j else j + 1)
        (maybeSplit j s (maybeSplit j e kids))) P editor.children t kids hP
    have hmerge : ∀ o, Point.afterMerge (Node.updateChildren (fun _ =>
        modifyNth (Node.setMark key value) (if s = 0 then j else j + 1)
          (maybeSplit j s (maybeSplit j e kids))) P editor.children)
        ⟨P ++ [if s = 0 then j else j + 1], o⟩ =
        ⟨P ++ [(mergePos (modifyNth (Node.setMark key value) (if s = 0 then j else j + 1)
            (maybeSplit j s (maybeSplit j e kids))) (if s = 0 then j else j + 1) 0).1],
          (mergePos (modifyNth (Node.setMark key value) (if s = 0 then j else j + 1)
            (maybeSplit j s (maybeSplit j e kids))) (if s = 0 then j else j + 1) 0).2 + o⟩ := by
      intro o
      unfold Point.afterMerge
      have hlast : (P ++ [if s = 0 then j else j + 1]).getLast? =
          some (if s = 0 then j else j + 1) := by simp
      simp only [Path.parent_append, hlast]
      have hne : P ≠ [] := by
        intro hp; rw [hp] at hP; simp [Node.get?] at hP
      have hch : Node.childrenAt (Node.updateChildren (fun _ =>
          modifyNth (Node.setMark key value) (if s = 0 then j else j + 1)
            (maybeSplit j s (maybeSplit j e kids))) P editor.children) P =
          some (modifyNth (Node.setMark key value) (if s = 0 then j else j + 1)
            (maybeSplit j s (maybeSplit j e kids))) := by
        cases hp : P with
        | nil => exact absurd hp hne
        | cons a b =>
          rw [hp] at hP3'
          simp only [Node.childrenAt, hP3']
      rw [hch]
      simp only
      rw [mergePos_offset]
    apply edges_of_same_path _ _ _ (by omega)
    cases sel.isBackward
    · left
      simp only [Bool.false_eq_true, if_false, hmerge, Nat.add_zero, and_self]
    · right
      simp only [if_true, hmerge, Nat.add_zero, and_self]
  · -- the pending marks
    split_ifs <;> simp
  -- the normalisation
  have hP3 := get?_updateChildren
    (modifyNth (Node.setMark key value) (if s = 0 then j else j + 1) ∘
      maybeSplit j s ∘ maybeSplit j e) P editor.children t kids hP
  have hj3 : ((modifyNth (Node.setMark key value) (if s = 0 then j else j + 1) ∘
      maybeSplit j s ∘ maybeSplit j e) kids)[if s = 0 then j else j + 1]? =
      some (.text { text := strSlice leaf.text s e, marks := leaf.marks.set key value }) := by
    simp only [Function.comp, modifyNth_getElem?, if_true, hj2, Option.map_some', Node.setMark]
  unfold Editor.normalizeSpan
  rw [nodes_all_block_inside _ P t _ _ _ hP3 (by
    intro n hn
    have hlt : (if s = 0 then j else j + 1) <
        ((modifyNth (Node.setMark key value) (if s = 0 then j else j + 1) ∘
          maybeSplit j s ∘ maybeSplit j e) kids).length := by
      by_contra hc
      rw [List.getElem?_eq_none (by omega)] at hj3
      cases hj3
    have e1 : ∀ x : Nat, x + 1 - x = 1 := by intro x; omega
    rw [e1, List.drop_eq_getElem_cons hlt] at hn
    simp only [List.take_succ_cons, List.take_zero, List.mem_singleton] at hn
    rw [List.getElem?_eq_getElem hlt] at hj3
    simp only [Option.some.injEq] at hj3
    rw [hn, hj3]
    rfl)]
  rw [← List.foldr_map (f := Prod.snd) (g := fun q c => Node.updateChildren (mergeAdj none) q c)]
  rw [chain_paths P [] _ t _ hP3]
  rw [foldr_update_pathsTo (mergeAdj none) _ mergeAdj_allBlock P editor.children t kids hn hP]
  apply updateChildren_congr _ _ P editor.children t kids hP
  rfl

/-! ## Lemmas: the children of the block of the selection, as lists -/

theorem split_at_getElem? {α : Type} : ∀ (l : List α) (j : Nat) (x : α), l[j]? = some x →
    ∃ pre post, l = pre ++ x :: post ∧ pre.length = j
  | [], j, x, h => by simp at h
  | a :: l, 0, x, h => by
    simp only [List.getElem?_cons_zero, Option.some.injEq] at h
    exact ⟨[], l, by simp [h], rfl⟩
  | a :: l, j + 1, x, h => by
    simp only [List.getElem?_cons_succ] at h
    obtain ⟨pre, post, h1, h2⟩ := split_at_getElem? l j x h
    exact ⟨a :: pre, post, by simp [h1], by simp [h2]⟩

theorem getElem?_append_length {α : Type} : ∀ (pre post : List α) (x : α),
    (pre ++ x :: post)[pre.length]? = some x
  | [], post, x => by simp
  | c :: pre, post, x => by
    simp only [List.length_cons, List.cons_append, List.getElem?_cons_succ]
    exact getElem?_append_length pre post x

theorem splitText_append : ∀ (pre post : List Node) (leaf : Text) (o : Nat),
    splitText pre.length o (pre ++ .text leaf :: post) =
      pre ++ .text { leaf with text := strTake leaf.text o } ::
        .text { leaf with text := strDrop leaf.text o } :: post
  | [], post, leaf, o => by simp [splitText]
  | c :: pre, post, leaf, o => by
    simp only [List.length_cons, List.cons_append, splitText, List.cons.injEq, true_and]
    exact splitText_append pre post leaf o

theorem modifyNth_append {α : Type} (f : α → α) : ∀ (pre post : List α) (x : α),
    modifyNth f pre.length (pre ++ x :: post) = pre ++ f x :: post
  | [], post, x => by simp [modifyNth]
  | c :: pre, post, x => by
    simp only [List.length_cons, List.cons_append, modifyNth, List.cons.injEq, true_and]
    exact modifyNth_append f pre post x

theorem modifyNth_append_succ {α : Type} (f : α → α) (pre post : List α) (a x : α) :
    modifyNth f (pre.length + 1) (pre ++ a :: x :: post) = pre ++ a :: f x :: post := by
  have := modifyNth_append f (pre ++ [a]) post x
  simpa using this

theorem maybeSplit_append (pre post : List Node) (leaf : Text) (o : Nat) :
    maybeSplit pre.length o (pre ++ .text leaf :: post) =
      if o = 0 ∨ o = leaf.text.length then pre ++ .text leaf :: post
      else pre ++ .text { leaf with text := strTake leaf.text o } ::
        .text { leaf with text := strDrop leaf.text o } :: post := by
  unfold maybeSplit
  rw [getElem?_append_length]
  simp only
  split
  · rfl
  · exact splitText_append pre post leaf o

theorem strTake_strTake (text : String) (s e : Nat) (h : s ≤ e) :
    strTake (strTake text e) s = strTake text s := by
  cases text with
  | mk d =>
    show String.mk ((d.take e).take s) = String.mk (d.take s)
    rw [List.take_take, Nat.min_eq_left h]

theorem strDrop_all (text : String) : strDrop text text.length = "" := by
  cases text with
  | mk d =>
    show String.mk (d.drop d.length) = String.mk []
    rw [List.drop_length]

theorem strTake_zero (text : String) : strTake text 0 = "" := by
  cases text with
  | mk d => rfl

/-- The children of the block after the splits and the `set_node`. -/
theorem toggled_children (pre post : List Node) (leaf : Text) (key : Mark)
    (value : Option JsVal) (s e : Nat) (hse : s < e) (he : e ≤ leaf.text.length) :
    modifyNth (Node.setMark key value) (if s = 0 then pre.length else pre.length + 1)
      (maybeSplit pre.length s (maybeSplit pre.length e (pre ++ .text leaf :: post))) =
    pre ++ toggledParts key value leaf s e ++ post := by
  rw [maybeSplit_append]
  have he0 : ¬ e = 0 := by omega
  by_cases h1 : e = leaf.text.length
  · -- no split at the end
    subst h1
    have h1' : leaf.text.length = 0 ∨ leaf.text.length = leaf.text.length := Or.inr rfl
    rw [if_pos h1']
    rw [maybeSplit_append]
    by_cases h0 : s = 0
    · have h2 : s = 0 ∨ s = leaf.text.length := Or.inl h0
      rw [if_pos h2, if_pos h0]
      rw [modifyNth_append]
      simp [toggledParts, Node.setMark, strSlice, strTake_all, strDrop_zero, h0]
    · have h2 : ¬ (s = 0 ∨ s = leaf.text.length) := by omega
      rw [if_neg h2, if_neg h0]
      rw [modifyNth_append_succ]
      have h3 : 0 < s := by omega
      simp [toggledParts, Node.setMark, strSlice, strTake_all, h3]
  · have h1' : ¬ (e = 0 ∨ e = leaf.text.length) := by omega
    have h4 : e < leaf.text.length := by omega
    rw [if_neg h1']
    rw [maybeSplit_append]
    have hlen : ({ leaf with text := strTake leaf.text e } : Text).text.length = e :=
      strTake_length leaf.text e he
    by_cases h0 : s = 0
    · have h2 : s = 0 ∨ s = ({ leaf with text := strTake leaf.text e } : Text).text.length :=
        Or.inl h0
      rw [if_pos h2, if_pos h0]
      rw [modifyNth_append]
      simp [toggledParts, Node.setMark, strSlice, strDrop_zero, h4, h0]
    · have h2 : ¬ (s = 0 ∨ s = ({ leaf with text := strTake leaf.text e } : Text).text.length) := by
        rw [hlen]; omega
      rw [if_neg h2, if_neg h0]
      rw [modifyNth_append_succ]
      have h3 : 0 < s := by omega
      simp [toggledParts, Node.setMark, strSlice, h3, h4, strTake_strTake _ _ _ (Nat.le_of_lt hse)]

/-! ## Lemmas: the formatting of the characters -/

theorem charMarks_append : ∀ (a b : List Node), charMarks (a ++ b) = charMarks a ++ charMarks b
  | [], b => rfl
  | .text leaf :: a, b => by
    show charMarks (.text leaf :: (a ++ b)) = charMarks (.text leaf :: a) ++ charMarks b
    rw [charMarks, charMarks, charMarks_append a b, List.append_assoc]
  | .element t kids :: a, b => by
    show charMarks (.element t kids :: (a ++ b)) = charMarks (.element t kids :: a) ++ charMarks b
    rw [charMarks, charMarks, charMarks_append a b]

theorem charsOf_append (a b : String) (m : Marks) :
    charsOf (a ++ b) m = charsOf a m ++ charsOf b m := by
  simp [charsOf]

theorem charMarks_text (leaf : Text) (rest : List Node) :
    charMarks (.text leaf :: rest) = charsOf leaf.text leaf.marks ++ charMarks rest := rfl

/-- Merging adjacent text nodes does not change the formatting of any
character. -/
theorem charMarks_mergeAdj : ∀ (l : List Node) (acc : Option Text),
    charMarks (mergeAdj acc l) =
      (match acc with
        | some a => charsOf a.text a.marks
        | none => []) ++ charMarks l
  | [], none => rfl
  | [], some a => by simp [mergeAdj, charMarks, charsOf]
  | .text b :: rest, none => by
    rw [mergeAdj, charMarks_mergeAdj rest (some b)]
    rfl
  | .text b :: rest, some a => by
    rw [mergeAdj]
    split
    · rename_i h
      rw [charMarks_mergeAdj rest _]
      simp only [charsOf_append, charMarks_text, List.append_assoc, h]
    · rw [charMarks_text, charMarks_mergeAdj rest (some b)]
      simp [charMarks_text]
  | .element t kids :: rest, none => by
    rw [mergeAdj]
    simp only [charMarks, List.nil_append]
    rw [charMarks_mergeAdj rest none]
    rfl
  | .element t kids :: rest, some a => by
    rw [mergeAdj]
    simp only [charMarks]
    rw [charMarks_mergeAdj rest none]
    rfl

theorem strTake_append_strSlice (text : String) (s e : Nat) (hse : s ≤ e) :
    strTake text s ++ strSlice text s e ++ strDrop text e = text := by
  cases text with
  | mk d =>
    show String.mk (d.take s ++ (d.take e).drop s ++ d.drop e) = String.mk d
    have h1 : d.take s = (d.take e).take s := by
      rw [List.take_take, Nat.min_eq_left hse]
    rw [h1, List.take_append_drop, List.take_append_drop]

/-! ## Lemmas: the marks of a selection inside one text node -/

theorem isExpanded_of_edges (sel : Range) (q : Path) (s e : Nat) (hse : s < e)
    (hedges : sel.edges = (⟨q, s⟩, ⟨q, e⟩)) : sel.isExpanded = true := by
  unfold Range.isExpanded Range.isCollapsed
  obtain ⟨hb, hf⟩ := isBackward_iff sel q s e hedges
  cases h : sel.isBackward
  · obtain ⟨h1, h2⟩ := hf h
    rw [h1, h2]
    simp; omega
  · obtain ⟨h1, h2⟩ := hb h
    rw [h1, h2]
    simp; omega

/-- The marks of an expanded selection inside one text node, when there are
no pending marks: the properties of that text node. -/
theorem marks_inside (editor : Editor) (sel : Range) (P : Path) (t : String)
    (kids : List Node) (j s e : Nat) (leaf : Text)
    (hsel : editor.selection = some sel)
    (hedges : sel.edges = (⟨P ++ [j], s⟩, ⟨P ++ [j], e⟩)) (hse : s < e)
    (hP : Node.get? editor.children P = some (.element t kids))
    (hj : kids[j]? = some (.text leaf))
    (hpending : editor.pendingMarks = none) :
    Editor.marks editor = some leaf.marks := by
  unfold Editor.marks
  simp only [hsel, hpending, isExpanded_of_edges sel _ s e hse hedges, if_true]
  unfold Editor.nodesAt
  rw [hedges]
  simp only
  rw [nodes_text_inside _ P t kids j leaf .all hP hj]
  rfl

theorem toggleMark_expanded (editor : Editor) (format : Mark) (sel : Range)
    (hsel : editor.selection = some sel) (hexp : sel.isExpanded = true) :
    CustomEditor.toggleMark editor format =
      Transforms.setTextNodes editor format
        (if CustomEditor.isMarkActive editor format then none else some (.bool true)) := by
  unfold CustomEditor.toggleMark Editor.removeMark Editor.addMark
  simp only [hsel, hexp, if_true]
  split <;> rfl

theorem toggleMark_collapsed (editor : Editor) (format : Mark) (sel : Range)
    (hsel : editor.selection = some sel) (hcol : sel.isCollapsed = true) :
    CustomEditor.toggleMark editor format =
      { editor with pendingMarks := some (((Editor.marks editor).getD {}).set format
        (if CustomEditor.isMarkActive editor format then none else some (.bool true))) } := by
  unfold CustomEditor.toggleMark Editor.removeMark Editor.addMark
  have : sel.isExpanded = false := by unfold Range.isExpanded; simp [hcol]
  simp only [hsel, this, Bool.false_eq_true, if_false]
  split <;> rfl

/-! ## Lemmas: merging around one text node -/

theorem str_append_ne_empty (a b : String) (h : a ≠ "") : a ++ b ≠ "" := by
  intro hab
  apply h
  have := congrArg String.length hab
  simp only [String.length_append] at this
  have h0 : a.length = 0 := by
    have : ("" : String).length = 0 := rfl
    omega
  cases a with
  | mk d =>
    have : d = [] := List.length_eq_zero.1 h0
    rw [this]

theorem str_append_empty (a : String) : a ++ "" = a := by
  cases a with
  | mk d => show String.mk (d ++ []) = String.mk d; rw [List.append_nil]

theorem str_empty_append (a : String) : "" ++ a = a := by
  cases a with
  | mk d => rfl

theorem str_append_assoc (a b c : String) : a ++ b ++ c = a ++ (b ++ c) := by
  cases a; cases b; cases c
  show String.mk (_ ++ _ ++ _) = String.mk (_ ++ (_ ++ _))
  rw [List.append_assoc]

theorem charsOf_empty (m : Marks) : charsOf "" m = [] := rfl

/-- What follows a text node that is being merged: the text node grows by
the text `Y` of the neighbours with equal properties; nothing of what
follows is left to merge. -/
theorem mergeAdj_some : ∀ (rest : List Node) (b : Text), textsFilled rest = true →
    b.text ≠ "" → ∃ (Y : String) (R2 : List Node),
      mergeAdj (some b) rest = .text { text := b.text ++ Y, marks := b.marks } :: R2 ∧
      textsCanon (.text { text := b.text ++ Y, marks := b.marks } :: R2) = true ∧
      charsOf Y b.marks ++ charMarks R2 = charMarks rest
  | [], b, _, hb => by
    refine ⟨"", [], ?_, ?_, rfl⟩
    · simp [mergeAdj, str_append_empty]
    · simp [textsCanon, str_append_empty, hb]
  | .element t kids :: rest, b, h, _ => by simp [textsFilled] at h
  | .text c :: rest, b, h, hb => by
    simp only [textsFilled, Bool.and_eq_true, bne_iff_ne, ne_eq] at h
    rw [mergeAdj]
    by_cases hm : b.marks = c.marks
    · rw [if_pos hm]
      obtain ⟨Y, R2, h1, h2, h3⟩ := mergeAdj_some rest { b with text := b.text ++ c.text }
        h.2 (str_append_ne_empty _ _ hb)
      dsimp only at h1 h2 h3
      refine ⟨c.text ++ Y, R2, ?_, ?_, ?_⟩
      · rw [← str_append_assoc]; exact h1
      · rw [← str_append_assoc]; exact h2
      · rw [charsOf_append, charMarks_text, List.append_assoc, h3, hm]
    · rw [if_neg hm]
      obtain ⟨Y, R2, h1, h2, h3⟩ := mergeAdj_some rest c h.2 h.1
      refine ⟨"", _, by rw [str_append_empty], ?_, ?_⟩
      · rw [str_append_empty, h1]
        simp only [textsCanon, Bool.and_eq_true, bne_iff_ne, ne_eq]
        exact ⟨⟨hb, hm⟩, h2⟩
      · rw [charsOf_empty, List.nil_append, h1, charMarks_text, charMarks_text]
        simp only
        rw [charsOf_append, List.append_assoc, h3]

/-- Merging text nodes none of which is empty leaves nothing to merge. -/
theorem textsCanon_mergeAdj : ∀ (l : List Node), textsFilled l = true →
    textsCanon (mergeAdj none l) = true
  | [], _ => rfl
  | .element t kids :: rest, h => by simp [textsFilled] at h
  | .text b :: rest, h => by
    simp only [textsFilled, Bool.and_eq_true, bne_iff_ne, ne_eq] at h
    obtain ⟨Y, R2, h1, h2, _⟩ := mergeAdj_some rest b h.2 h.1
    rw [mergeAdj, h1]
    exact h2

/-- Merging around the text node `B`: it grows by the text `X` of the
neighbours with equal properties before it and by the text `Y` of those
behind it; the formatting of the characters stays as it was. -/
theorem mergeAdj_around : ∀ (Lpre : List Node) (acc : Option Text) (B : Text)
    (Lpost : List Node), textsFilled Lpre = true → textsFilled Lpost = true → B.text ≠ "" →
    (∀ a, acc = some a → a.text ≠ "") →
    ∃ (R1 : List Node) (X Y : String) (R2 : List Node),
      mergeAdj acc (Lpre ++ .text B :: Lpost) =
        R1 ++ .text { text := X ++ B.text ++ Y, marks := B.marks } :: R2 ∧
      mergeAdj acc (Lpre ++ [.text B]) = R1 ++ [.text { text := X ++ B.text, marks := B.marks }] ∧
      accChars acc ++ charMarks Lpre = charMarks R1 ++ charsOf X B.marks ∧
      charsOf Y B.marks ++ charMarks R2 = charMarks Lpost
  | [], none, B, Lpost, _, h2, hB, _ => by
    obtain ⟨Y, R2, e1, _, e3⟩ := mergeAdj_some Lpost B h2 hB
    refine ⟨[], "", Y, R2, ?_, ?_, rfl, e3⟩
    · simp only [List.nil_append, mergeAdj, str_empty_append]; exact e1
    · simp [mergeAdj, str_empty_append]
  | [], some a, B, Lpost, _, h2, hB, ha => by
    have ha' := ha a rfl
    simp only [List.nil_append, mergeAdj]
    by_cases hm : a.marks = B.marks
    · rw [if_pos hm, if_pos hm]
      obtain ⟨Y, R2, e1, _, e3⟩ := mergeAdj_some Lpost { a with text := a.text ++ B.text }
        h2 (str_append_ne_empty _ _ ha')
      dsimp only at e1 e3
      refine ⟨[], a.text, Y, R2, ?_, ?_, ?_, ?_⟩
      · rw [List.nil_append, ← hm]; exact e1
      · rw [List.nil_append, ← hm]
      · simp [accChars, charMarks, hm]
      · rw [← hm]; exact e3
    · rw [if_neg hm, if_neg hm]
      obtain ⟨Y, R2, e1, _, e3⟩ := mergeAdj_some Lpost B h2 hB
      refine ⟨[.text a], "", Y, R2, ?_, ?_, ?_, e3⟩
      · simp only [str_empty_append, List.singleton_append, e1]
      · simp [str_empty_append, mergeAdj]
      · simp [accChars, charMarks, charsOf]
  | .element t kids :: Lpre, acc, B, Lpost, h1, _, _, _ => by simp [textsFilled] at h1
  | .text d :: Lpre, none, B, Lpost, h1, h2, hB, _ => by
    simp only [textsFilled, Bool.and_eq_true, bne_iff_ne, ne_eq] at h1
    obtain ⟨R1, X, Y, R2, e1, e2, e3, e4⟩ := mergeAdj_around Lpre (some d) B Lpost h1.2 h2 hB
      (by intro a ha; cases ha; exact h1.1)
    refine ⟨R1, X, Y, R2, ?_, ?_, ?_, e4⟩
    · simp only [List.cons_append, mergeAdj]; exact e1
    · simp only [List.cons_append, mergeAdj]; exact e2
    · rw [← e3]; simp [accChars, charMarks_text]
  | .text d :: Lpre, some a, B, Lpost, h1, h2, hB, ha => by
    have ha' := ha a rfl
    simp only [textsFilled, Bool.and_eq_true, bne_iff_ne, ne_eq] at h1
    simp only [List.cons_append, mergeAdj]
    by_cases hm : a.marks = d.marks
    · rw [if_pos hm, if_pos hm]
      obtain ⟨R1, X, Y, R2, e1, e2, e3, e4⟩ := mergeAdj_around Lpre
        (some { a with text := a.text ++ d.text }) B Lpost h1.2 h2 hB
        (by intro x hx; cases hx; exact str_append_ne_empty _ _ ha')
      refine ⟨R1, X, Y, R2, e1, e2, ?_, e4⟩
      rw [← e3]; simp [accChars, charMarks_text, charsOf_append, hm]
    · rw [if_neg hm, if_neg hm]
      obtain ⟨R1, X, Y, R2, e1, e2, e3, e4⟩ := mergeAdj_around Lpre (some d) B Lpost h1.2 h2
        hB (by intro x hx; cases hx; exact h1.1)
      refine ⟨.text a :: R1, X, Y, R2, ?_, ?_, ?_, e4⟩
      · exact congrArg (List.cons (Node.text a)) e1
      · exact congrArg (List.cons (Node.text a)) e2
      · simp only [accChars, charMarks_text, List.append_assoc] at e3 ⊢
        rw [e3]

theorem textsCanon_cons (a : Text) (l : List Node) (x : Text) (R : List Node)
    (ha : a.text ≠ "") (hl : l = .text x :: R) (hm : a.marks ≠ x.marks)
    (hc : textsCanon l = true) : textsCanon (.text a :: l) = true := by
  subst hl
  simp only [textsCanon, Bool.and_eq_true, bne_iff_ne, ne_eq]
  exact ⟨⟨ha, hm⟩, hc⟩

/-! ## Lemmas: text nodes with nothing to merge are determined by the
formatting of their characters -/

theorem charsOf_snd (text : String) (m : Marks) : ∀ x ∈ charsOf text m, x.2 = m := by
  intro x hx
  simp only [charsOf, List.mem_map] at hx
  obtain ⟨c, _, hc⟩ := hx
  rw [← hc]

theorem charsOf_head (text : String) (m : Marks) (h : text ≠ "") :
    ∃ c rest, charsOf text m = (c, m) :: rest := by
  cases text with
  | mk d =>
    cases d with
    | nil => exact absurd rfl h
    | cons c d => exact ⟨c, d.map (fun c => (c, m)), rfl⟩

theorem charsOf_inj (a b : String) (m : Marks) (h : charsOf a m = charsOf b m) : a = b := by
  cases a with
  | mk x =>
    cases b with
    | mk y =>
      simp only [charsOf] at h
      have : x = y := by
        apply List.map_injective_iff.2 _ h
        intro c d hcd
        exact (Prod.mk.injEq _ _ _ _ ▸ hcd : c = d ∧ m = m).1
      rw [this]

theorem textsCanon_head (l : List Node) (h : textsCanon l = true) (hne : l ≠ []) :
    ∃ z r, l = .text z :: r ∧ z.text ≠ "" := by
  cases l with
  | nil => exact absurd rfl hne
  | cons c r =>
    cases c with
    | element t kids => simp [textsCanon] at h
    | text z =>
      refine ⟨z, r, rfl, ?_⟩
      cases r with
      | nil => simpa [textsCanon] using h
      | cons d r =>
        cases d with
        | element t kids => simp [textsCanon] at h
        | text y =>
          simp only [textsCanon, Bool.and_eq_true, bne_iff_ne, ne_eq] at h
          exact h.1.1

theorem textsCanon_tail (c : Node) (l : List Node) (h : textsCanon (c :: l) = true) :
    textsCanon l = true := by
  cases c with
  | element t kids => simp [textsCanon] at h
  | text z =>
    cases l with
    | nil => rfl
    | cons d r =>
      cases d with
      | element t kids => simp [textsCanon] at h
      | text y =>
        simp only [textsCanon, Bool.and_eq_true] at h
        exact h.2

theorem textsCanon_next (x z : Text) (r : List Node)
    (h : textsCanon (.text x :: .text z :: r) = true) : x.marks ≠ z.marks := by
  simp only [textsCanon, Bool.and_eq_true, bne_iff_ne, ne_eq] at h
  exact h.1.2

theorem charMarks_eq_nil (l : List Node) (h : textsCanon l = true) (hc : charMarks l = []) :
    l = [] := by
  by_contra hne
  obtain ⟨z, r, hl, hz⟩ := textsCanon_head l h hne
  obtain ⟨c, rest, hcz⟩ := charsOf_head z.text z.marks hz
  rw [hl, charMarks_text, hcz] at hc
  cases hc

/-- A text node cannot be longer than its counterpart when the characters
have the same formatting: the next text node has other properties. -/
theorem canon_no_overlap (x y : Text) (a' b' : List Node) (c : Char × Marks)
    (cs : List (Char × Marks)) (hxy : x.marks = y.marks)
    (ha : textsCanon (.text x :: a') = true)
    (h1 : charsOf y.text y.marks = charsOf x.text x.marks ++ c :: cs)
    (h2 : charMarks a' = (c :: cs) ++ charMarks b') : False := by
  have hc : c.2 = y.marks := by
    apply charsOf_snd y.text y.marks
    rw [h1]; simp
  have hne : a' ≠ [] := by
    intro h; rw [h] at h2; cases h2
  obtain ⟨z, r, hl, hz⟩ := textsCanon_head a' (textsCanon_tail _ _ ha) hne
  obtain ⟨c0, rest, hcz⟩ := charsOf_head z.text z.marks hz
  rw [hl, charMarks_text, hcz] at h2
  simp only [List.cons_append, List.cons.injEq] at h2
  have : z.marks = y.marks := by rw [← hc, ← h2.1]
  rw [hl] at ha
  exact textsCanon_next x z r ha (by rw [hxy, this])

/-- Two lists of text nodes with nothing to merge and the same formatting
of the characters are equal. -/
theorem canon_unique : ∀ (a b : List Node), textsCanon a = true → textsCanon b = true →
    charMarks a = charMarks b → a = b
  | [], b, _, hb, h => (charMarks_eq_nil b hb h.symm).symm
  | .element t kids :: a', b, ha, _, _ => by simp [textsCanon] at ha
  | .text x :: a', [], ha, _, h => by
    have := charMarks_eq_nil _ ha h
    cases this
  | .text x :: a', .element t kids :: b', _, hb, _ => by simp [textsCanon] at hb
  | .text x :: a', .text y :: b', ha, hb, h => by
    have hx : x.text ≠ "" := by
      obtain ⟨z, r, hl, hz⟩ := textsCanon_head _ ha (by simp)
      cases hl; exact hz
    have hy : y.text ≠ "" := by
      obtain ⟨z, r, hl, hz⟩ := textsCanon_head _ hb (by simp)
      cases hl; exact hz
    obtain ⟨cx, restx, hcx⟩ := charsOf_head x.text x.marks hx
    obtain ⟨cy, resty, hcy⟩ := charsOf_head y.text y.marks hy
    rw [charMarks_text, charMarks_text] at h
    have hm : x.marks = y.marks := by
      have h' := h
      rw [hcx, hcy] at h'
      simp only [List.cons_append, List.cons.injEq, Prod.mk.injEq] at h'
      exact h'.1.2
    rcases List.append_eq_append_iff.1 h with ⟨c, h1, h2⟩ | ⟨c, h1, h2⟩
    · cases c with
      | nil =>
        simp only [List.append_nil, List.nil_append] at h1 h2
        rw [← hm] at h1
        have ht := charsOf_inj _ _ _ h1
        have hz : x = y := by
          cases x; cases y
          simp only at ht hm
          rw [ht, hm]
        rw [hz, canon_unique a' b' (textsCanon_tail _ _ ha) (textsCanon_tail _ _ hb) h2]
      | cons c cs => exact (canon_no_overlap x y a' b' c cs hm ha h1 h2).elim
    · cases c with
      | nil =>
        simp only [List.append_nil, List.nil_append] at h1 h2
        rw [← hm] at h1
        have ht := charsOf_inj _ _ _ h1
        have hz : x = y := by
          cases x; cases y
          simp only at ht hm
          rw [ht, hm]
        rw [hz, canon_unique a' b' (textsCanon_tail _ _ ha) (textsCanon_tail _ _ hb) h2.symm]
      | cons c cs => exact (canon_no_overlap y x b' a' c cs hm.symm hb h1 h2).elim

/-! ## Lemmas: normal form, filled and canonical lists of text nodes -/

theorem textsCanon_of_normal : ∀ (l : List Node), textsNormal l = true →
    (∀ a, l = [.text a] → a.text ≠ "") → textsCanon l = true
  | [], h, _ => by simp [textsNormal] at h
  | [.text a], _, h1 => by simpa [textsCanon] using h1 a rfl
  | [.element t kids], h, _ => by simp [textsNormal] at h
  | .element t kids :: _ :: _, h, _ => by simp [textsNormal] at h
  | .text a :: .element t kids :: rest, h, _ => by simp [textsNormal] at h
  | .text a :: .text b :: rest, h, _ => by
    simp only [textsNormal, Bool.and_eq_true, bne_iff_ne, ne_eq] at h
    simp only [textsCanon, Bool.and_eq_true, bne_iff_ne, ne_eq]
    refine ⟨⟨h.1.1.1, h.1.2⟩, ?_⟩
    apply textsCanon_of_normal _ h.2
    intro x hx
    simp only [List.cons.injEq, Node.text.injEq] at hx
    rw [← hx.1]; exact h.1.1.2

theorem textsNormal_of_canon : ∀ (l : List Node), textsCanon l = true → l ≠ [] →
    textsNormal l = true
  | [], _, h => absurd rfl h
  | [.text a], _, _ => rfl
  | [.element t kids], h, _ => by simp [textsCanon] at h
  | .element t kids :: _ :: _, h, _ => by simp [textsCanon] at h
  | .text a :: .element t kids :: rest, h, _ => by simp [textsCanon] at h
  | .text a :: .text b :: rest, h, _ => by
    have hb : b.text ≠ "" := by
      obtain ⟨z, r, hl, hz⟩ := textsCanon_head _ (textsCanon_tail _ _ h) (by simp)
      cases hl; exact hz
    simp only [textsCanon, Bool.and_eq_true, bne_iff_ne, ne_eq] at h
    simp only [textsNormal, Bool.and_eq_true, bne_iff_ne, ne_eq]
    exact ⟨⟨⟨h.1.1, hb⟩, h.1.2⟩, textsNormal_of_canon _ h.2 (by simp)⟩

theorem textsFilled_of_canon : ∀ (l : List Node), textsCanon l = true → textsFilled l = true
  | [], _ => rfl
  | .element t kids :: _, h => by simp [textsCanon] at h
  | .text a :: rest, h => by
    have ha : a.text ≠ "" := by
      obtain ⟨z, r, hl, hz⟩ := textsCanon_head _ h (by simp)
      cases hl; exact hz
    simp only [textsFilled, Bool.and_eq_true, bne_iff_ne, ne_eq]
    exact ⟨ha, textsFilled_of_canon rest (textsCanon_tail _ _ h)⟩

theorem textsFilled_append : ∀ (a b : List Node),
    textsFilled (a ++ b) = (textsFilled a && textsFilled b)
  | [], b => by simp [textsFilled]
  | .element t kids :: a, b => by simp [textsFilled]
  | .text x :: a, b => by
    show textsFilled (.text x :: (a ++ b)) = (textsFilled (.text x :: a) && textsFilled b)
    rw [textsFilled, textsFilled, textsFilled_append a b, Bool.and_assoc]

theorem str_ne_empty_of_length (a : String) (h : 0 < a.length) : a ≠ "" := by
  intro h0
  rw [h0] at h
  exact absurd h (by decide)

theorem strSlice_length (text : String) (s e : Nat) (he : e ≤ text.length) :
    (strSlice text s e).length = e - s := by
  unfold strSlice
  rw [strDrop_length, strTake_length _ _ he]

/-- The parts of a toggled text node are not empty. -/
theorem textsFilled_toggledParts (key : Mark) (value : Option JsVal) (leaf : Text) (s e : Nat)
    (hse : s < e) (he : e ≤ leaf.text.length) :
    textsFilled (toggledParts key value leaf s e) = true := by
  unfold toggledParts
  rw [textsFilled_append, textsFilled_append]
  simp only [Bool.and_eq_true]
  refine ⟨⟨?_, ?_⟩, ?_⟩
  · by_cases h0 : 0 < s
    · simp only [h0, if_true, textsFilled, Bool.and_true, bne_iff_ne, ne_eq]
      exact str_ne_empty_of_length _ (by rw [strTake_length _ _ (by omega)]; exact h0)
    · simp [h0, textsFilled]
  · simp only [textsFilled, Bool.and_true, bne_iff_ne, ne_eq]
    exact str_ne_empty_of_length _ (by rw [strSlice_length _ _ _ he]; omega)
  · by_cases h0 : e < leaf.text.length
    · simp only [h0, if_true, textsFilled, Bool.and_true, bne_iff_ne, ne_eq]
      exact str_ne_empty_of_length _ (by rw [strDrop_length]; omega)
    · simp [h0, textsFilled]

/-- The formatting of the characters after a toggle. -/
theorem charMarks_toggled (pre post : List Node) (leaf : Text) (key : Mark)
    (value : Option JsVal) (s e : Nat) (he : e ≤ leaf.text.length) :
    charMarks (pre ++ toggledParts key value leaf s e ++ post) =
      charMarks pre ++ charsOf (strTake leaf.text s) leaf.marks ++
        charsOf (strSlice leaf.text s e) (leaf.marks.set key value) ++
        charsOf (strDrop leaf.text e) leaf.marks ++ charMarks post := by
  simp only [List.nil_append, charMarks_append, toggledParts, List.append_assoc]
  have h1 : charMarks (if 0 < s then [Node.text { leaf with text := strTake leaf.text s }] else [])
      = charsOf (strTake leaf.text s) leaf.marks := by
    by_cases h0 : 0 < s
    · simp [h0, charMarks, charsOf]
    · have : s = 0 := by omega
      simp [this, strTake_zero, charMarks, charsOf]
  have h2 : charMarks (if e < leaf.text.length then
      [Node.text { leaf with text := strDrop leaf.text e }] else [])
      = charsOf (strDrop leaf.text e) leaf.marks := by
    by_cases h0 : e < leaf.text.length
    · simp [h0, charMarks, charsOf]
    · have : e = leaf.text.length := by omega
      simp [this, strDrop_all, charMarks, charsOf]
  rw [h1, h2]
  simp [charMarks, charsOf]

theorem str_length_append (a b : String) : (a ++ b).length = a.length + b.length := by
  cases a; cases b
  show (_ ++ _ : List Char).length = _
  simp [String.length]

theorem strTake_append_left (a b : String) : strTake (a ++ b) a.length = a := by
  cases a with
  | mk x =>
    cases b with
    | mk y =>
      show String.mk ((x ++ y).take x.length) = String.mk x
      rw [List.take_left']
      rfl

theorem strDrop_append_left (a b : String) : strDrop (a ++ b) a.length = b := by
  cases a with
  | mk x =>
    cases b with
    | mk y =>
      show String.mk ((x ++ y).drop x.length) = String.mk y
      rw [List.drop_left']
      rfl

theorem strSlice_middle (a b c : String) :
    strSlice (a ++ b ++ c) a.length (a.length + b.length) = b := by
  unfold strSlice
  have h1 : strTake (a ++ b ++ c) (a.length + b.length) = a ++ b := by
    rw [← str_length_append]
    exact strTake_append_left (a ++ b) c
  rw [h1]
  exact strDrop_append_left a b

theorem strTake_first (a b c : String) : strTake (a ++ b ++ c) a.length = a := by
  rw [str_append_assoc]
  exact strTake_append_left a (b ++ c)

theorem strDrop_last (a b c : String) : strDrop (a ++ b ++ c) (a.length + b.length) = c := by
  rw [← str_length_append]
  exact strDrop_append_left (a ++ b) c

/-! ## Lemmas: two toggles on the children of one block -/

theorem lastTextLength_append (R1 : List Node) (x : Text) :
    lastTextLength (R1 ++ [.text x]) = x.text.length := by
  unfold lastTextLength
  simp

/-- The children of the block after one toggle, around the text node of the
selection, and what a second toggle with a value that undoes the first makes
of them: the children before the first toggle. -/
theorem toggle_twice_list (pre post : List Node) (leaf : Text) (key : Mark)
    (v1 v2 : Option JsVal) (s e : Nat) (hse : s < e) (he : e ≤ leaf.text.length)
    (hcanon : textsCanon (pre ++ .text leaf :: post) = true)
    (hv : (leaf.marks.set key v1).set key v2 = leaf.marks) :
    ∃ (R1 R2 : List Node) (leaf' : Text) (s' : Nat),
      mergeAdj none (pre ++ toggledParts key v1 leaf s e ++ post) = R1 ++ .text leaf' :: R2 ∧
      mergePos (pre ++ toggledParts key v1 leaf s e ++ post)
        (if s = 0 then pre.length else pre.length + 1) 0 = (R1.length, s') ∧
      s' + (e - s) ≤ leaf'.text.length ∧
      leaf'.marks = leaf.marks.set key v1 ∧
      textsCanon (R1 ++ .text leaf' :: R2) = true ∧
      mergeAdj none (R1 ++ toggledParts key v2 leaf' s' (s' + (e - s)) ++ R2) =
        pre ++ .text leaf :: post := by
  -- the children after the first toggle, around the toggled part
  have hfilled := textsFilled_of_canon _ hcanon
  rw [textsFilled_append] at hfilled
  simp only [textsFilled, Bool.and_eq_true, bne_iff_ne, ne_eq] at hfilled
  obtain ⟨hpre, hleaf, hpost⟩ := hfilled
  have hparts := textsFilled_toggledParts key v1 leaf s e hse he
  have hshape : pre ++ toggledParts key v1 leaf s e ++ post =
      (pre ++ (if 0 < s then [Node.text { leaf with text := strTake leaf.text s }] else [])) ++
        .text { text := strSlice leaf.text s e, marks := leaf.marks.set key v1 } ::
          ((if e < leaf.text.length then [Node.text { leaf with text := strDrop leaf.text e }]
            else []) ++ post) := by
    simp [toggledParts]
  have hA : textsFilled (pre ++
      (if 0 < s then [Node.text { leaf with text := strTake leaf.text s }] else [])) = true := by
    rw [textsFilled_append, hpre, Bool.true_and]
    by_cases h0 : 0 < s
    · simp only [h0, if_true, textsFilled, Bool.and_true, bne_iff_ne, ne_eq]
      exact str_ne_empty_of_length _ (by rw [strTake_length _ _ (by omega)]; exact h0)
    · simp [h0, textsFilled]
  have hC : textsFilled ((if e < leaf.text.length then
      [Node.text { leaf with text := strDrop leaf.text e }] else []) ++ post) = true := by
    rw [textsFilled_append, hpost, Bool.and_true]
    by_cases h0 : e < leaf.text.length
    · simp only [h0, if_true, textsFilled, Bool.and_true, bne_iff_ne, ne_eq]
      exact str_ne_empty_of_length _ (by rw [strDrop_length]; omega)
    · simp [h0, textsFilled]
  have hBlen : (strSlice leaf.text s e).length = e - s := strSlice_length _ _ _ he
  have hB : (strSlice leaf.text s e) ≠ "" :=
    str_ne_empty_of_length _ (by rw [hBlen]; omega)
  obtain ⟨R1, X, Y, R2, e1, e2, e3, e4⟩ := mergeAdj_around _ none
    { text := strSlice leaf.text s e, marks := leaf.marks.set key v1 } _ hA hC hB
    (by intro a ha; cases ha)
  simp only at e1 e2 e3 e4
  have hK1canon : textsCanon (mergeAdj none (pre ++ toggledParts key v1 leaf s e ++ post)) =
      true := by
    apply textsCanon_mergeAdj
    rw [textsFilled_append, textsFilled_append, hpre, hparts, hpost]
    rfl
  have hlenA : (pre ++ (if 0 < s then
      [Node.text { leaf with text := strTake leaf.text s }] else [])).length =
      (if s = 0 then pre.length else pre.length + 1) := by
    by_cases h0 : s = 0
    · simp [h0]
    · have : 0 < s := by omega
      simp [h0, this]
  refine ⟨R1, R2, { text := X ++ strSlice leaf.text s e ++ Y, marks := leaf.marks.set key v1 },
    X.length, ?_, ?_, ?_, rfl, ?_, ?_⟩
  · rw [hshape]; exact e1
  · rw [hshape, ← hlenA]
    unfold mergePos
    rw [List.take_append_eq_append_take]
    simp only [List.take_of_length_le (Nat.le_succ _), Nat.add_sub_cancel_left,
      List.take_succ_cons, List.take_zero, getElem?_append_length]
    rw [e2, lastTextLength_append]
    simp only [List.length_append, List.length_singleton, Nat.add_sub_cancel, Prod.mk.injEq,
      true_and, str_length_append]
    omega
  · simp only [str_length_append, hBlen]
    omega
  · rw [← hshape] at e1
    rw [← e1]; exact hK1canon
  · -- the second toggle gives text nodes with nothing to merge and the characters
    -- of the start, hence the children of the start
    have hR : textsFilled (R1 ++
        Node.text (Text.mk (X ++ strSlice leaf.text s e ++ Y) (leaf.marks.set key v1)) :: R2) =
        true := by
      apply textsFilled_of_canon
      rw [← hshape] at e1
      rw [← e1]; exact hK1canon
    rw [textsFilled_append] at hR
    simp only [textsFilled, Bool.and_eq_true, bne_iff_ne, ne_eq] at hR
    have hlen' : X.length + (e - s) ≤
        (Text.mk (X ++ strSlice leaf.text s e ++ Y) (leaf.marks.set key v1)).text.length := by
      simp only [str_length_append, hBlen]; omega
    apply canon_unique _ _ _ hcanon
    · rw [charMarks_mergeAdj, charMarks_toggled _ _ _ _ _ _ _ hlen']
      simp only [List.nil_append]
      rw [← hBlen, strTake_first, strSlice_middle, strDrop_last, hv]
      have hleft : charMarks R1 ++ charsOf X (leaf.marks.set key v1) =
          charMarks pre ++ charsOf (strTake leaf.text s) leaf.marks := by
        rw [← e3]
        simp only [accChars, List.nil_append, charMarks_append]
        by_cases h0 : 0 < s
        · simp [h0, charMarks, charsOf]
        · have : s = 0 := by omega
          simp [this, strTake_zero, charMarks, charsOf]
      have hright : charsOf Y (leaf.marks.set key v1) ++ charMarks R2 =
          charsOf (strDrop leaf.text e) leaf.marks ++ charMarks post := by
        rw [e4]
        simp only [charMarks_append]
        by_cases h0 : e < leaf.text.length
        · simp [h0, charMarks, charsOf]
        · have : e = leaf.text.length := by omega
          simp [this, strDrop_all, charMarks, charsOf]
      rw [hleft]
      simp only [List.append_assoc]
      rw [hright]
      rw [charMarks_append, charMarks_text]
      conv_rhs => rw [← strTake_append_strSlice leaf.text s e (Nat.le_of_lt hse)]
      simp only [charsOf_append, List.append_assoc]
    · apply textsCanon_mergeAdj
      rw [textsFilled_append, textsFilled_append, hR.1, hR.2.2,
        textsFilled_toggledParts key v2 _ _ _ (by omega) hlen']
      rfl

/-! ## Lemmas: the normal form of the document after a toggle -/

theorem normalList_modifyNth (f : Node → Node) : ∀ (i : Nat) (cs : List Node),
    Node.normalList cs = true → (∀ x, cs[i]? = some x → (f x).normal = true) →
    Node.normalList (modifyNth f i cs) = true
  | _, [], _, _ => by simp [modifyNth, Node.normalList]
  | 0, c :: cs, h, hf => by
    simp only [Node.normalList, Bool.and_eq_true] at h
    simp only [modifyNth, Node.normalList, Bool.and_eq_true]
    exact ⟨hf c (by simp), h.2⟩
  | i + 1, c :: cs, h, hf => by
    simp only [Node.normalList, Bool.and_eq_true] at h
    simp only [modifyNth, Node.normalList, Bool.and_eq_true]
    exact ⟨h.1, normalList_modifyNth f i cs h.2 (fun x hx => hf x (by simpa using hx))⟩

theorem updateChildren_length (f : List Node → List Node) (i : Nat) (rest : Path)
    (cs : List Node) : (Node.updateChildren f (i :: rest) cs).length = cs.length := by
  rw [updateChildren_cons, modifyNth_length]

/-- Replacing the children of a block whose children are text nodes by text
nodes in normal form keeps the document in normal form. -/
theorem normalList_updateChildren (K : List Node) (hK : textsNormal K = true) (P : Path) :
    ∀ (cs : List Node) (t : String) (kids : List Node), Node.normalList cs = true →
    Node.get? cs P = some (.element t kids) →
    Node.normalList (Node.updateChildren (fun _ => K) P cs) = true := by
  induction P with
  | nil => intro cs t kids _ h; simp [Node.get?] at h
  | cons i rest ih =>
    intro cs t kids hn h
    rw [updateChildren_cons]
    apply normalList_modifyNth _ _ _ hn
    intro x hx
    cases rest with
    | nil =>
      simp only [Node.get?] at h
      rw [h] at hx
      cases hx
      simp [Node.withChildren, Node.updateChildren, Node.normal, hK]
    | cons i2 rest =>
      simp only [Node.get?, hx] at h
      cases x with
      | text leaf => simp at h
      | element t' kids' =>
        simp only at h
        have hn' := normalList_child cs hn i t' kids' hx _ t kids h
        have := ih kids' t kids hn' h
        simp only [Node.withChildren, Node.normal, Bool.or_eq_true, Bool.and_eq_true,
          Bool.not_eq_true']
        right
        refine ⟨?_, this⟩
        have hlen := updateChildren_length (fun _ => K) i2 rest kids'
        cases hk : Node.updateChildren (fun _ => K) (i2 :: rest) kids' with
        | nil =>
          rw [hk] at hlen
          have : kids' = [] := List.length_eq_zero.1 hlen.symm
          rw [this] at h
          cases rest <;> simp [Node.get?] at h
        | cons a b => rfl

/-- A text node of a document in normal form is a child of a block whose
children are text nodes in normal form. -/
theorem text_parent (q : Path) : ∀ (cs : List Node) (leaf : Text),
    Node.normalList cs = true → Node.get? cs q = some (.text leaf) →
    ∃ (P : Path) (j : Nat) (t : String) (kids : List Node), q = P ++ [j] ∧
      Node.get? cs P = some (.element t kids) ∧ kids[j]? = some (.text leaf) ∧
      textsNormal kids = true := by
  induction q with
  | nil => intro cs leaf _ h; simp [Node.get?] at h
  | cons i rest ih =>
    intro cs leaf hn h
    cases rest with
    | nil =>
      simp only [Node.get?] at h
      have := normalList_allBlock cs hn _ (List.getElem?_mem h)
      simp [Node.isBlock] at this
    | cons j rest =>
      simp only [Node.get?] at h
      cases hc : cs[i]? with
      | none => simp [hc] at h
      | some c =>
        cases c with
        | text lf => simp [hc] at h
        | element t' kids' =>
          simp only [hc] at h
          have hnorm := Node.normalList_getElem cs hn i _ hc
          simp only [Node.normal, Bool.or_eq_true, Bool.and_eq_true] at hnorm
          cases rest with
          | nil =>
            simp only [Node.get?] at h
            rcases hnorm with hnorm | ⟨_, hnorm⟩
            · exact ⟨[i], j, t', kids', rfl, by simp [Node.get?, hc], h, hnorm⟩
            · have := normalList_allBlock kids' hnorm _ (List.getElem?_mem h)
              simp [Node.isBlock] at this
          | cons j2 rest =>
            rcases hnorm with hnorm | ⟨_, hnorm⟩
            · exfalso
              simp only [Node.get?] at h
              cases hk : kids'[j]? with
              | none => simp [hk] at h
              | some d =>
                have := textsNormal_allText kids' hnorm _ (List.getElem?_mem hk)
                cases d with
                | text _ => simp [hk] at h
                | element _ _ => simp [Node.isText] at this
            · obtain ⟨P, j', t, kids, hq, hP, hj, hk⟩ := ih kids' leaf hnorm h
              refine ⟨i :: P, j', t, kids, by rw [hq]; rfl, ?_, hj, hk⟩
              cases P with
              | nil => simp [Node.get?] at hP
              | cons a b => simp only [Node.get?, hc]; exact hP

/-! ## Lemmas: two toggles of a mark inside one text node -/

theorem Marks.get_set (ms : Marks) (key : Mark) (v : Option JsVal) :
    (ms.set key v).get key = v := by
  cases key <;> rfl

theorem Marks.set_get (ms : Marks) (key : Mark) (v : Option JsVal) :
    (ms.set key v).set key (ms.get key) = ms := by
  cases key <;> rfl

theorem isMarkActive_of_marks (editor : Editor) (format : Mark) (ms : Marks)
    (h : Editor.marks editor = some ms) :
    CustomEditor.isMarkActive editor format = strictlyTrue (ms.get format) := by
  unfold CustomEditor.isMarkActive
  rw [h]

/-- One toggle with an expanded selection inside the text node `leaf`, the
child number `pre.length` of the block at `P`. -/
theorem toggle_once_inside (editor : Editor) (m : Mark) (sel : Range) (P : Path)
    (t : String) (pre post : List Node) (leaf : Text) (s e : Nat)
    (hsel : editor.selection = some sel)
    (hedges : sel.edges = (⟨P ++ [pre.length], s⟩, ⟨P ++ [pre.length], e⟩))
    (hse : s < e) (he : e ≤ leaf.text.length)
    (hP : Node.get? editor.children P = some (.element t (pre ++ .text leaf :: post)))
    (hn : Node.normalList editor.children = true)
    (hpending : editor.pendingMarks = none) :
    (CustomEditor.toggleMark editor m).children =
      Node.updateChildren (fun _ => mergeAdj none (pre ++ toggledParts m
        (if strictlyTrue (leaf.marks.get m) then none else some (.bool true)) leaf s e ++ post))
        P editor.children ∧
    (∃ sel', (CustomEditor.toggleMark editor m).selection = some sel' ∧
      sel'.edges =
        (⟨P ++ [(mergePos (pre ++ toggledParts m
            (if strictlyTrue (leaf.marks.get m) then none else some (.bool true)) leaf s e ++ post)
            (if s = 0 then pre.length else pre.length + 1) 0).1],
          (mergePos (pre ++ toggledParts m
            (if strictlyTrue (leaf.marks.get m) then none else some (.bool true)) leaf s e ++ post)
            (if s = 0 then pre.length else pre.length + 1) 0).2⟩,
         ⟨P ++ [(mergePos (pre ++ toggledParts m
            (if strictlyTrue (leaf.marks.get m) then none else some (.bool true)) leaf s e ++ post)
            (if s = 0 then pre.length else pre.length + 1) 0).1],
          (mergePos (pre ++ toggledParts m
            (if strictlyTrue (leaf.marks.get m) then none else some (.bool true)) leaf s e ++ post)
            (if s = 0 then pre.length else pre.length + 1) 0).2 + (e - s)⟩)) ∧
    (CustomEditor.toggleMark editor m).pendingMarks = none := by
  have hj := getElem?_append_length pre post (Node.text leaf)
  have hexp := isExpanded_of_edges sel _ s e hse hedges
  have hm := marks_inside editor sel P t _ pre.length s e leaf hsel hedges hse hP hj hpending
  rw [toggleMark_expanded editor m sel hsel hexp, isMarkActive_of_marks editor m _ hm]
  obtain ⟨h1, h2, h3⟩ := setTextNodes_inside editor sel P t _ pre.length s e leaf m
    (if strictlyTrue (leaf.marks.get m) then none else some (.bool true))
    hsel hedges hse he hP hj hn
  rw [toggled_children pre post leaf m _ s e hse he] at h1 h2
  refine ⟨h1, h2, ?_⟩
  rcases h3 with h3 | h3
  · exact h3
  · rw [h3, hpending]

/-- Two toggles with an expanded selection inside one text node whose flag
is absent or `true` give the document back. -/
theorem toggle_twice_inside (editor : Editor) (m : Mark) (sel : Range) (P : Path)
    (t : String) (pre post : List Node) (leaf : Text) (s e : Nat)
    (hsel : editor.selection = some sel)
    (hedges : sel.edges = (⟨P ++ [pre.length], s⟩, ⟨P ++ [pre.length], e⟩))
    (hse : s < e) (he : e ≤ leaf.text.length)
    (hP : Node.get? editor.children P = some (.element t (pre ++ .text leaf :: post)))
    (hn : Node.normalList editor.children = true)
    (hk : textsNormal (pre ++ .text leaf :: post) = true)
    (hflag : leaf.marks.get m = none ∨ leaf.marks.get m = some (.bool true))
    (hpending : editor.pendingMarks = none) :
    (CustomEditor.toggleMark (CustomEditor.toggleMark editor m) m).children =
      editor.children := by
  have hleaf : leaf.text ≠ "" := str_ne_empty_of_length _ (by omega)
  have hcanon : textsCanon (pre ++ .text leaf :: post) = true := by
    apply textsCanon_of_normal _ hk
    intro a ha
    have hl := congrArg List.length ha
    simp only [List.length_append, List.length_cons, List.length_nil] at hl
    have hpre : pre = [] := List.length_eq_zero.1 (by omega)
    rw [hpre] at ha
    simp only [List.nil_append, List.cons.injEq, Node.text.injEq] at ha
    rw [← ha.1]
    exact hleaf
  have hv : (leaf.marks.set m (if strictlyTrue (leaf.marks.get m) then none
        else some (.bool true))).set m
      (if strictlyTrue (if strictlyTrue (leaf.marks.get m) then none else some (.bool true))
        then none else some (.bool true)) = leaf.marks := by
    rcases hflag with h | h
    · rw [h]
      simp only [strictlyTrue, Bool.false_eq_true, if_false, if_true]
      rw [← h]
      exact Marks.set_get _ _ _
    · rw [h]
      simp only [strictlyTrue, Bool.false_eq_true, if_false, if_true]
      rw [← h]
      exact Marks.set_get _ _ _
  obtain ⟨c1, ⟨sel1, hsel1, hedges1⟩, hp1⟩ := toggle_once_inside editor m sel P t pre post leaf
    s e hsel hedges hse he hP hn hpending
  obtain ⟨R1, R2, leaf1, s1, hK, hpos, hlen, hmarks, hcanon1, hback⟩ :=
    toggle_twice_list pre post leaf m _ _ s e hse he hcanon hv
  rw [hpos] at hedges1
  simp only at hedges1
  rw [hK] at c1
  have hP1 : Node.get? (CustomEditor.toggleMark editor m).children P =
      some (.element t (R1 ++ .text leaf1 :: R2)) := by
    rw [c1]
    exact get?_updateChildren _ P _ t _ hP
  have hn1 : Node.normalList (CustomEditor.toggleMark editor m).children = true := by
    rw [c1]
    exact normalList_updateChildren _ (textsNormal_of_canon _ hcanon1 (by simp)) P _ t _ hn hP
  obtain ⟨c2, _, _⟩ := toggle_once_inside (CustomEditor.toggleMark editor m) m sel1 P t R1 R2
    leaf1 s1 (s1 + (e - s)) hsel1 hedges1 (by omega) hlen hP1 hn1 hp1
  rw [c2, hmarks, Marks.get_set, hback, c1, updateChildren_comp]
  rw [updateChildren_congr _ (fun kids => kids) P _ t _ hP rfl]
  exact updateChildren_id P _

/-! ## Lemmas: the traversal up to a text child of a block -/

theorem entriesList_append (pp : Path) : ∀ (a b : List Node) (j : Nat),
    Node.entriesList pp j (a ++ b) =
      Node.entriesList pp j a ++ Node.entriesList pp (j + a.length) b
  | [], b, j => by simp [Node.entriesList]
  | c :: a, b, j => by
    have ih := entriesList_append pp a b (j + 1)
    have : j + 1 + a.length = j + (a.length + 1) := by omega
    rw [this] at ih
    show Node.entries (pp ++ [j]) c ++ Node.entriesList pp (j + 1) (a ++ b) = _
    rw [ih]
    simp only [Node.entriesList, List.length_cons, List.append_assoc]

/-- The entries that pass a filter which rejects every path through a child
behind the child `i`: some entries of the children before it, and those of
the child `i` that pass. -/
theorem filter_entriesList_upto (pp : Path) (f : Path → Bool) (i : Nat)
    (hf : ∀ m r, i < m → f (pp ++ m :: r) = false) :
    ∀ (cs : List Node) (i0 : Nat), i0 ≤ i →
      ∃ A, (Node.entriesList pp i0 cs).filter (fun e => f e.2) =
        A ++ match cs[i - i0]? with
          | some c => (Node.entries (pp ++ [i]) c).filter (fun e => f e.2)
          | none => [] := by
  intro cs
  induction cs with
  | nil => intro i0 _; exact ⟨[], by simp [Node.entriesList]⟩
  | cons c cs ih =>
    intro i0 hi
    simp only [Node.entriesList, List.filter_append]
    by_cases h : i0 = i
    · subst h
      have h2 : (Node.entriesList pp (i0 + 1) cs).filter (fun e => f e.2) = [] := by
        apply filter_eq_nil_of
        intro e he
        obtain ⟨k, r, hk, _⟩ := Node.entriesList_path pp (i0 + 1) cs e he
        rw [hk]
        exact hf _ _ (by omega)
      exact ⟨[], by simp [h2]⟩
    · obtain ⟨A, hA⟩ := ih (i0 + 1) (by omega)
      refine ⟨(Node.entries (pp ++ [i0]) c).filter (fun e => f e.2) ++ A, ?_⟩
      rw [hA, List.append_assoc]
      have : i - i0 = (i - (i0 + 1)) + 1 := by omega
      rw [this, List.getElem?_cons_succ]

theorem compare_terminal (k m : Nat) (r : Path) :
    (Path.compare (m :: r) [k] != .gt) = decide (0 ≤ m ∧ m ≤ k) := by
  simp only [Path.compare, ord_bne, Path.compare_nil_right]
  by_cases h1 : m < k
  · have : m ≤ k := by omega
    simp [h1, this]
  · by_cases h2 : k < m
    · have : ¬ m ≤ k := by omega
      simp [h1, h2, this]
    · have : m ≤ k := by omega
      simp [h1, h2, this]

theorem compare_head_gt (i m : Nat) (x r : Path) (h : i < m) :
    (Path.compare (m :: r) (i :: x) != .gt) = false := by
  have h1 : ¬ m < i := by omega
  simp only [Path.compare, h, h1, if_true, if_false]
  rfl

/-- The nodes the traversal from the start of the document to the text
child `k` of the element at path `P` visits end with the children `0` to
`k` of that element. -/
theorem visited_upto (P : Path) : ∀ (pp : Path) (cs : List Node) (t : String)
    (kids : List Node) (k : Nat), Node.get? cs P = some (.element t kids) →
    ∃ A, (Node.entriesList pp 0 cs).filter
        (fun e => Path.compare e.2 (pp ++ P ++ [k]) != .gt) =
      A ++ Node.entriesList (pp ++ P) 0 (kids.take (k + 1)) := by
  induction P with
  | nil => intro pp cs t kids k h; simp [Node.get?] at h
  | cons i rest ih =>
    intro pp cs t kids k h
    have hf : ∀ m r, i < m →
        (Path.compare (pp ++ m :: r) (pp ++ (i :: rest) ++ [k]) != .gt) = false := by
      intro m r hm
      rw [List.append_assoc, Path.compare_append_left]
      exact compare_head_gt i m _ r hm
    obtain ⟨A, hA⟩ := filter_entriesList_upto pp
      (fun q => Path.compare q (pp ++ (i :: rest) ++ [k]) != .gt) i hf cs 0 (Nat.zero_le _)
    simp only [Nat.sub_zero] at hA
    rw [hA]
    cases rest with
    | nil =>
      simp only [Node.get?] at h
      simp only [h, Node.entries, List.filter_cons]
      have := filter_entriesList_range (pp ++ [i])
        (fun q => Path.compare q (pp ++ [i] ++ [k]) != .gt) 0 k
        (by
          intro m r
          simp only
          rw [Path.compare_append_left]; exact compare_terminal k m r) kids 0
      simp only [Nat.sub_zero, Nat.zero_max, List.drop_zero, Nat.max_self] at this
      rw [this]
      split
      · exact ⟨A ++ [(.element t kids, pp ++ [i])], by simp⟩
      · exact ⟨A, rfl⟩
    | cons i2 rest =>
      simp only [Node.get?] at h
      cases hc : cs[i]? with
      | none => simp [hc] at h
      | some c =>
        cases c with
        | text leaf => simp [hc] at h
        | element t' kids' =>
          simp only [hc] at h
          simp only [Node.entries, List.filter_cons]
          obtain ⟨B, hB⟩ := ih (pp ++ [i]) kids' t kids k h
          simp only [List.append_assoc, List.singleton_append, List.cons_append,
            List.nil_append] at hB ⊢
          rw [hB]
          split
          · exact ⟨A ++ (.element t' kids', pp ++ [i]) :: B, by simp⟩
          · exact ⟨A ++ B, by simp⟩

/-! ## Lemmas: `Editor.unhangRange` on a selection inside one block -/

theorem textsFilled_mem : ∀ (l : List Node), textsFilled l = true →
    ∀ a, Node.text a ∈ l → a.text ≠ ""
  | [], _, a, ha => by simp at ha
  | .element t kids :: rest, h, _, _ => by simp [textsFilled] at h
  | .text b :: rest, h, a, ha => by
    simp only [textsFilled, Bool.and_eq_true, bne_iff_ne, ne_eq] at h
    simp only [List.mem_cons, Node.text.injEq] at ha
    rcases ha with ha | ha
    · rw [ha]; exact h.1
    · exact textsFilled_mem rest h.2 a ha

/-- In a block with two text children or more none of them is empty. -/
theorem textsNormal_filled (kids : List Node) (hk : textsNormal kids = true)
    (hlen : 2 ≤ kids.length) (a : Text) (ha : Node.text a ∈ kids) : a.text ≠ "" := by
  apply textsFilled_mem kids _ a ha
  apply textsFilled_of_canon
  apply textsCanon_of_normal kids hk
  intro b hb
  rw [hb] at hlen
  simp at hlen

theorem textsNormal_getElem (kids : List Node) (hk : textsNormal kids = true) (k : Nat)
    (hkl : k < kids.length) : ∃ a, kids[k]? = some (.text a) := by
  have hmem := List.getElem_mem hkl
  have := textsNormal_allText kids hk _ hmem
  rw [List.getElem?_eq_getElem hkl]
  cases hc : kids[k] with
  | text a => exact ⟨a, rfl⟩
  | element t c => rw [hc] at this; simp [Node.isText] at this

theorem take_succ_succ {α : Type} (l : List α) (k : Nat) (a b : α)
    (ha : l[k]? = some a) (hb : l[k + 1]? = some b) :
    l.take (k + 2) = l.take k ++ [a, b] := by
  rw [List.take_succ, List.take_succ, ha, hb]
  simp

/-- The text nodes from the start of the document to the text child `k + 1`
of a block of text nodes end with its children `k` and `k + 1`. -/
theorem texts_upto (cs : List Node) (P : Path) (t : String) (kids : List Node) (k : Nat)
    (a b : Text) (hP : Node.get? cs P = some (.element t kids))
    (ha : kids[k]? = some (.text a)) (hb : kids[k + 1]? = some (.text b)) :
    ∃ X, Editor.nodes cs [] (P ++ [k + 1]) Node.isText .all =
      X ++ [(.text a, P ++ [k]), (.text b, P ++ [k + 1])] := by
  unfold Editor.nodes
  simp only
  have hfun : (fun e : Node × Path => inSpan [] (P ++ [k + 1]) e.2) =
      (fun e => Path.compare e.2 ([] ++ P ++ [k + 1]) != .gt) := by
    funext e
    unfold inSpan
    rw [Path.compare_nil_right]
    have : (Ordering.eq != Ordering.lt) = true := rfl
    rw [this, Bool.true_and, List.nil_append]
  rw [hfun]
  obtain ⟨A, hA⟩ := visited_upto P [] cs t kids (k + 1) hP
  rw [hA, take_succ_succ kids k _ _ ha hb, entriesList_append, List.filter_append,
    List.filter_append]
  refine ⟨A.filter (fun e => e.1.isText) ++
    (Node.entriesList ([] ++ P) 0 (kids.take k)).filter (fun e => e.1.isText), ?_⟩
  rw [List.append_assoc]
  have hlen : (kids.take k).length = k := by
    rw [List.length_take]
    have : k < kids.length := by
      by_contra hc
      rw [List.getElem?_eq_none (by omega)] at ha
      cases ha
    omega
  simp [Node.entriesList, Node.entries, Node.isText, hlen]

theorem edges_forward (r : Range) (h : Point.compare r.anchor r.focus ≠ .gt) :
    r.edges = (r.anchor, r.focus) := by
  unfold Range.edges Range.isBackward
  have : (Point.compare r.anchor r.focus == .gt) = false := by
    cases hc : Point.compare r.anchor r.focus
    · rfl
    · rfl
    · exact absurd hc h
  rw [this]
  rfl

theorem collapsed_of_edges (r : Range) (pt : Point) (h : r.edges = (pt, pt)) :
    r.isCollapsed = true := by
  unfold Range.isCollapsed
  rcases Range.edges_cases r with h1 | h1 <;> rw [h1] at h <;>
    simp only [Prod.mk.injEq] at h <;> simp [h.1, h.2]

/-- `Editor.unhangRange` on a selection from the text child `j` to the
text child `k` of one block: the start stays, the end stays in the block. -/
theorem unhangRange_inside (cs : List Node) (sel : Range) (P : Path) (t : String)
    (kids : List Node) (j k s e : Nat)
    (hP : Node.get? cs P = some (.element t kids)) (hk : textsNormal kids = true)
    (hedges : sel.edges = (⟨P ++ [j], s⟩, ⟨P ++ [k], e⟩)) (hjk : j ≤ k)
    (hkl : k < kids.length) :
    ∃ k' e', j ≤ k' ∧ k' ≤ k ∧
      (Editor.unhangRange cs sel).edges = (⟨P ++ [j], s⟩, ⟨P ++ [k'], e'⟩) := by
  unfold Editor.unhangRange
  simp only [hedges]
  split
  · exact ⟨k, e, hjk, Nat.le_refl _, hedges⟩
  · rename_i hcond
    simp only [Bool.or_eq_true, bne_iff_ne, ne_eq, not_or, Decidable.not_not,
      Bool.not_eq_true] at hcond
    obtain ⟨⟨hs, he⟩, hcol⟩ := hcond
    subst hs
    subst he
    have hlt : j < k := by
      rcases Nat.lt_or_ge j k with h | h
      · exact h
      · have : j = k := by omega
        subst this
        rw [collapsed_of_edges sel _ hedges] at hcol
        cases hcol
    obtain ⟨k0, rfl⟩ : ∃ k0, k = k0 + 1 := ⟨k - 1, by omega⟩
    obtain ⟨a, ha⟩ := textsNormal_getElem kids hk k0 (by omega)
    obtain ⟨b, hb⟩ := textsNormal_getElem kids hk (k0 + 1) hkl
    obtain ⟨X, hX⟩ := texts_upto cs P t kids k0 a b hP ha hb
    have hane : a.text ≠ "" :=
      textsNormal_filled kids hk (by omega) a (List.getElem?_mem ha)
    rw [hX]
    simp only [List.reverse_append, List.reverse_cons, List.reverse_nil, List.nil_append,
      List.singleton_append, List.cons_append, List.drop_succ_cons, List.drop_zero,
      List.find?_cons]
    have hane' : (a.text != "") = true := by simpa using hane
    simp only [hane', Bool.true_or]
    refine ⟨k0, a.text.length, by omega, by omega, ?_⟩
    apply edges_forward
    simp only [Point.compare, Path.compare_append_left]
    rcases Nat.lt_or_ge j k0 with h | h
    · simp [Path.compare, h]
    · have : j = k0 := by omega
      subst this
      have hpos : 0 < a.text.length := by
        rcases Nat.eq_zero_or_pos a.text.length with h0 | h0
        · exfalso
          apply hane
          cases hd : a.text with
          | mk d =>
            rw [hd] at h0
            have : d = [] := List.length_eq_zero.1 h0
            rw [this]
        · exact h0
      simp [Path.compare, hpos]

/-! ## Lemmas: block commands on a selection inside one block -/

/-- The edges of a selection whose two points lie in text children of the
element at path `P`. -/
theorem edges_inside (P : Path) (ja jf oa ofs : Nat) :
    ∃ j k s e, j ≤ k ∧ ((j = ja ∧ k = jf) ∨ (j = jf ∧ k = ja)) ∧
      (Range.mk ⟨P ++ [ja], oa⟩ ⟨P ++ [jf], ofs⟩).edges = (⟨P ++ [j], s⟩, ⟨P ++ [k], e⟩) := by
  have hord := Range.edges_ordered (Range.mk ⟨P ++ [ja], oa⟩ ⟨P ++ [jf], ofs⟩)
  rcases Range.edges_cases (Range.mk ⟨P ++ [ja], oa⟩ ⟨P ++ [jf], ofs⟩) with h | h
  · rw [h] at hord
    simp only [Path.compare_append_left, Path.compare] at hord
    refine ⟨ja, jf, oa, ofs, ?_, Or.inl ⟨rfl, rfl⟩, h⟩
    by_contra hc
    have h1 : jf < ja := by omega
    have h2 : ¬ ja < jf := by omega
    simp [h1, h2] at hord
  · rw [h] at hord
    simp only [Path.compare_append_left, Path.compare] at hord
    refine ⟨jf, ja, ofs, oa, ?_, Or.inr ⟨rfl, rfl⟩, h⟩
    by_contra hc
    have h1 : ja < jf := by omega
    have h2 : ¬ jf < ja := by omega
    simp [h1, h2] at hord

theorem segment_texts (kids : List Node) (hk : textsNormal kids = true) (j m : Nat) :
    ∀ n ∈ (kids.drop j).take m, n.isText = true := by
  intro n hn
  exact textsNormal_allText kids hk n (List.mem_of_mem_drop (List.mem_of_mem_take hn))

/-- The target of `Transforms.setNodes` for a selection inside one block
of text nodes: that block. -/
theorem setNodesTargets_inside (editor : Editor) (sel : Range) (P : Path) (t : String)
    (kids : List Node) (j k s e : Nat) (hsel : editor.selection = some sel)
    (hP : Node.get? editor.children P = some (.element t kids))
    (hk : textsNormal kids = true)
    (hedges : sel.edges = (⟨P ++ [j], s⟩, ⟨P ++ [k], e⟩)) (hjk : j ≤ k)
    (hkl : k < kids.length) :
    Transforms.setNodesTargets editor = [(.element t kids, P)] := by
  unfold Transforms.setNodesTargets Editor.nodesAt
  simp only [hsel]
  obtain ⟨k', e', _, _, hun⟩ := unhangRange_inside editor.children sel P t kids j k s e hP hk
    hedges hjk hkl
  rw [hun]
  exact nodes_lowest_block_inside _ P t kids j k' hP (segment_texts kids hk _ _)

theorem setNodes_inside (editor : Editor) (sel : Range) (P : Path) (t : String)
    (kids : List Node) (j k s e : Nat) (type : String) (hsel : editor.selection = some sel)
    (hP : Node.get? editor.children P = some (.element t kids))
    (hk : textsNormal kids = true)
    (hedges : sel.edges = (⟨P ++ [j], s⟩, ⟨P ++ [k], e⟩)) (hjk : j ≤ k)
    (hkl : k < kids.length) :
    Transforms.setNodes editor type =
      { editor with children := Node.mapAt (Node.setType type) P editor.children } := by
  unfold Transforms.setNodes
  rw [setNodesTargets_inside editor sel P t kids j k s e hsel hP hk hedges hjk hkl]
  rfl

/-- The nodes a selection inside the child `i` of the root visits. -/
theorem visited_top (cs : List Node) (i : Nat) (t : String) (kids : List Node) (j k : Nat)
    (h : cs[i]? = some (.element t kids)) :
    (Node.entriesList [] 0 cs).filter (fun e => inSpan [i, j] [i, k] e.2) =
      (.element t kids, [i]) :: Node.entriesList [i] j ((kids.drop j).take (k + 1 - j)) := by
  have hv := visited_inside [i] [] cs t kids j k (by simp [Node.get?, h])
  simp only [List.nil_append, List.singleton_append] at hv
  rw [hv, chain]
  simp [h, chain]

theorem getElem?_middle (pre post : List Node) (x : Node) :
    (pre ++ x :: post)[pre.length]? = some x := getElem?_append_length pre post x

theorem take_middle {α : Type} (pre post : List α) (x : α) :
    (pre ++ x :: post).take pre.length = pre := by
  simp

theorem drop_middle {α : Type} (pre post : List α) (x : α) :
    (pre ++ x :: post).drop pre.length = x :: post := by
  simp

theorem drop_middle_succ {α : Type} (pre post : List α) (x : α) :
    (pre ++ x :: post).drop (pre.length + 1) = post := by
  have : pre ++ x :: post = (pre ++ [x]) ++ post := by simp
  rw [this]
  have h2 : pre.length + 1 = (pre ++ [x]).length := by simp
  rw [h2, List.drop_left]

/-! ## Lemmas: the block commands -/

/-- A node that is no target of `Transforms.setNodes` keeps its `type`. -/
theorem setNodes_others (editor : Editor) (type : String) (p : Path)
    (hp : p ∉ (Transforms.setNodesTargets editor).map Prod.snd) :
    typeAt (Transforms.setNodes editor type).children p = typeAt editor.children p := by
  unfold Transforms.setNodes
  simp only
  rw [typeAt_foldl_setType]
  simp only [hp, if_false]

theorem head?_filterMap_texts (f : Node × Path → Option Text)
    (hf : ∀ leaf p, f (.text leaf, p) = some leaf) :
    ∀ (l : List (Node × Path)), (∀ e ∈ l, e.1.isText = true) →
    (l.filterMap f).head? = l.head?.bind f
  | [], _ => rfl
  | (.text leaf, p) :: l, _ => by simp [List.filterMap_cons, hf]
  | (.element t c, p) :: l, h => by
    have := h _ (List.mem_cons_self _ _)
    simp [Node.isText] at this

theorem isListType_of (L : String) (hL : L = "bulleted-list" ∨ L = "numbered-list")
    (kids : List Node) : Node.isListType (.element L kids) = true := by
  rcases hL with h | h <;> subst h <;> rfl

theorem contains_of (L : String) (hL : L = "bulleted-list" ∨ L = "numbered-list") :
    LIST_TYPES.contains L = true := by
  rcases hL with h | h <;> subst h <;> rfl

theorem paragraph_ne (L : String) (hL : L = "bulleted-list" ∨ L = "numbered-list") :
    ("paragraph" == L) = false := by
  rcases hL with h | h <;> subst h <;> rfl

theorem texts_nomatch (matchFn : Node → Bool) (hm : ∀ leaf, matchFn (.text leaf) = false)
    (pp : Path) (seg : List Node) (j : Nat) (hseg : ∀ n ∈ seg, n.isText = true) :
    ∀ e ∈ Node.entriesList pp j seg, matchFn e.1 = false := by
  intro e he
  have := entriesList_texts pp seg j hseg e he
  cases h : e.1 with
  | text leaf => exact hm leaf
  | element t c => rw [h] at this; simp [Node.isText] at this

/-- C1 (as amended): `CustomEditor.isMarkActive` is false without a
selection; it reads the pending marks when there are some; without pending
marks and with an expanded selection it reads the first text node the
selection touches, and only that one; with a collapsed selection it reads the
text node of the cursor, or at offset 0 the text node before it when that one
lies in the same block. -/
theorem isMarkActive_cases (editor : Editor) (format : Mark) :
    (editor.selection = none → CustomEditor.isMarkActive editor format = false) ∧
    (∀ sel ms, editor.selection = some sel → editor.pendingMarks = some ms →
      CustomEditor.isMarkActive editor format = strictlyTrue (ms.get format)) ∧
    (∀ sel, editor.selection = some sel → editor.pendingMarks = none →
      sel.isExpanded = true →
      CustomEditor.isMarkActive editor format =
        match (selectionLeaves editor).head? with
        | some leaf => strictlyTrue (leaf.marks.get format)
        | none => false) ∧
    (∀ sel leaf, editor.selection = some sel → editor.pendingMarks = none →
      sel.isExpanded = false → Editor.leaf editor.children sel.anchor.path = some leaf →
      CustomEditor.isMarkActive editor format =
        strictlyTrue ((if sel.anchor.offset = 0 then
          match Editor.previousText editor.children sel.anchor.path with
          | some (prevLeaf, prevPath) =>
            if 2 ≤ sel.anchor.path.length
                && Path.isAncestor (Path.parent sel.anchor.path) prevPath then prevLeaf
            else leaf
          | none => leaf
        else leaf).marks.get format)) := by
  refine ⟨?_, ?_, ?_, ?_⟩
  · intro h
    simp [CustomEditor.isMarkActive, Editor.marks, h]
  · intro sel ms h1 h2
    simp [CustomEditor.isMarkActive, Editor.marks, h1, h2]
  · intro sel h1 h2 h3
    unfold selectionLeaves Editor.nodesSel
    simp only [h1]
    unfold Editor.nodesAt
    rw [head?_filterMap_texts _ (fun _ _ => rfl) _
      (fun e he => (Editor.nodes_mem _ _ _ _ _ e he).2.2)]
    simp only [CustomEditor.isMarkActive, Editor.marks, h1, h2, h3, if_true]
    unfold Editor.nodesAt
    cases hh : (Editor.nodes editor.children sel.edges.1.path sel.edges.2.path
        Node.isText Mode.all).head? with
    | none => cases format <;> rfl
    | some e =>
      obtain ⟨n, p⟩ := e
      cases n with
      | text leaf => rfl
      | element t c => cases format <;> rfl
  · intro sel leaf h1 h2 h3 h4
    simp only [CustomEditor.isMarkActive, Editor.marks, h1, h2, h3, h4, Bool.false_eq_true,
      if_false]
    by_cases h0 : sel.anchor.offset = 0
    · simp only [h0, if_true]
      cases hp : Editor.previousText editor.children sel.anchor.path with
      | none => rfl
      | some pr =>
        obtain ⟨prevLeaf, prevPath⟩ := pr
        simp only
        by_cases hc : (decide (2 ≤ sel.anchor.path.length)
            && Path.isAncestor (Path.parent sel.anchor.path) prevPath) = true
        · simp only [hc, if_true]
        · simp only [hc, Bool.false_eq_true, if_false]
    · simp only [h0, if_false]

theorem isMarkActive_cases_witness :
    CustomEditor.isMarkActive mixedEditor .bold =
      match (selectionLeaves mixedEditor).head? with
      | some leaf => strictlyTrue (leaf.marks.get .bold)
      | none => false :=
  (isMarkActive_cases mixedEditor .bold).2.2.1 ⟨⟨[0, 0], 0⟩, ⟨[0, 1], 1⟩⟩ rfl rfl (by decide)

/-- C1 fails as stated: the selection touches a bold text node and then one
that is not bold; not every text node it touches carries `bold`, and
`CustomEditor.isMarkActive` returns true. -/
theorem isMarkActive_counterexample :
    selectionLeaves mixedEditor =
      [{ text := "ab", marks := { bold := some (.bool true) } }, { text := "cdef" }] ∧
    allLeavesCarry mixedEditor .bold = false ∧
    CustomEditor.isMarkActive mixedEditor .bold = true := by
  decide

/-- C3: in a document in normal form, with a valid selection whose two
points lie in the same text node, the flag `m` of which is absent or `true`,
and no pending marks while the selection is expanded, two calls of
`CustomEditor.toggleMark` with `m` in a row give a document equal to the one
before. -/
theorem toggleMark_twice (editor : Editor) (m : Mark) (sel : Range)
    (hsel : editor.selection = some sel)
    (hpath : sel.anchor.path = sel.focus.path)
    (hvalid : Editor.validSelection editor = true)
    (hn : Node.normalList editor.children = true)
    (hflag : ∀ leaf, Node.get? editor.children sel.anchor.path = some (.text leaf) →
      leaf.marks.get m = none ∨ leaf.marks.get m = some (.bool true))
    (hpending : sel.isExpanded = true → editor.pendingMarks = none) :
    (CustomEditor.toggleMark (CustomEditor.toggleMark editor m) m).children =
      editor.children := by
  cases hcol : sel.isCollapsed
  · -- expanded
    have hexp : sel.isExpanded = true := by unfold Range.isExpanded; simp [hcol]
    unfold Editor.validSelection at hvalid
    simp only [hsel, Bool.and_eq_true] at hvalid
    obtain ⟨leaf, hleaf, hao⟩ := validPoint_leaf _ _ hvalid.1
    obtain ⟨leaf2, hleaf2, hfo⟩ := validPoint_leaf _ _ hvalid.2
    rw [← hpath, hleaf] at hleaf2
    cases hleaf2
    obtain ⟨P, j, t, kids, hq, hP, hj, hk⟩ := text_parent _ _ leaf hn hleaf
    obtain ⟨pre, post, hkids, hlen⟩ := split_at_getElem? kids j _ hj
    subst hkids
    subst hlen
    have hne : sel.anchor.offset ≠ sel.focus.offset := by
      intro h
      unfold Range.isCollapsed at hcol
      simp only [decide_eq_false_iff_not] at hcol
      apply hcol
      cases ha : sel.anchor with
      | mk p1 o1 =>
        cases hf : sel.focus with
        | mk p2 o2 =>
          rw [ha, hf] at hpath h
          simp only at hpath h
          rw [hpath, h]
    have hflag' := hflag leaf hleaf
    have hanchor : sel.anchor = ⟨P ++ [pre.length], sel.anchor.offset⟩ := by rw [← hq]
    have hfocus : sel.focus = ⟨P ++ [pre.length], sel.focus.offset⟩ := by rw [← hq, hpath]
    rcases Nat.lt_or_gt_of_ne hne with hlt | hgt
    · exact toggle_twice_inside editor m sel P t pre post leaf _ _ hsel
        (edges_of_same_path _ _ _ hlt sel (Or.inl ⟨hanchor, hfocus⟩)) hlt hfo hP hn hk hflag'
        (hpending hexp)
    · exact toggle_twice_inside editor m sel P t pre post leaf _ _ hsel
        (edges_of_same_path _ _ _ hgt sel (Or.inr ⟨hanchor, hfocus⟩)) hgt hao hP hn hk hflag'
        (hpending hexp)
  · have h1 := toggleMark_collapsed editor m sel hsel hcol
    have hsel1 : (CustomEditor.toggleMark editor m).selection = some sel := by rw [h1]; exact hsel
    rw [toggleMark_collapsed _ m sel hsel1 hcol]
    show (CustomEditor.toggleMark editor m).children = editor.children
    rw [h1]

theorem toggleMark_twice_witness :
    (CustomEditor.toggleMark helloEditor .bold).children =
      [.element "paragraph" [.text { text := "hello", marks := { bold := some (.bool true) } }]] ∧
    (CustomEditor.toggleMark (CustomEditor.toggleMark helloEditor .bold) .bold).children =
      helloEditor.children :=
  ⟨by decide, toggleMark_twice helloEditor .bold ⟨⟨[0, 0], 0⟩, ⟨[0, 0], 5⟩⟩ rfl rfl
    (by decide) (by decide) (by
      intro leaf h
      have : leaf = { text := "hello" } := by
        have h2 : Node.get? helloEditor.children [0, 0] = some (.text { text := "hello" }) := by
          decide
        rw [h2] at h
        cases h
        rfl
      rw [this]
      left
      rfl) (fun _ => rfl)⟩

/-- C4: with a valid selection in a document in normal form,
`CustomEditor.isBlockActive` returns true if and only if some element of the
type `format` touches the selection, that is, has a text node at or below it
that lies between the start and the end of the selection. -/
theorem isBlockActive_iff_touching (editor : Editor) (sel : Range) (format : String)
    (hsel : editor.selection = some sel)
    (hvalid : Editor.validSelection editor = true)
    (hnormal : Node.normalList editor.children = true) :
    CustomEditor.isBlockActive editor format = true ↔
      ∃ p kids, Node.get? editor.children p = some (.element format kids) ∧
        touchesSelection editor.children sel p := by
  rw [isBlockActive_iff_exists editor sel format hsel]
  obtain ⟨hv1, hv2⟩ := validSelection_edges editor sel hsel hvalid
  obtain ⟨leaf1, hl1, _⟩ := validPoint_leaf _ _ hv1
  obtain ⟨leaf2, hl2, _⟩ := validPoint_leaf _ _ hv2
  have hord := Range.edges_ordered sel
  constructor
  · rintro ⟨p, kids, hg, hs⟩
    refine ⟨p, kids, hg, ?_⟩
    rw [inSpan_iff] at hs
    obtain ⟨hs1, hs2⟩ := hs
    unfold touchesSelection
    -- the element is above the start, above the end, or strictly between them
    by_cases h1 : Path.compare p sel.edges.1.path = .eq
    · -- above the start: the text node of the start is below it
      rw [Path.compare_eq_iff] at h1
      rcases h1 with ⟨r, hr⟩ | ⟨r, hr⟩
      · refine ⟨r, leaf1, by rw [← hr]; exact hl1, ?_, ?_⟩
        · rw [← hr, Path.compare_self]; simp
        · rw [← hr]; exact hord
      · exfalso
        cases r with
        | nil => simp at hr; rw [hr, hl1] at hg; cases hg
        | cons k r =>
          have := Node.get?_below_text _ _ leaf1 k r hl1
          rw [← hr, hg] at this; cases this
    · by_cases h2 : Path.compare p sel.edges.2.path = .eq
      · rw [Path.compare_eq_iff] at h2
        rcases h2 with ⟨r, hr⟩ | ⟨r, hr⟩
        · refine ⟨r, leaf2, by rw [← hr]; exact hl2, ?_, ?_⟩
          · rw [← hr, Path.compare_swap]
            intro h
            apply hord
            cases hc : Path.compare sel.edges.1.path sel.edges.2.path <;> simp [hc, Ordering.swap] at h ⊢
          · rw [← hr, Path.compare_self]; simp
        · exfalso
          cases r with
          | nil => simp at hr; rw [hr, hl2] at hg; cases hg
          | cons k r =>
            have := Node.get?_below_text _ _ leaf2 k r hl2
            rw [← hr, hg] at this; cases this
      · -- strictly between: any text node below the element will do
        have hn := Node.normalList_get? p _ hnormal _ _ hg
        obtain ⟨t, kids', k, r, leaf, he, hleaf⟩ := Node.normal_hasLeaf _ hn
        cases he
        refine ⟨k :: r, leaf, ?_, ?_, ?_⟩
        · rw [Node.get?_append p _ _ _ k r hg]; exact hleaf
        · rcases Path.compare_append_right p (k :: r) sel.edges.1.path with h | h
          · exact absurd h h1
          · rw [h]; exact hs1
        · rcases Path.compare_append_right p (k :: r) sel.edges.2.path with h | h
          · exact absurd h h2
          · rw [h]; exact hs2
  · rintro ⟨p, kids, hg, r, leaf, _, hc1, hc2⟩
    refine ⟨p, kids, hg, ?_⟩
    rw [inSpan_iff]
    constructor
    · rcases Path.compare_append_right p r sel.edges.1.path with h | h
      · rw [h]; simp
      · rw [← h]; exact hc1
    · rcases Path.compare_append_right p r sel.edges.2.path with h | h
      · rw [h]; simp
      · rw [← h]; exact hc2

theorem isBlockActive_iff_touching_witness :
    CustomEditor.isBlockActive exEditor "bulleted-list" = true ↔
      ∃ p kids, Node.get? exEditor.children p = some (.element "bulleted-list" kids) ∧
        touchesSelection exEditor.children ⟨⟨[0, 0], 0⟩, ⟨[1, 0, 0], 1⟩⟩ p :=
  isBlockActive_iff_touching exEditor ⟨⟨[0, 0], 0⟩, ⟨[1, 0, 0], 1⟩⟩ "bulleted-list" rfl
    (by decide) (by decide)

/-- C7: with the selection in the text children of a top-level paragraph,
`CustomEditor.toggleBlock` with a list type `L` puts in the place of the
paragraph one element of type `L` whose only child is a `list-item` with the
children of the paragraph; the nodes before and behind it stay. -/
theorem toggleBlock_list_on (editor : Editor) (L : String) (pre post kids : List Node)
    (ja jf oa ofs : Nat)
    (hL : L = "bulleted-list" ∨ L = "numbered-list")
    (hdoc : editor.children = pre ++ .element "paragraph" kids :: post)
    (hk : textsNormal kids = true)
    (hsel : editor.selection = some ⟨⟨[pre.length, ja], oa⟩, ⟨[pre.length, jf], ofs⟩⟩)
    (hja : ja < kids.length) (hjf : jf < kids.length) :
    (CustomEditor.toggleBlock editor L).children =
      pre ++ .element L [.element "list-item" kids] :: post := by
  obtain ⟨j, k, s, e, hjk, hcases, hedges⟩ := edges_inside [pre.length] ja jf oa ofs
  simp only [List.singleton_append] at hedges
  have hkl : k < kids.length := by
    rcases hcases with ⟨_, h⟩ | ⟨_, h⟩ <;> rw [h] <;> assumption
  have hi : editor.children[pre.length]? = some (.element "paragraph" kids) := by
    rw [hdoc]; exact getElem?_middle _ _ _
  have hP : Node.get? editor.children [pre.length] = some (.element "paragraph" kids) := by
    simp [Node.get?, hi]
  have hvis := visited_top editor.children pre.length "paragraph" kids j k hi
  -- the format is not active
  have hact : CustomEditor.isBlockActive editor L = false := by
    unfold CustomEditor.isBlockActive Editor.nodesSel Editor.nodesAt Editor.nodes
    simp only [hsel, hedges, hvis, List.filter_cons, Node.hasType, paragraph_ne L hL,
      Bool.false_eq_true, if_false]
    rw [filter_eq_nil_of]
    · rfl
    · exact texts_nomatch (Node.hasType L) (fun _ => rfl) _ _ _ (segment_texts kids hk _ _)
  -- nothing to unwrap
  have hunwrap : Transforms.unwrapNodes editor Node.isListType = editor := by
    unfold Transforms.unwrapNodes Editor.nodes
    simp only [hsel, hedges, hvis, List.foldl_cons]
    have hstep : lowestStep Node.isListType (none, [])
        (.element "paragraph" kids, [pre.length]) = (none, []) := by
      simp [lowestStep, Node.isListType, LIST_TYPES]
    rw [hstep, foldl_lowestStep_nomatch]
    · rfl
    · exact texts_nomatch Node.isListType (fun _ => rfl) _ _ _ (segment_texts kids hk _ _)
  unfold CustomEditor.toggleBlock
  simp only [hact, hunwrap, contains_of L hL, Bool.false_eq_true, if_false, if_true,
    Bool.not_false, Bool.and_self]
  rw [setNodes_inside editor _ [pre.length] "paragraph" kids j k s e "list-item" hsel hP hk
    (by simpa using hedges) hjk hkl]
  -- the wrap
  have hcs2 : Node.mapAt (Node.setType "list-item") [pre.length] editor.children =
      pre ++ .element "list-item" kids :: post := by
    rw [hdoc]
    exact modifyNth_append _ pre post _
  rw [hcs2]
  unfold Transforms.wrapNodes Editor.nodesAt
  simp only [hsel, hedges]
  have hP2 : Node.get? (pre ++ Node.element "list-item" kids :: post) [pre.length] =
      some (.element "list-item" kids) := by
    simp only [Node.get?, getElem?_middle]
  have hfound := nodes_lowest_block_inside _ [pre.length] "list-item" kids j k hP2
    (segment_texts kids hk _ _)
  simp only [List.singleton_append] at hfound
  rw [hfound]
  simp only [List.head?_cons, List.getLast?_singleton, if_true, Path.parent, List.dropLast,
    List.length_nil, List.getD_cons_zero, Node.updateChildren, spliceWrap]
  rw [take_middle, drop_middle, drop_middle_succ]
  simp

theorem toggleBlock_list_on_witness :
    (CustomEditor.toggleBlock lastParagraphEditor "numbered-list").children =
      [para "a", .element "bulleted-list" [.element "list-item" [.text { text := "b" }]],
       .element "numbered-list" [.element "list-item" [.text { text := "c" }]]] :=
  toggleBlock_list_on lastParagraphEditor "numbered-list"
    [para "a", .element "bulleted-list" [.element "list-item" [.text { text := "b" }]]] []
    [.text { text := "c" }] 0 0 1 0 (Or.inr rfl) rfl rfl rfl (by decide) (by decide)

/-- C8: with the selection in the text children of a `list-item` that is
the only child of a top-level element of the list type `L`,
`CustomEditor.toggleBlock` with `L` puts in the place of that element a
`paragraph` with the children of the `list-item`; the nodes before and
behind it stay, and no element of type `L` is left in its place. -/
theorem toggleBlock_list_off (editor : Editor) (L : String) (pre post kids : List Node)
    (ja jf oa ofs : Nat)
    (hL : L = "bulleted-list" ∨ L = "numbered-list")
    (hdoc : editor.children = pre ++ .element L [.element "list-item" kids] :: post)
    (hk : textsNormal kids = true)
    (hsel : editor.selection =
      some ⟨⟨[pre.length, 0, ja], oa⟩, ⟨[pre.length, 0, jf], ofs⟩⟩)
    (hja : ja < kids.length) (hjf : jf < kids.length) :
    (CustomEditor.toggleBlock editor L).children =
      pre ++ .element "paragraph" kids :: post := by
  obtain ⟨j2, k2, s2, e2, hjk2, hcases2, hedges2⟩ := edges_inside [pre.length] ja jf oa ofs
  simp only [List.singleton_append] at hedges2
  have hkl2 : k2 < kids.length := by
    rcases hcases2 with ⟨_, h⟩ | ⟨_, h⟩ <;> rw [h] <;> assumption
  obtain ⟨j, k, s, e, hjk, hcases, hedges⟩ := edges_inside [pre.length, 0] ja jf oa ofs
  simp only [List.cons_append, List.nil_append] at hedges
  have hkl : k < kids.length := by
    rcases hcases with ⟨_, h⟩ | ⟨_, h⟩ <;> rw [h] <;> assumption
  have hi : editor.children[pre.length]? = some (.element L [.element "list-item" kids]) := by
    rw [hdoc]; exact getElem?_middle _ _ _
  have hP : Node.get? editor.children [pre.length, 0] = some (.element "list-item" kids) := by
    simp [Node.get?, hi]
  have hvis := visited_inside [pre.length, 0] [] editor.children "list-item" kids j k hP
  simp only [List.nil_append, List.cons_append] at hvis
  have hchain : chain [] editor.children [pre.length, 0] =
      [(.element L [.element "list-item" kids], [pre.length]),
       (.element "list-item" kids, [pre.length, 0])] := by
    rw [chain]
    simp [hi, chain]
  rw [hchain] at hvis
  -- the format is active
  have hact : CustomEditor.isBlockActive editor L = true := by
    unfold CustomEditor.isBlockActive Editor.nodesSel Editor.nodesAt Editor.nodes
    simp only [hsel, hedges, hvis, List.cons_append, List.filter_cons, Node.hasType, beq_self_eq_true,
      if_true]
    rfl
  -- the unwrap
  have hunwrap : Transforms.unwrapNodes editor Node.isListType =
      { editor with
        children := pre ++ .element "list-item" kids :: post
        selection := some ⟨⟨[pre.length, ja], oa⟩, ⟨[pre.length, jf], ofs⟩⟩ } := by
    unfold Transforms.unwrapNodes Editor.nodes
    simp only [hsel, hedges, hvis, List.cons_append, List.nil_append, List.foldl_cons]
    have hstep1 : lowestStep Node.isListType (none, [])
        (.element L [.element "list-item" kids], [pre.length]) =
        (some (.element L [.element "list-item" kids], [pre.length]), []) := by
      simp [lowestStep, isListType_of L hL]
    have hstep2 : lowestStep Node.isListType
        (some (.element L [.element "list-item" kids], [pre.length]), [])
        (.element "list-item" kids, [pre.length, 0]) =
        (some (.element L [.element "list-item" kids], [pre.length]), []) := by
      simp [lowestStep, Node.isListType, LIST_TYPES]
    rw [hstep1, hstep2, foldl_lowestStep_nomatch]
    · simp only [List.nil_append, Option.toList, List.foldr_cons, List.foldr_nil]
      unfold unwrapOne
      have hg : Node.get? editor.children [pre.length] =
          some (.element L [.element "list-item" kids]) := by
        simp [Node.get?, hi]
      have hspan : inSpan [pre.length, 0, j] [pre.length, 0, k] [pre.length, 0] = true := by
        have := inSpan_append [pre.length, 0] [j] [k] []
        simp only [List.append_nil, List.cons_append, List.nil_append] at this
        rw [this]; exact inSpan_nil _ _
      have hr : List.range 1 = [0] := rfl
      simp only [hg, List.getLast?_singleton, List.length_singleton, hr,
        List.filter_cons, List.singleton_append, hspan, if_true, List.filter_nil,
        List.head?_cons, List.getLast?_singleton, hsel, Option.map_some', Path.parent,
        List.dropLast, Node.updateChildren, spliceLift, hi]
      have hlift : ∀ x, Path.afterLift [pre.length] 0 0 1 [pre.length, 0, x] = [pre.length, x] := by
        intro x
        simp [Path.afterLift]
      rw [hlift, hlift, hdoc, take_middle, drop_middle_succ]
      simp
    · exact texts_nomatch Node.isListType (fun _ => rfl) _ _ _ (segment_texts kids hk _ _)
  unfold CustomEditor.toggleBlock
  simp only [hact, hunwrap, if_true, Bool.not_true, Bool.false_and, Bool.false_eq_true,
    if_false]
  have hP2 : Node.get? (pre ++ Node.element "list-item" kids :: post) [pre.length] =
      some (.element "list-item" kids) := by
    simp only [Node.get?, getElem?_middle]
  rw [setNodes_inside _ _ [pre.length] "list-item" kids j2 k2 s2 e2 "paragraph" rfl hP2 hk
    (by simpa using hedges2) hjk2 hkl2]
  exact modifyNth_append _ pre post _

theorem toggleBlock_list_off_witness :
    (CustomEditor.toggleBlock listItemEditor "bulleted-list").children =
      [para "a", .element "paragraph" [.text { text := "b" }], para "c"] :=
  toggleBlock_list_off listItemEditor "bulleted-list" [para "a"] [para "c"]
    [.text { text := "b" }] 0 0 0 1 (Or.inl rfl) rfl rfl rfl (by decide) (by decide)

/-- C9 (as amended): without a stored entry the initial value is the default
document of the source, one paragraph with the text `a line of a text in
paragraph`; a stored text that `JSON.parse` rejects makes the load step
throw; a stored text that parses gives the parsed value when that is truthy
and the default document otherwise. -/
theorem initialValue_cases :
    initialValue none = .ok defaultValue ∧
    singleParagraphText defaultValue = some "a line of a text in paragraph" ∧
    (∀ text : String, JSON.parse text = none → initialValue (some text) = .error ()) ∧
    (∀ (text : String) (v : Json), JSON.parse text = some v →
      initialValue (some text) = .ok (if v.truthy then v else defaultValue)) := by
  refine ⟨rfl, rfl, ?_, ?_⟩
  · intro text h
    simp [initialValue, storedText, h]
  · intro text v h
    simp only [initialValue, storedText, h]
    split <;> rfl

theorem initialValue_cases_witness :
    initialValue (some "not json") = .error () :=
  initialValue_cases.2.2.1 "not json" rfl

/-- C9 fails as stated: the default document has the text `a line of a text
in paragraph`, not the empty text, and for the stored text `\x7b"type":`,
which is not JSON, the load step throws. -/
theorem initialValue_counterexample :
    (initialValue none).toOption.bind singleParagraphText = some "a line of a text in paragraph" ∧
    singleParagraphText specDefaultValue = some "" ∧
    JSON.parse "\x7b\"type\":" = none ∧
    initialValue (some "\x7b\"type\":") = .error () := by
  refine ⟨by decide, by decide, rfl, rfl⟩

/-- C10 (as amended): `Leaf` wraps the children once for each truthy flag
among `bold`, `code`, `italic` and `underline`, and in a `span`; the wrapper
of `underline` (`u`) is the outermost of the flag wrappers, then `em`, then
`code`, and `strong` is the innermost. -/
theorem Leaf_nesting (children : Markup) (leaf : Text) :
    Leaf children leaf = Markup.tag "span" (nestOuterFirst leaf sourceOrder children) ∧
    (Leaf children leaf).depth = children.depth + truthyCount leaf + 1 := by
  constructor
  · simp only [Leaf, nestOuterFirst, sourceOrder, Marks.get]
  · simp only [Leaf, truthyCount, Marks.get, List.filter]
    cases truthy leaf.marks.bold <;> cases truthy leaf.marks.code <;>
      cases truthy leaf.marks.italic <;> cases truthy leaf.marks.underline <;> simp [Markup.depth]

/-- C10 fails as stated: a leaf with `bold`, `italic` and `underline` all
`true` renders as `u` around `em` around `strong` around the text, not as
`strong` around `em` around `u`. -/
theorem Leaf_order_counterexample :
    Leaf (.text "x") boldItalicUnderline
      = .tag "span" (.tag "u" (.tag "em" (.tag "strong" (.text "x")))) ∧
    Leaf (.text "x") boldItalicUnderline
      ≠ .tag "span" (.tag "strong" (.tag "em" (.tag "u" (.text "x")))) ∧
    Leaf (.text "x") boldItalicUnderline
      ≠ .tag "span" (nestOuterFirst boldItalicUnderline specOrder (.text "x")) := by
  decide

end TextEditor
